import Mathlib

/-!
# AlphariaV1 reading assessment: the matcher, the word aligner and the session

A shallow embedding of `src/js/take-reading-test.js`: the lexical matcher
(`cleanWord`, `checkMatch`, `checkPhraseMatch`, `getLetterMappings`, `dist`), the
word aligner that `handleInput` runs in the `sentence_reading` and `oral_reading`
stages, and the assessment session (the levels and `finishTest`, the rendering of a
stage, `handleInput`, `handleTimeout` and the closures they pass to `setTimeout`),
followed by the properties proved about them.

Conventions of the embedding

* A JavaScript string is the list of its UTF-16 code units, `Str := List Char`, taken
  over the Basic Multilingual Plane, where a code unit is a character.  Every string
  that `checkMatch` compares has gone through `cleanWord`, hence holds only `a-z` and
  `0-9`.
* A JavaScript function that can raise a `TypeError` returns an `Option`; `none` is the
  raised exception.  The mutable `testState` is passed explicitly.
* The global variables of the page (`testState`, `currentStageIndex`, `currentSubIndex`,
  `letterStep`, `passageMode`, `interactionMode`) are the fields of `Session`.  A handler
  maps a session to an `Outcome`: it returned, or it raised an exception that nothing
  catches, either way leaving a state behind.  A closure passed to `setTimeout` is kept
  as data in `Session.timers` and runs when an `Event.timer` selects it; the order of
  events is not constrained.  `renderCurrentStage` calls itself through the render
  functions, each time after `currentStageIndex++`, so it is given one unit of fuel per
  stage.  The page, the speech recogniser and the store are not part of the embedding;
  `Math.random` enters through the field `shuffle`.
* A JavaScript number is a double.  The quotient and the product in `finishTest` are
  each rounded to the nearest double, ties to the even significand, and `Math.round`
  is the floor of `x + 1/2` taken on the exact value of the double `x`.  A double is
  given as a fraction of two natural numbers.
* `String.prototype.toLowerCase` is given on ASCII and on the two other code points
  whose lower case contains an ASCII letter (U+212A, U+0130); other code units are left
  as they are.  Composed with the filter `/[^a-z0-9]/g` of `cleanWord` this is exact on
  every string; on its own it is exact on strings whose other letters have no case.
-/

namespace Alpharia

/-! ## Strings -/

/-- A JavaScript string as the list of its code units. -/
abbrev Str := List Char

/-- The class `\s` of a JavaScript regular expression, which is also what
`String.prototype.trim` removes: WhiteSpace and LineTerminator. -/
def isWhiteSpace (c : Char) : Bool :=
  let n := c.toNat
  n == 9 || n == 10 || n == 11 || n == 12 || n == 13 || n == 32 || n == 0xA0 ||
  n == 0x1680 || (decide (0x2000 ≤ n) && decide (n ≤ 0x200A)) || n == 0x2028 ||
  n == 0x2029 || n == 0x202F || n == 0x205F || n == 0x3000 || n == 0xFEFF

/-- LineTerminator: the code units that `.` of a regular expression does not match. -/
def isLineTerminator (c : Char) : Bool :=
  let n := c.toNat
  n == 10 || n == 13 || n == 0x2028 || n == 0x2029

/-- The class `[a-z0-9]`. -/
def isLowerAlnum (c : Char) : Bool :=
  (decide (97 ≤ c.toNat) && decide (c.toNat ≤ 122)) ||
  (decide (48 ≤ c.toNat) && decide (c.toNat ≤ 57))

/-- The class `\d`, that is `[0-9]`. -/
def isDigit (c : Char) : Bool :=
  decide (48 ≤ c.toNat) && decide (c.toNat ≤ 57)

/-- An ASCII letter, `A-Z` or `a-z`. -/
def isAsciiLetter (c : Char) : Bool :=
  (decide (65 ≤ c.toNat) && decide (c.toNat ≤ 90)) ||
  (decide (97 ≤ c.toNat) && decide (c.toNat ≤ 122))

/-- Lower case of one code unit: `A-Z` to `a-z`, KELVIN SIGN to `k`, and
LATIN CAPITAL LETTER I WITH DOT ABOVE to `i` followed by U+0307. -/
def lowerChar (c : Char) : List Char :=
  if 65 ≤ c.toNat ∧ c.toNat ≤ 90 then [Char.ofNat (c.toNat + 32)]
  else if c.toNat = 0x212A then ['k']
  else if c.toNat = 0x130 then ['i', Char.ofNat 0x307]
  else [c]

/-- The method `String.prototype.toLowerCase`. -/
def toLowerCase (s : Str) : Str :=
  s.flatMap lowerChar

/-- The method `String.prototype.trim`. -/
def trim (s : Str) : Str :=
  ((s.dropWhile isWhiteSpace).reverse.dropWhile isWhiteSpace).reverse

/-- Whether `t` is an initial segment of `s`. -/
def startsWith : Str → Str → Bool
  | _, [] => true
  | [], _ :: _ => false
  | c :: s, d :: t => c == d && startsWith s t

/-- The method `s.includes(t)`: `t` occurs in `s` as a contiguous substring. -/
def includes : Str → Str → Bool
  | [], t => t.isEmpty
  | c :: s, t => startsWith (c :: s) t || includes s t

/-- With a regular expression: `s.split(/\s+/)`.  The flag says that the previous
code unit was white space, so that a maximal run of white space is one separator. -/
def splitWsFrom : Bool → Str → List Str
  | _, [] => [[]]
  | prevWs, c :: rest =>
    if isWhiteSpace c then
      if prevWs then splitWsFrom true rest else [] :: splitWsFrom true rest
    else
      match splitWsFrom false rest with
      | tok :: toks => (c :: tok) :: toks
      | [] => [[c]]

/-- The call `s.split(/\s+/)`. -/
def splitWs (s : Str) : List Str :=
  splitWsFrom false s

/-- The call `s.split(sep)` for a separator of one code unit, as in `text.split(' ')`. -/
def splitChar (sep : Char) : Str → List Str
  | [] => [[]]
  | c :: rest =>
    if c = sep then [] :: splitChar sep rest
    else
      match splitChar sep rest with
      | tok :: toks => (c :: tok) :: toks
      | [] => [[c]]

/-- The first piece of `s.split(" or ")`: what stands before the first `" or "`. -/
def beforeOr : Str → Str
  | [] => []
  | c :: rest =>
    if startsWith (c :: rest) [' ', 'o', 'r', ' '] then [] else c :: beforeOr rest

/-- After an opening parenthesis, the lazy `.*?\)` of `/\(.*?\)/`: the rest of the
string after the first `)`, provided no line terminator comes before it. -/
def closeParen : Str → Option Str
  | [] => none
  | c :: rest =>
    if c = ')' then some rest
    else if isLineTerminator c then none
    else closeParen rest

/-- The call `s.replace(/\(.*?\)/g, "")`, with one unit of fuel per code unit. -/
def stripParensFuel : Nat → Str → Str
  | 0, s => s
  | _ + 1, [] => []
  | n + 1, c :: rest =>
    if c = '(' then
      match closeParen rest with
      | some r => stripParensFuel n r
      | none => c :: stripParensFuel n rest
    else c :: stripParensFuel n rest

/-- The call `s.replace(/\(.*?\)/g, "")`. -/
def stripParens (s : Str) : Str :=
  stripParensFuel s.length s

/-- The source's `cleanWord`: `w ? w.toLowerCase().replace(/[^a-z0-9]/g, '') : ''`. -/
def cleanWord (w : Str) : Str :=
  (toLowerCase w).filter isLowerAlnum

/-! ## Edit distance -/

/-- The minimum of three numbers, `Math.min(x, y, z)`. -/
def min3 (x y z : Nat) : Nat :=
  min x (min y z)

/-- The inner loop of `dist` for one row `i`: the cells `m[i][j]`, `j` from the current
column to `a.length`.  The arguments are the rest of `a` from `a[j-1]` on, the code unit
`b[i-1]`, the previous row from `m[i-1][j-1]` on, and the cell `m[i][j-1]` to the left. -/
def distRow (bc : Char) : Str → List Nat → Nat → List Nat
  | ac :: a, diag :: up :: prev, left =>
    let cell := if bc = ac then diag else min3 diag left up + 1
    cell :: distRow bc a (up :: prev) cell
  | _, _, _ => []

/-- The outer loop of `dist`: from row `m[i]` to the last row, over the rest of `b`
from `b[i]` on.  Each new row starts with `m[i+1][0] = i + 1`. -/
def distRows (a : Str) : Str → Nat → List Nat → List Nat
  | [], _, row => row
  | bc :: b, i, row => distRows a b (i + 1) ((i + 1) :: distRow bc a row (i + 1))

/-- The source's `dist(a, b)`: the matrix `m` is filled row by row, row `0` being
`0, 1, ..., a.length`, and the result is `m[b.length][a.length]`. -/
def dist (a b : Str) : Nat :=
  if a.length = 0 then b.length
  else if b.length = 0 then a.length
  else (distRows a b 0 (List.range (a.length + 1))).getLastD 0

/-! ## Lexical matcher -/

/-- The table `DIGIT_MAP` of `checkMatch`. -/
def DIGIT_MAP : List (Str × List Str) :=
  [("0".toList, ["zero".toList]), ("1".toList, ["one".toList]),
   ("2".toList, ["two".toList]), ("3".toList, ["three".toList]),
   ("4".toList, ["four".toList]), ("5".toList, ["five".toList]),
   ("6".toList, ["six".toList]), ("7".toList, ["seven".toList]),
   ("8".toList, ["eight".toList]), ("9".toList, ["nine".toList]),
   ("10".toList, ["ten".toList]), ("11".toList, ["eleven".toList]),
   ("12".toList, ["twelve".toList]), ("20".toList, ["twenty".toList]),
   ("100".toList, ["hundred".toList, "one hundred".toList])]

/-- The object literal returned by the source's `getLetterMappings`. -/
def getLetterMappings : List (Str × List Str) :=
  [("b".toList, ["be".toList, "bee".toList]),
   ("c".toList, ["see".toList, "sea".toList, "si".toList, "ci".toList]),
   ("d".toList, ["dee".toList]),
   ("f".toList, ["eff".toList]),
   ("g".toList, ["jee".toList, "gee".toList]),
   ("h".toList, ["aitch".toList, "hey".toList]),
   ("i".toList, ["eye".toList]),
   ("j".toList, ["jay".toList]),
   ("k".toList, ["kay".toList, "key".toList, "cay".toList]),
   ("l".toList, ["el".toList, "ell".toList]),
   ("m".toList, ["em".toList]),
   ("n".toList, ["en".toList]),
   ("o".toList, ["oh".toList]),
   ("p".toList, ["pee".toList, "pea".toList]),
   ("q".toList, ["cue".toList, "queue".toList, "kew".toList]),
   ("r".toList, ["are".toList, "ar".toList]),
   ("s".toList, ["ess".toList]),
   ("t".toList, ["tea".toList, "tee".toList]),
   ("u".toList, ["you".toList]),
   ("v".toList, ["vee".toList]),
   ("w".toList, ["double u".toList, "doubleplay".toList, "doubleyou".toList]),
   ("x".toList, ["ex".toList]),
   ("y".toList, ["why".toList, "wi".toList]),
   ("z".toList, ["zee".toList, "zed".toList])]

/-- The names that every object literal inherits from `Object.prototype`. -/
def objectPrototypeKeys : List Str :=
  ["constructor".toList, "hasOwnProperty".toList, "isPrototypeOf".toList,
   "propertyIsEnumerable".toList, "toLocaleString".toList, "toString".toList,
   "valueOf".toList, "__proto__".toList, "__defineGetter__".toList,
   "__defineSetter__".toList, "__lookupGetter__".toList, "__lookupSetter__".toList]

/-- What `obj[key]` evaluates to for an object literal whose own values are arrays. -/
inductive PropRead where
  | own (values : List Str)
  | inherited
  | undefined
  deriving DecidableEq, Repr

/-- The read `obj[key]` of an object literal: an own entry, else a member inherited
from `Object.prototype` (a function or an object: truthy, with no method `some`),
else `undefined`. -/
def propRead (obj : List (Str × List Str)) (key : Str) : PropRead :=
  match obj.lookup key with
  | some values => PropRead.own values
  | none => if objectPrototypeKeys.contains key then PropRead.inherited else PropRead.undefined

/-- The source's `checkPhraseMatch(spoken, target)`.  The quotient `pct` is taken in the
rationals; the double-precision quotient compares with `0.75` in the same way as long
as the target has fewer than `2^52` keywords. -/
def checkPhraseMatch (spoken target : Str) : Bool :=
  let cleanTarget := trim (beforeOr (trim (stripParens target)))
  if cleanTarget = [] then false
  else
    let sWords := splitWs (toLowerCase spoken)
    let tWords := splitWs (toLowerCase cleanTarget)
    let matchCount : Nat := tWords.foldl
      (fun m tw =>
        if sWords.any (fun sw => sw == tw || (decide (tw.length > 3) && decide (dist sw tw ≤ 1)))
        then m + 1 else m) 0
    let pct : ℚ := (matchCount : ℚ) / (tWords.length : ℚ)
    decide (pct ≥ 3 / 4)

/-- The source's `checkMatch(spoken, target)`.  The result `none` is the `TypeError`
raised by `map[t].some(...)` when `map[t]` is a member inherited from
`Object.prototype`.  The keys read from `DIGIT_MAP` are strings of digits, which no
inherited member is named by, so that table is read by a plain lookup. -/
def checkMatch (spoken target : Str) : Option Bool :=
  if spoken = [] ∨ target = [] then some false
  else
    let s := cleanWord spoken
    let t := cleanWord target
    let allDigits := !s.isEmpty && s.all isDigit
    let s_norm :=
      if allDigits then
        match DIGIT_MAP.lookup s with
        | some (w :: _) => w
        | _ => s
      else s
    if allDigits && (match DIGIT_MAP.lookup s with
                     | some ws => ws.contains t
                     | none => false) then some true
    else if s = t then some true
    else if s_norm = t then some true
    else if includes s t then some true
    else if decide (t.length = 1) && decide (s.length > 1) &&
        (!s.isEmpty && s.all (fun c => [c] == t)) then some true
    else
      let spokenWords := splitWs s
      if decide (spokenWords.length > 1) && spokenWords.all (fun w => w == t) then some true
      else
        match propRead getLetterMappings t with
        | PropRead.inherited => none
        | PropRead.own opts =>
          if opts.any (fun opt => includes s (cleanWord opt)) then some true
          else if decide (t.length > 3) && decide (dist s t ≤ 1) then some true
          else if decide ((splitChar ' ' t).length > 1) && checkPhraseMatch s t then some true
          else some false
        | PropRead.undefined =>
          if decide (t.length > 3) && decide (dist s t ≤ 1) then some true
          else if decide ((splitChar ' ' t).length > 1) && checkPhraseMatch s t then some true
          else some false

/-! ## Word aligner -/

/-- The `status` of a target word: one of the strings `'pending'`, `'correct'` and
`'incorrect'`. -/
inductive Status where
  | pending
  | correct
  | incorrect
  deriving DecidableEq, Repr

/-- An element of `testState.passageWords`: `{ original, clean, status }`. -/
structure Word where
  original : Str
  clean : Str
  status : Status
  deriving DecidableEq, Repr

/-- The part of `testState` that the aligner reads and writes. -/
structure Reading where
  passageWords : List Word
  lastMarkedWordIndex : Int
  deriving DecidableEq, Repr

/-- The target sequence built by `renderSentenceStage` and `prepareReadingPassage`:
`text.split(' ').map(w => ({ original: w, clean: cleanWord(w), status: 'pending' }))`. -/
def buildWords (text : Str) : List Word :=
  (splitChar ' ' text).map (fun w => { original := w, clean := cleanWord w, status := Status.pending })

/-- The attempt as `renderSentenceStage` leaves it: a fresh target sequence and the
cursor reset to `-1`. -/
def renderSentence (text : Str) : Reading :=
  { passageWords := buildWords text, lastMarkedWordIndex := -1 }

/-- The assignment `words[i].status = status`. -/
def setStatus (words : List Word) (i : Nat) (status : Status) : List Word :=
  match words[i]? with
  | some w => words.set i { w with status := status }
  | none => words

/-- The status of `words[i]`, when there is such a word. -/
def statusAt (words : List Word) (i : Nat) : Option Status :=
  (words[i]?).map (fun w => w.status)

/-- The word `words[i]` for an integer index; there is none at a negative index. -/
def wordAt (words : List Word) (i : Int) : Option Word :=
  if i < 0 then none else words[i.toNat]?

/-- The loop `for (let skipped = currentIdx; skipped < targetIdx; skipped++)`, which
sets each pending word it visits to `'incorrect'`; `count` is `targetIdx - skipped`. -/
def markSkipped : (count : Nat) → (skipped : Nat) → List Word → List Word
  | 0, _, words => words
  | n + 1, skipped, words =>
    markSkipped n (skipped + 1)
      (if statusAt words skipped = some Status.pending
       then setStatus words skipped Status.incorrect else words)

/-- The loop `for (let offset = 0; offset <= 2; offset++)` over the offsets still to be
tried.  The result is `none` when a `TypeError` is raised (by `checkMatch`, or by reading
`status` of the undefined `words[targetIdx]` at a negative index), `some none` when the
loop ends without a match and `some (some targetIdx)` at the first match. -/
def scanWindow (words : List Word) (spoken : Str) (currentIdx : Int) :
    List Nat → Option (Option Nat)
  | [] => some none
  | offset :: more =>
    let targetIdx : Int := currentIdx + offset
    if targetIdx ≥ words.length then some none
    else if targetIdx < 0 then none
    else
      match words[targetIdx.toNat]? with
      | none => none
      | some targetWord =>
        if targetWord.status ≠ Status.pending then scanWindow words spoken currentIdx more
        else
          match checkMatch spoken targetWord.clean with
          | none => none
          | some true => some (some targetIdx.toNat)
          | some false => scanWindow words spoken currentIdx more

/-- The body of `text.split(/\s+/).forEach(spoken => ...)` in the `sentence_reading` and
`oral_reading` branches of `handleInput`, for one spoken token.  The result is `none`
when the body raises, which happens before any assignment. -/
def alignToken (st : Reading) (spoken : Str) : Option Reading :=
  if spoken = [] ∨ (trim spoken).length = 0 then some st
  else
    let currentIdx : Int := st.lastMarkedWordIndex + 1
    match scanWindow st.passageWords spoken currentIdx [0, 1, 2] with
    | none => none
    | some none => some st
    | some (some targetIdx) =>
      let words := markSkipped (targetIdx - currentIdx.toNat) currentIdx.toNat st.passageWords
      some { passageWords := setStatus words targetIdx Status.correct,
             lastMarkedWordIndex := targetIdx }

/-- The state of the attempt once one token has been handled: the result of the body,
or the unchanged state when the body raised. -/
def afterToken (st : Reading) (spoken : Str) : Reading :=
  (alignToken st spoken).getD st

/-- The `forEach` over the tokens of one transcript.  An exception leaves the loop, and
the handler; the flag tells whether the loop ran to its end. -/
def alignTokens : Reading → List Str → Reading × Bool
  | st, [] => (st, true)
  | st, spoken :: more =>
    match alignToken st spoken with
    | none => (st, false)
    | some st1 => alignTokens st1 more

/-- The aligner part of `handleInput(text)`: `text.split(/\s+/).forEach(...)`. -/
def alignChunk (st : Reading) (text : Str) : Reading × Bool :=
  alignTokens st (splitWs text)

/-- The attempt after a sequence of transcripts, each handled by `handleInput`. -/
def runChunks (st : Reading) (chunks : List Str) : Reading :=
  chunks.foldl (fun s text => (alignChunk s text).1) st

/-- The `forEach` of `handleTimeout` in the `sentence_reading` stage:
`if (w.status === 'pending') w.status = 'incorrect'`. -/
def markPendingIncorrect (words : List Word) : List Word :=
  words.map (fun w => if w.status = Status.pending then { w with status := Status.incorrect } else w)

/-- The target words after `handleTimeout` in the `sentence_reading` stage: nothing
happens when the guard `sentenceAdvancing` is set. -/
def handleTimeoutWords (sentenceAdvancing : Bool) (words : List Word) : List Word :=
  if sentenceAdvancing then words else markPendingIncorrect words

/-! ## Levels and the result finalizer -/

/-- The level names of `LEVEL_ORDER`, the only values that `wordListLevel`,
`passageLevel` and the placed level ever take. -/
inductive Level where
  | pre_primer
  | primer
  | level_1
  | level_2
  | level_3
  | level_4
  | level_5
  | level_6
  deriving DecidableEq, Repr

/-- The constant `LEVEL_ORDER`. -/
def LEVEL_ORDER : List Level :=
  [Level.pre_primer, Level.primer, Level.level_1, Level.level_2, Level.level_3,
   Level.level_4, Level.level_5, Level.level_6]

/-- An entry `{ count, pass }` of `WORD_LIST_CONFIG`. -/
structure WordListConfig where
  count : Nat
  pass : Nat
  deriving DecidableEq, Repr

/-- The constant `WORD_LIST_CONFIG`; the key `level_5` is written twice in the source,
with the same value. -/
def WORD_LIST_CONFIG : Level → WordListConfig
  | Level.pre_primer => { count := 10, pass := 8 }
  | Level.primer => { count := 10, pass := 8 }
  | Level.level_1 => { count := 15, pass := 12 }
  | Level.level_2 => { count := 15, pass := 12 }
  | Level.level_3 => { count := 15, pass := 12 }
  | Level.level_4 => { count := 20, pass := 15 }
  | Level.level_5 => { count := 20, pass := 15 }
  | Level.level_6 => { count := 20, pass := 15 }

/-- The classifications that `finishTest` gives. -/
inductive Classification where
  | Independent
  | Instructional
  | Frustrational
  deriving DecidableEq, Repr

/-- The passage level that `evaluateWordListPass` computes from the attempted level and
the score: `LEVEL_ORDER[idx - 1]` on failure when `idx > 0`, else `'pre_primer'`. -/
def passageLevelFor (level : Level) (score : Nat) : Level :=
  if score ≥ (WORD_LIST_CONFIG level).pass then level
  else
    let idx := LEVEL_ORDER.indexOf level
    if idx > 0 then LEVEL_ORDER.getD (idx - 1) Level.pre_primer else Level.pre_primer

/-- In `finishTest`: `passageWords.filter(w => w.status !== 'correct').length`. -/
def oralErrorsOf (words : List Word) : Nat :=
  (words.filter (fun w => decide (w.status ≠ Status.correct))).length

/-- In `finishTest`: the oral classification of an error count. -/
def oralClassificationOf (oralErrors : Nat) : Classification :=
  if oralErrors ≥ 5 then Classification.Frustrational
  else if oralErrors ≥ 3 then Classification.Instructional
  else Classification.Independent

/-- The floor of the binary logarithm of `n`, with one unit of fuel per halving. -/
def log2Fuel : Nat → Nat → Nat
  | 0, _ => 0
  | fuel + 1, n => if n < 2 then 0 else log2Fuel fuel (n / 2) + 1

/-- The power of two, as a fraction `(up, down)`, that brings a quotient `num / den` of
positive numbers into the range of a 53-bit significand:
`2^52 ≤ (num * up) / (den * down) < 2^53`. -/
def scaleOf (num den : Nat) : Nat × Nat :=
  let la := log2Fuel num num
  let lb := log2Fuel den den
  let up := 2 ^ (52 + lb - la)
  let down := 2 ^ (la - (52 + lb))
  (if (num * up) / (den * down) < 2 ^ 52 then 2 * up else up, down)

/-- The integer nearest to `n / d`, the even one of two that are equally near. -/
def roundQuotient (n d : Nat) : Nat :=
  let q := n / d
  let r := n % d
  if 2 * r > d ∨ (2 * r = d ∧ q % 2 = 1) then q + 1 else q

/-- The double nearest to the quotient `num / den` of two natural numbers, ties to the
even significand, as a fraction: the quotient is scaled into the range of a 53-bit
significand, rounded to an integer there, and scaled back.  This is the result of the
operators `/` and `*` of JavaScript on operands whose exact quotient or product is
`num / den`, in the range of normal doubles. -/
def roundToDouble (num den : Nat) : Nat × Nat :=
  if num = 0 then (0, 1)
  else
    let scale := scaleOf num den
    (roundQuotient (num * scale.1) (den * scale.2) * scale.2, scale.1)

/-- `Math.round(x)` for a double `x ≥ 0` given as a fraction: the floor of `x + 1/2`. -/
def mathRound (x : Nat × Nat) : Nat :=
  (2 * x.1 + x.2) / (2 * x.2)

/-- `Math.round((num / den) * 100)`: the quotient is rounded to a double, its product
with `100` is rounded to a double, and `Math.round` is applied. -/
def roundedPercent (num den : Nat) : Nat :=
  let quotient := roundToDouble num den
  mathRound (roundToDouble (quotient.1 * 100) quotient.2)

/-- In `finishTest`: `compTotal > 0 ? Math.round((compCorrect / compTotal) * 100) : 0`,
in double precision.  The two counts are first divided by their greatest common divisor,
which leaves the exact quotient, hence the double, as it is.  At an exact half the
result can be either neighbour: `23 / 40` gives `57`, `1 / 8` gives `13`. -/
def compPercentOf (compCorrect compTotal : Nat) : Nat :=
  if compTotal > 0 then
    let g := Nat.gcd compCorrect compTotal
    roundedPercent (compCorrect / g) (compTotal / g)
  else 0

/-- In `finishTest`: the comprehension classification of a percentage. -/
def compClassificationOf (compPercent : Nat) : Classification :=
  if compPercent < 40 then Classification.Frustrational
  else if compPercent < 80 then Classification.Instructional
  else Classification.Independent

/-- In `finishTest`: the final level, one below the passage level in `LEVEL_ORDER` when
one of the two classifications is `'Frustrational'` and `idx > 0`. -/
def finalLevelOf (passageLevel : Level) (oralClassification compClassification : Classification) :
    Level :=
  if oralClassification = Classification.Frustrational ∨
      compClassification = Classification.Frustrational then
    let idx := LEVEL_ORDER.indexOf passageLevel
    if idx > 0 then LEVEL_ORDER.getD (idx - 1) passageLevel else passageLevel
  else passageLevel

/-! ## The assessment session -/

/-- The `type` of a stage; `other` stands for any string that is none of the four. -/
inductive StageType where
  | letter_recognition
  | sentence_reading
  | word_list
  | oral_reading
  | other
  deriving DecidableEq, Repr

/-- The variable `letterStep`: `'name'` or `'sound'`. -/
inductive LetterStep where
  | name
  | sound
  deriving DecidableEq, Repr

/-- The variable `passageMode`: `'reading'` or `'questions'`. -/
inductive PassageMode where
  | reading
  | questions
  deriving DecidableEq, Repr

/-- The variable `interactionMode`: `'GREETING'` or `'TEST'`. -/
inductive InteractionMode where
  | GREETING
  | TEST
  deriving DecidableEq, Repr

/-- The `status` of an evidence record. -/
inductive LogStatus where
  | correct
  | incorrect
  | no_response
  deriving DecidableEq, Repr

/-- A record of `testState.letterLogs`; `letter` is `stage.items[currentSubIndex]`, which
is `undefined` past the end of the items. -/
structure LetterLog where
  letter : Option Str
  step : LetterStep
  spoken : Str
  status : LogStatus
  deriving DecidableEq, Repr

/-- A record of `testState.sentenceLogs`. -/
structure SentenceLog where
  sentence_id : Nat
  total_words : Nat
  correct_words : Nat
  completed : Bool
  errors_count : Nat
  deriving DecidableEq, Repr

/-- A record of `testState.wordLogs`; `target` is `currentWordList[currentSubIndex]`,
which is `undefined` past the end of the list. -/
structure WordLog where
  target : Option Str
  spoken : Str
  status : LogStatus
  deriving DecidableEq, Repr

/-- A record of `testState.comprehensionLogs`. -/
structure ComprehensionLog where
  question : Str
  expected : Str
  spoken : Str
  status : LogStatus
  deriving DecidableEq, Repr

/-- A comprehension question `{ question, answer }` of a passage. -/
structure Question where
  question : Str
  answer : Str
  deriving DecidableEq, Repr

/-- An element of `stage.levels` of an `oral_reading` stage. -/
structure PassageData where
  levelId : Level
  title : Str
  text : Str
  questions : List Question
  deriving DecidableEq, Repr

/-- A stage of the test definition.  `items` holds the letters of a letter stage or the
`text` of the sentences of a sentence stage, `wordLists` the object `stage.levels` of a
word-list stage and `passages` the array `stage.levels` of an oral-reading stage. -/
structure Stage where
  id : Str
  type : StageType
  items : List Str
  wordLists : List (Level × List Str)
  passages : List PassageData
  deriving DecidableEq, Repr

/-- The closures that the handlers pass to `setTimeout`, each with the `stage` it
captured: `() => renderLetterStage(stage)` of `handleTimeout`, the advance of
`handleInput` in a letter stage, the advance of a sentence, the grace callback of a
word-list timeout with its `target`, `() => renderWordListStage(stage)`, and the advance
of a comprehension question. -/
inductive Callback where
  | renderLetter (stage : Stage)
  | letterAdvance (stage : Stage)
  | sentenceAdvance (stage : Stage)
  | wordGrace (stage : Stage) (target : Option Str)
  | renderWord (stage : Stage)
  | questionAdvance (stage : Stage)
  deriving DecidableEq, Repr

/-- The document that `saveResult` hands to the result sink. -/
structure ResultRecord where
  placedLevel : Level
  oralErrors : Nat
  oralClassification : Classification
  comprehensionPercent : Nat
  comprehensionClassification : Classification
  letters : List LetterLog
  sentences : List SentenceLog
  words : List WordLog
  comprehension : List ComprehensionLog
  deriving DecidableEq, Repr

/-- The global state of `take-reading-test.js`: the test definition `pTest.stages`, the
cursors, `testState`, the closures waiting in `setTimeout`, the result records handed
to `saveResult`, and whether the section modal is shown.  `shuffle` is the outcome of
the random shuffle of `prepareWordList`.  The speech recogniser and the listening timer
are not part of the state: transcripts and timeouts are events that can come at any
time. -/
structure Session where
  stages : List Stage
  shuffle : List Str → List Str
  interactionMode : InteractionMode
  currentStageIndex : Nat
  currentSubIndex : Nat
  letterStep : LetterStep
  passageMode : PassageMode
  sentenceLevel : Int
  wordListLevel : Level
  passageLevel : Level
  currentWordList : List Str
  wordListScore : Nat
  passageWords : List Word
  lastMarkedWordIndex : Int
  sentenceAdvancing : Bool
  letterLogs : List LetterLog
  sentenceLogs : List SentenceLog
  wordLogs : List WordLog
  comprehensionLogs : List ComprehensionLog
  setupDone : Bool
  currentPassageData : Option PassageData
  timers : List Callback
  results : List ResultRecord
  modalShown : Bool

/-- How a handler or a callback ends: it returns, it raises an exception that nothing
catches, or the model runs out of fuel.  In each case `s` is the state left behind. -/
inductive Outcome where
  | returned (s : Session)
  | raised (s : Session)
  | exhausted (s : Session)

/-- The state left behind. -/
def Outcome.state : Outcome → Session
  | Outcome.returned s => s
  | Outcome.raised s => s
  | Outcome.exhausted s => s

/-- Sequencing: the next statements run only when the call returned. -/
def Outcome.andThen (o : Outcome) (f : Session → Outcome) : Outcome :=
  match o with
  | Outcome.returned s => f s
  | Outcome.raised s => Outcome.raised s
  | Outcome.exhausted s => Outcome.exhausted s

/-- The initial values of the global variables, for a test definition and a shuffle. -/
def Session.initial (stages : List Stage) (shuffle : List Str → List Str) : Session :=
  { stages := stages, shuffle := shuffle, interactionMode := InteractionMode.GREETING,
    currentStageIndex := 0, currentSubIndex := 0, letterStep := LetterStep.name,
    passageMode := PassageMode.reading, sentenceLevel := -1,
    wordListLevel := Level.pre_primer, passageLevel := Level.pre_primer,
    currentWordList := [], wordListScore := 0, passageWords := [],
    lastMarkedWordIndex := -1, sentenceAdvancing := false, letterLogs := [],
    sentenceLogs := [], wordLogs := [], comprehensionLogs := [], setupDone := false,
    currentPassageData := none, timers := [], results := [], modalShown := false }

/-- The source's `finishTest`: the classifications, the final level, and the call of
`saveResult` with the four evidence logs. -/
def finishTest (s : Session) : Session :=
  let oralErrors := oralErrorsOf s.passageWords
  let oralClassification := oralClassificationOf oralErrors
  let compTotal := s.comprehensionLogs.length
  let compCorrect :=
    (s.comprehensionLogs.filter (fun l => decide (l.status = LogStatus.correct))).length
  let compPercent := compPercentOf compCorrect compTotal
  let compClassification := compClassificationOf compPercent
  let finalLevel := finalLevelOf s.passageLevel oralClassification compClassification
  { s with results := s.results ++
      [{ placedLevel := finalLevel, oralErrors := oralErrors,
         oralClassification := oralClassification, comprehensionPercent := compPercent,
         comprehensionClassification := compClassification, letters := s.letterLogs,
         sentences := s.sentenceLogs, words := s.wordLogs,
         comprehension := s.comprehensionLogs }] }

/-- The source's `evaluateWordListPass`. -/
def evaluateWordListPass (s : Session) : Session :=
  { s with passageLevel := passageLevelFor s.wordListLevel s.wordListScore }

/-- The source's `evaluateSentenceLevel`, which reads `testState.sentenceLevel`. -/
def evaluateSentenceLevel (s : Session) : Session :=
  let l0 := Level.pre_primer
  let l1 := if s.sentenceLevel ≥ 0 then Level.primer else l0
  let l2 := if s.sentenceLevel ≥ 1 then Level.level_1 else l1
  let l3 := if s.sentenceLevel ≥ 2 then Level.level_2 else l2
  let l4 := if s.sentenceLevel ≥ 3 then Level.level_3 else l3
  let l5 := if s.sentenceLevel ≥ 4 then Level.level_4 else l4
  { s with wordListLevel := l5 }

/-- The state effect of the source's `showSectionCompleteModal`: without a next stage
`finishTest` is called, else the modal is shown. -/
def showSectionCompleteModal (s : Session) : Session :=
  match s.stages[s.currentStageIndex + 1]? with
  | none => finishTest s
  | some _ => { s with modalShown := true }

/-- The test `stage.id === 'letters_common'`. -/
def isNameOnly (stage : Stage) : Bool :=
  stage.id == "letters_common".toList

/-! ## Rendering a stage -/

/-- Upper case of one code unit, on ASCII: `a-z` to `A-Z`. -/
def upperChar (c : Char) : Char :=
  if 97 ≤ c.toNat ∧ c.toNat ≤ 122 then Char.ofNat (c.toNat - 32) else c

/-- The method `String.prototype.toUpperCase`, exact on ASCII strings. -/
def toUpperCase (s : Str) : Str :=
  s.map upperChar

/-- The source's `normalizeSpeechToTarget(spoken, target)`.  The table is read only for
a cleaned target of one code unit, which no inherited member is named by. -/
def normalizeSpeechToTarget (spoken target : Str) : Str :=
  let s := cleanWord spoken
  let t := cleanWord target
  if t.length = 1 then
    if !s.isEmpty && s.all (fun c => [c] == t) then toUpperCase target
    else if (match propRead getLetterMappings t with
             | PropRead.own opts => opts.any (fun opt => includes s (cleanWord opt))
             | _ => false) then toUpperCase target
    else if s = t ∨ includes s t = true then toUpperCase target
    else spoken
  else spoken

/-- The call `checkMatch(text, target)` where `target` may be `undefined`, which is
falsy. -/
def checkMatchTarget (text : Str) (target : Option Str) : Option Bool :=
  match target with
  | none => some false
  | some t => checkMatch text t

/-- The call `answers.some(a => checkMatch(text, a))`: the answers are tried in order up
to the first match; `none` when a call raises before that. -/
def someAnswerMatches (text : Str) : List Str → Option Bool
  | [] => some false
  | a :: more =>
    match checkMatch text a with
    | none => none
    | some true => some true
    | some false => someAnswerMatches text more

/-- The source's `renderLetterStage(stage)`; `renderNext` is `renderCurrentStage`. -/
def renderLetterStage (renderNext : Session → Outcome) (stage : Stage) (s : Session) :
    Outcome :=
  if s.currentSubIndex ≥ stage.items.length then
    renderNext { s with currentStageIndex := s.currentStageIndex + 1, currentSubIndex := 0,
                        letterStep := LetterStep.name }
  else if isNameOnly stage then Outcome.returned { s with letterStep := LetterStep.name }
  else Outcome.returned s

/-- The source's `renderSentenceStage(stage)`; `renderNext` is `renderCurrentStage`. -/
def renderSentenceStage (renderNext : Session → Outcome) (stage : Stage) (s : Session) :
    Outcome :=
  match stage.items[s.currentSubIndex]? with
  | none =>
    let s1 := evaluateSentenceLevel s
    renderNext { s1 with currentStageIndex := s1.currentStageIndex + 1, currentSubIndex := 0 }
  | some text =>
    Outcome.returned { s with sentenceAdvancing := false, lastMarkedWordIndex := -1,
                              passageWords := buildWords text }

/-- The source's `prepareWordList(stage)`; `renderNext` is `renderCurrentStage`.  When the
stage has no words for the level, the next stage is rendered and the function returns. -/
def prepareWordList (renderNext : Session → Outcome) (stage : Stage) (s : Session) :
    Outcome :=
  let level := s.wordListLevel
  match stage.wordLists.lookup level with
  | none => renderNext { s with currentStageIndex := s.currentStageIndex + 1 }
  | some allWords =>
    let config := WORD_LIST_CONFIG level
    Outcome.returned
      { s with currentWordList := (s.shuffle allWords).take config.count,
               wordListScore := 0, currentSubIndex := 0, setupDone := true }

/-- The source's `renderWordListStage(stage)`; `renderNext` is `renderCurrentStage`. -/
def renderWordListStage (renderNext : Session → Outcome) (s : Session) : Outcome :=
  if s.currentSubIndex ≥ s.currentWordList.length then
    let s1 := evaluateWordListPass s
    renderNext { s1 with currentStageIndex := s1.currentStageIndex + 1, currentSubIndex := 0 }
  else Outcome.returned s

/-- The source's `prepareReadingPassage(stage)`: without data for the passage level
`finishTest` is called and the function returns. -/
def prepareReadingPassage (stage : Stage) (s : Session) : Session :=
  let level := s.passageLevel
  match stage.passages.find? (fun l => decide (l.levelId = level)) with
  | none => finishTest s
  | some levelData =>
    { s with currentPassageData := some levelData, passageWords := buildWords levelData.text,
             passageMode := PassageMode.reading, setupDone := true, currentSubIndex := 0 }

/-- The source's `renderReadingPassageStage(stage)`.  Reading `data.title` or
`data.questions` raises when `testState.currentPassageData` is `undefined`, and past the
last question the call of `evaluatePassagePerformance`, which is defined nowhere, raises
a `ReferenceError`. -/
def renderReadingPassageStage (s : Session) : Outcome :=
  match s.currentPassageData with
  | none => Outcome.raised s
  | some data =>
    match s.passageMode with
    | PassageMode.reading => Outcome.returned s
    | PassageMode.questions =>
      if s.currentSubIndex ≥ data.questions.length then Outcome.raised s
      else Outcome.returned s

/-- The source's `renderCurrentStage()`, with one unit of fuel per nested call; each
nested call comes after `currentStageIndex++`. -/
def renderCurrentStageFuel : Nat → Session → Outcome
  | 0, s => Outcome.exhausted s
  | fuel + 1, s =>
    if s.currentStageIndex ≥ s.stages.length then Outcome.returned (finishTest s)
    else
      match s.stages[s.currentStageIndex]? with
      | none => Outcome.raised s
      | some stage =>
        let s1 := { s with setupDone := false }
        match stage.type with
        | StageType.letter_recognition =>
          renderLetterStage (fun x => renderCurrentStageFuel fuel x) stage s1
        | StageType.sentence_reading =>
          renderSentenceStage (fun x => renderCurrentStageFuel fuel x) stage s1
        | StageType.word_list =>
          (if s1.setupDone then Outcome.returned s1
           else prepareWordList (fun x => renderCurrentStageFuel fuel x) stage s1).andThen
            (renderWordListStage (fun x => renderCurrentStageFuel fuel x))
        | StageType.oral_reading =>
          renderReadingPassageStage
            (if s1.setupDone then s1 else prepareReadingPassage stage s1)
        | StageType.other =>
          renderCurrentStageFuel fuel { s1 with currentStageIndex := s1.currentStageIndex + 1 }

/-- The source's `renderCurrentStage()`: the fuel covers one nested call per stage. -/
def renderCurrentStage (s : Session) : Outcome :=
  renderCurrentStageFuel (s.stages.length + 1) s

/-! ## The event handlers -/

/-- The source's `handleTimeout()`.  Reading `stage.type` raises when there is no stage
at `currentStageIndex`, and reading `q.question` raises when there is no question at
`currentSubIndex`. -/
def handleTimeout (s : Session) : Outcome :=
  match s.stages[s.currentStageIndex]? with
  | none => Outcome.raised s
  | some stage =>
    match stage.type with
    | StageType.letter_recognition =>
      let target := stage.items[s.currentSubIndex]?
      let s1 : Session := { s with letterLogs := s.letterLogs ++
        [{ letter := target, step := s.letterStep, spoken := "(no response)".toList,
           status := LogStatus.no_response }] }
      if s1.letterStep = LetterStep.name ∧ isNameOnly stage = false then
        Outcome.returned { s1 with letterStep := LetterStep.sound,
                                   timers := s1.timers ++ [Callback.renderLetter stage] }
      else
        let s2 : Session :=
          { s1 with letterStep := LetterStep.name, currentSubIndex := s1.currentSubIndex + 1 }
        if s2.currentSubIndex ≥ stage.items.length then
          Outcome.returned (showSectionCompleteModal s2)
        else Outcome.returned { s2 with timers := s2.timers ++ [Callback.renderLetter stage] }
    | StageType.sentence_reading =>
      if s.sentenceAdvancing then Outcome.returned s
      else
        let words := s.passageWords
        let totalWords := words.length
        let correctWords := (words.filter (fun w => decide (w.status = Status.correct))).length
        Outcome.returned
          { s with sentenceAdvancing := true,
                   passageWords := markPendingIncorrect words,
                   sentenceLogs := s.sentenceLogs ++
                     [{ sentence_id := s.currentSubIndex, total_words := totalWords,
                        correct_words := correctWords, completed := false,
                        errors_count := totalWords - correctWords }],
                   timers := s.timers ++ [Callback.sentenceAdvance stage] }
    | StageType.word_list =>
      Outcome.returned
        { s with timers := s.timers ++
            [Callback.wordGrace stage (s.currentWordList[s.currentSubIndex]?)] }
    | StageType.oral_reading =>
      match s.passageMode with
      | PassageMode.reading => Outcome.returned s
      | PassageMode.questions =>
        match s.currentPassageData with
        | none => Outcome.raised s
        | some data =>
          match data.questions[s.currentSubIndex]? with
          | none => Outcome.raised s
          | some q =>
            Outcome.returned
              { s with comprehensionLogs := s.comprehensionLogs ++
                         [{ question := q.question, expected := q.answer,
                            spoken := "(no response)".toList,
                            status := LogStatus.no_response }],
                       timers := s.timers ++ [Callback.questionAdvance stage] }
    | StageType.other => Outcome.returned s

/-- The array `levelMap` of `handleInput`, with the fallback `'level_4'` past its end. -/
def levelMap (currentSubIndex : Nat) : Level :=
  ([Level.primer, Level.level_1, Level.level_2, Level.level_3, Level.level_4].getD
    currentSubIndex Level.level_4)

/-- The `sentence_reading` branch of `handleInput`: the aligner, then the completion
check. -/
def handleInputSentence (stage : Stage) (s : Session) (text : Str) : Outcome :=
  let aligned := alignChunk { passageWords := s.passageWords,
                              lastMarkedWordIndex := s.lastMarkedWordIndex } text
  let s1 : Session :=
    { s with passageWords := aligned.1.passageWords,
             lastMarkedWordIndex := aligned.1.lastMarkedWordIndex }
  if aligned.2 = false then Outcome.raised s1
  else
    let words := s1.passageWords
    let totalWords := words.length
    let correctWords := (words.filter (fun w => decide (w.status = Status.correct))).length
    let incorrectWords := (words.filter (fun w => decide (w.status = Status.incorrect))).length
    let pendingWords := (words.filter (fun w => decide (w.status = Status.pending))).length
    if pendingWords = 0 then
      if s1.sentenceAdvancing then Outcome.returned s1
      else
        let allCorrect := decide (incorrectWords = 0)
        Outcome.returned
          { s1 with sentenceAdvancing := true,
                    sentenceLogs := s1.sentenceLogs ++
                      [{ sentence_id := s1.currentSubIndex, total_words := totalWords,
                         correct_words := correctWords, completed := allCorrect,
                         errors_count := incorrectWords }],
                    wordListLevel :=
                      if allCorrect then levelMap s1.currentSubIndex else s1.wordListLevel,
                    timers := s1.timers ++ [Callback.sentenceAdvance stage] }
    else Outcome.returned s1

/-- The `letter_recognition` branch of `handleInput`. -/
def handleInputLetter (stage : Stage) (s : Session) (text : Str) (isInterim : Bool) :
    Outcome :=
  if isInterim then Outcome.returned s
  else
    let target := stage.items[s.currentSubIndex]?
    match checkMatchTarget text target with
    | none => Outcome.raised s
    | some true =>
      let normalizedSpoken := normalizeSpeechToTarget text (target.getD [])
      Outcome.returned
        { s with letterLogs := s.letterLogs ++
                   [{ letter := target, step := s.letterStep, spoken := normalizedSpoken,
                      status := LogStatus.correct }],
                 timers := s.timers ++ [Callback.letterAdvance stage] }
    | some false =>
      if (trim text).length > 0 then
        Outcome.returned
          { s with letterLogs := s.letterLogs ++
                     [{ letter := target, step := s.letterStep, spoken := text,
                        status := LogStatus.incorrect }],
                   timers := s.timers ++ [Callback.letterAdvance stage] }
      else Outcome.returned s

/-- After a word of the list is decided in `handleInput`: `currentSubIndex++`, then the
end of the list or the next word after a delay. -/
def afterWordDecided (stage : Stage) (s : Session) : Session :=
  let s1 : Session := { s with currentSubIndex := s.currentSubIndex + 1 }
  if s1.currentSubIndex ≥ s1.currentWordList.length then
    showSectionCompleteModal (evaluateWordListPass s1)
  else { s1 with timers := s1.timers ++ [Callback.renderWord stage] }

/-- The `word_list` branch of `handleInput`. -/
def handleInputWord (stage : Stage) (s : Session) (text : Str) (isInterim : Bool) :
    Outcome :=
  if isInterim then Outcome.returned s
  else
    let target := s.currentWordList[s.currentSubIndex]?
    match checkMatchTarget text target with
    | none => Outcome.raised s
    | some true =>
      let t := cleanWord (target.getD [])
      let words := splitWs (cleanWord text)
      let finalLog :=
        if decide (words.length > 1) && words.all (fun w => w == t) then target.getD [] else text
      Outcome.returned (afterWordDecided stage
        { s with wordLogs := s.wordLogs ++
                   [{ target := target, spoken := finalLog, status := LogStatus.correct }],
                 wordListScore := s.wordListScore + 1 })
    | some false =>
      if !isInterim && decide ((trim text).length > 0) then
        Outcome.returned (afterWordDecided stage
          { s with wordLogs := s.wordLogs ++
                     [{ target := target, spoken := text, status := LogStatus.incorrect }] })
      else Outcome.returned s

/-- The `oral_reading` branch of `handleInput` in reading mode: the aligner. -/
def handleInputPassage (s : Session) (text : Str) : Outcome :=
  let aligned := alignChunk { passageWords := s.passageWords,
                              lastMarkedWordIndex := s.lastMarkedWordIndex } text
  let s1 : Session :=
    { s with passageWords := aligned.1.passageWords,
             lastMarkedWordIndex := aligned.1.lastMarkedWordIndex }
  if aligned.2 = false then Outcome.raised s1 else Outcome.returned s1

/-- The `oral_reading` branch of `handleInput` in questions mode. -/
def handleInputQuestion (stage : Stage) (s : Session) (text : Str) (isInterim : Bool) :
    Outcome :=
  match s.currentPassageData with
  | none => Outcome.raised s
  | some data =>
    match data.questions[s.currentSubIndex]? with
    | none => Outcome.raised s
    | some q =>
      let answers := (splitChar ',' q.answer).map trim
      if isInterim && decide (text.length < 5) then Outcome.returned s
      else
        match someAnswerMatches text answers with
        | none => Outcome.raised s
        | some true =>
          Outcome.returned
            { s with comprehensionLogs := s.comprehensionLogs ++
                       [{ question := q.question, expected := q.answer, spoken := text,
                          status := LogStatus.correct }],
                     timers := s.timers ++ [Callback.questionAdvance stage] }
        | some false =>
          if !isInterim then
            Outcome.returned
              { s with comprehensionLogs := s.comprehensionLogs ++
                         [{ question := q.question, expected := q.answer, spoken := text,
                            status := LogStatus.incorrect }],
                       timers := s.timers ++ [Callback.questionAdvance stage] }
          else Outcome.returned s

/-- The source's `handleInput(text, isInterim)`.  In greeting mode the text only goes to
an input field of the page.  Reading `stage.type` raises when there is no stage at
`currentStageIndex`. -/
def handleInput (s : Session) (text : Str) (isInterim : Bool) : Outcome :=
  match s.interactionMode with
  | InteractionMode.GREETING => Outcome.returned s
  | InteractionMode.TEST =>
    match s.stages[s.currentStageIndex]? with
    | none => Outcome.raised s
    | some stage =>
      match stage.type with
      | StageType.letter_recognition => handleInputLetter stage s text isInterim
      | StageType.sentence_reading => handleInputSentence stage s text
      | StageType.word_list => handleInputWord stage s text isInterim
      | StageType.oral_reading =>
        match s.passageMode with
        | PassageMode.reading => handleInputPassage s text
        | PassageMode.questions => handleInputQuestion stage s text isInterim
      | StageType.other => Outcome.returned s

/-! ## Delayed callbacks and events -/

/-- The body of a closure passed to `setTimeout`, run when its delay has elapsed. -/
def runCallback (cb : Callback) (s : Session) : Outcome :=
  match cb with
  | Callback.renderLetter stage => renderLetterStage renderCurrentStage stage s
  | Callback.letterAdvance stage =>
    if s.letterStep = LetterStep.name ∧ isNameOnly stage = false then
      renderLetterStage renderCurrentStage stage { s with letterStep := LetterStep.sound }
    else
      let s1 : Session :=
        { s with letterStep := LetterStep.name, currentSubIndex := s.currentSubIndex + 1 }
      if s1.currentSubIndex ≥ stage.items.length then
        Outcome.returned (showSectionCompleteModal s1)
      else renderLetterStage renderCurrentStage stage s1
  | Callback.sentenceAdvance stage =>
    let s1 : Session :=
      { s with lastMarkedWordIndex := -1, currentSubIndex := s.currentSubIndex + 1 }
    if s1.currentSubIndex ≥ stage.items.length then
      Outcome.returned (showSectionCompleteModal { s1 with sentenceAdvancing := false })
    else renderCurrentStage { s1 with sentenceAdvancing := false }
  | Callback.wordGrace _ target =>
    let currentTarget := s.currentWordList[s.currentSubIndex]?
    let alreadyLogged := s.wordLogs.any
      (fun l => decide (l.target = target) &&
        (decide (l.status = LogStatus.correct) || decide (l.status = LogStatus.incorrect)))
    if currentTarget ≠ target ∨ alreadyLogged = true then Outcome.returned s
    else
      let s1 : Session :=
        { s with wordLogs := s.wordLogs ++
                   [{ target := target, spoken := "(no response)".toList,
                      status := LogStatus.no_response }],
                 currentSubIndex := s.currentSubIndex + 1 }
      if s1.currentSubIndex ≥ s1.currentWordList.length then
        Outcome.returned (showSectionCompleteModal (evaluateWordListPass s1))
      else renderWordListStage renderCurrentStage s1
  | Callback.renderWord _ => renderWordListStage renderCurrentStage s
  | Callback.questionAdvance _ =>
    let s1 : Session := { s with currentSubIndex := s.currentSubIndex + 1 }
    match s1.currentPassageData with
    | none => Outcome.raised s1
    | some data =>
      if s1.currentSubIndex ≥ data.questions.length then Outcome.returned (finishTest s1)
      else renderReadingPassageStage s1

/-- The timer at position `i` of the waiting closures fires: it leaves the list and its
body runs. -/
def fireTimer (s : Session) (i : Nat) : Outcome :=
  match s.timers[i]? with
  | none => Outcome.returned s
  | some cb => runCallback cb { s with timers := s.timers.eraseIdx i }

/-- The handler `nextStageFromModal` of the section modal. -/
def nextStageFromModal (s : Session) : Outcome :=
  renderCurrentStage
    { s with modalShown := false, currentStageIndex := s.currentStageIndex + 1,
             currentSubIndex := 0 }

/-- The handler `startTestFromGreeting` of the greeting. -/
def startTestFromGreeting (s : Session) : Outcome :=
  renderCurrentStage { s with interactionMode := InteractionMode.TEST }

/-- The click handler of the button `finish-btn` of a passage. -/
def finishReadingClick (s : Session) : Outcome :=
  renderReadingPassageStage
    { s with passageMode := PassageMode.questions, currentSubIndex := 0 }

/-- The click handler of the button `skip-btn` of a question; the counter
`testState.questionMistakes`, which nothing reads, is left out. -/
def skipClick (s : Session) : Outcome :=
  renderReadingPassageStage { s with currentSubIndex := s.currentSubIndex + 1 }

/-- The events that the session handles. -/
inductive Event where
  | transcript (text : Str) (isInterim : Bool)
  | timeout
  | timer (i : Nat)
  | nextStage
  | startTest
  | finishReading
  | skip

/-- The handler of an event. -/
def handleEvent (s : Session) : Event → Outcome
  | Event.transcript text isInterim => handleInput s text isInterim
  | Event.timeout => handleTimeout s
  | Event.timer i => fireTimer s i
  | Event.nextStage => nextStageFromModal s
  | Event.startTest => startTestFromGreeting s
  | Event.finishReading => finishReadingClick s
  | Event.skip => skipClick s

/-- The state after a sequence of events; an exception that nothing catches ends its
handler only. -/
def runEvents (s : Session) (events : List Event) : Session :=
  events.foldl (fun x e => (handleEvent x e).state) s

/-! ## Reference notions used by the statements -/

/-- The target of phrase matching once cleaned: parenthesised annotations removed, cut
before the first `" or "`, and trimmed. -/
def phraseTarget (target : Str) : Str :=
  trim (beforeOr (trim (stripParens target)))

/-- A keyword counts as present when some spoken token equals it, or when it has more
than 3 characters and some spoken token is within edit distance 1 of it. -/
def keywordPresent (spokenTokens : List Str) (keyword : Str) : Bool :=
  spokenTokens.any
    (fun tok => tok == keyword || (decide (keyword.length > 3) && decide (dist tok keyword ≤ 1)))

/-- Phrase matching with the tokens of the spoken text and the keywords of the cleaned
target compared as they stand: the cleaned target is not empty and at least 75% of its
white-space separated keywords are present, `4 * matched ≥ 3 * total`. -/
def phraseMatchAsStated (spoken target : Str) : Bool :=
  !(phraseTarget target).isEmpty &&
  decide (4 * ((splitWs (phraseTarget target)).filter
      (keywordPresent (splitWs spoken))).length ≥ 3 * (splitWs (phraseTarget target)).length)

/-- Phrase matching with the spoken text and the cleaned target put in lower case before
they are split into tokens and keywords. -/
def phraseMatchLowered (spoken target : Str) : Bool :=
  !(phraseTarget target).isEmpty &&
  decide (4 * ((splitWs (toLowerCase (phraseTarget target))).filter
      (keywordPresent (splitWs (toLowerCase spoken)))).length ≥
    3 * (splitWs (toLowerCase (phraseTarget target))).length)

/-- One single-character edit of a string: an insertion, a deletion or a substitution
at any position. -/
inductive EditStep : Str → Str → Prop
  | insert (l : Str) (c : Char) (r : Str) : EditStep (l ++ r) (l ++ c :: r)
  | delete (l : Str) (c : Char) (r : Str) : EditStep (l ++ c :: r) (l ++ r)
  | substitute (l : Str) (c d : Char) (r : Str) : EditStep (l ++ c :: r) (l ++ d :: r)

/-- The relation `EditsTo n a b`: some sequence of `n` single-character edits turns `a`
into `b`. -/
inductive EditsTo : Nat → Str → Str → Prop
  | done (a : Str) : EditsTo 0 a a
  | step {n : Nat} {a b c : Str} : EditsTo n a b → EditStep b c → EditsTo (n + 1) a c

/-- The Levenshtein recurrence on the first code units of two strings, used to relate
the matrix of `dist` to sequences of edits. -/
def lev : Str → Str → Nat
  | [], ys => ys.length
  | x :: xs, [] => (x :: xs).length
  | x :: xs, y :: ys =>
    if x = y then lev xs ys
    else min3 (lev xs ys) (lev xs (y :: ys)) (lev (x :: xs) ys) + 1
termination_by xs ys => xs.length + ys.length

/-- The row of the matrix of `dist` for the prefix of `b` whose reverse is `rb`, from the
column of the prefix of `a` whose reverse is `ra` on, `suf` being the rest of `a`. -/
def rowFrom (rb : Str) : Str → Str → List Nat
  | ra, [] => [lev ra rb]
  | ra, c :: suf => lev ra rb :: rowFrom rb (c :: ra) suf

/-! ### Reference notions of the session -/

/-- The level immediately below a level in `LEVEL_ORDER`, the lowest level staying where
it is. -/
def levelBelow : Level → Level
  | Level.pre_primer => Level.pre_primer
  | Level.primer => Level.pre_primer
  | Level.level_1 => Level.primer
  | Level.level_2 => Level.level_1
  | Level.level_3 => Level.level_2
  | Level.level_4 => Level.level_3
  | Level.level_5 => Level.level_4
  | Level.level_6 => Level.level_5

/-- The highest `sentence_id` among the records logged with `completed = true`. -/
def highestCompleted (logs : List SentenceLog) : Option Nat :=
  logs.foldl
    (fun best l =>
      if l.completed then
        match best with
        | none => some l.sentence_id
        | some h => some (max h l.sentence_id)
      else best) none

/-- The word-list level for the highest sentence read fully correct: none gives
`pre_primer`, `0` `primer`, `1` `level_1`, `2` `level_2`, `3` `level_3`, and `4` or
more `level_4`. -/
def levelForHighest : Option Nat → Level
  | none => Level.pre_primer
  | some 0 => Level.primer
  | some 1 => Level.level_1
  | some 2 => Level.level_2
  | some 3 => Level.level_3
  | some _ => Level.level_4

/-- The session is in test mode with `stage` as its current stage. -/
def Session.inStage (s : Session) (stage : Stage) : Prop :=
  s.interactionMode = InteractionMode.TEST ∧ s.stages[s.currentStageIndex]? = some stage

/-- The events that occur inside a stage: transcripts, timeouts and timers. -/
def Event.insideStage : Event → Bool
  | Event.transcript _ _ => true
  | Event.timeout => true
  | Event.timer _ => true
  | _ => false

/-- The four evidence logs of a session. -/
def Session.logs (s : Session) :
    List LetterLog × List SentenceLog × List WordLog × List ComprehensionLog :=
  (s.letterLogs, s.sentenceLogs, s.wordLogs, s.comprehensionLogs)

/-- Each of the four evidence logs of `s2` starts with the log of `s1`: the earlier
records are there, unchanged and in the same order. -/
def Session.logsExtend (s1 s2 : Session) : Prop :=
  (∃ added, s2.letterLogs = s1.letterLogs ++ added) ∧
  (∃ added, s2.sentenceLogs = s1.sentenceLogs ++ added) ∧
  (∃ added, s2.wordLogs = s1.wordLogs ++ added) ∧
  (∃ added, s2.comprehensionLogs = s1.comprehensionLogs ++ added)

/-- What holds throughout a sentence stage: the stage is current, the waiting closures
are advances of its sentences, no record was logged for a sentence past the current one,
and `wordListLevel` is the level of the highest sentence logged `completed = true`. -/
def Session.sentenceInvariant (s : Session) (stage : Stage) : Prop :=
  s.inStage stage ∧
  (∀ cb ∈ s.timers, cb = Callback.sentenceAdvance stage) ∧
  (∀ l ∈ s.sentenceLogs, l.sentence_id ≤ s.currentSubIndex) ∧
  s.wordListLevel = levelForHighest (highestCompleted s.sentenceLogs)

/-- A sentence stage with three sentences. -/
def sampleSentenceStage : Stage :=
  { id := "sentence_filter".toList, type := StageType.sentence_reading,
    items := ["I can play".toList, "the cat sat".toList, "run fast now".toList],
    wordLists := [], passages := [] }

/-- The session of a test with that stage alone, once `startTestFromGreeting` has rendered
the first sentence. -/
def sampleSentenceSession : Session :=
  (startTestFromGreeting (Session.initial [sampleSentenceStage] id)).state

/-- A run of that stage: the first sentence is read in full, the second times out, the
third is read in full, each followed by its delayed advance. -/
def sampleSentenceEvents : List Event :=
  [Event.transcript "I can play".toList false, Event.timer 0,
   Event.transcript "the dog".toList true, Event.timeout, Event.timer 0,
   Event.transcript "run fast now".toList false, Event.timer 0]

/-- The step and the letter that follow a resolution, in the words of the specification:
a name-only stage goes to the name of the next letter; another stage goes from the name
to the sound of the same letter and from the sound to the name of the next letter. -/
def nextLetterPosition (nameOnly : Bool) (step : LetterStep) (i : Nat) : LetterStep × Nat :=
  if nameOnly then (LetterStep.name, i + 1)
  else
    match step with
    | LetterStep.name => (LetterStep.sound, i)
    | LetterStep.sound => (LetterStep.name, i + 1)

/-- The step and the index of the letter a session is at. -/
def Session.letterPosition (s : Session) : LetterStep × Nat :=
  (s.letterStep, s.currentSubIndex)

/-- The second state has the waiting closures of the first, and is at the step `name` if
the first is. -/
def Session.keepsNameStep (s1 s2 : Session) : Prop :=
  s2.timers = s1.timers ∧ (s1.letterStep = LetterStep.name → s2.letterStep = LetterStep.name)

/-- What holds throughout a name-only letter stage: the step is `name` and the waiting
closures are those of the stage. -/
def Session.nameOnlyInvariant (s : Session) (stage : Stage) : Prop :=
  s.letterStep = LetterStep.name ∧
  ∀ cb ∈ s.timers, cb = Callback.letterAdvance stage ∨ cb = Callback.renderLetter stage

/-- What a call made while a stage is rendered leaves behind, seen from the session `s`
it was given: the test definition is kept, the stage index has not decreased, and the
call has not run out of fuel when the fuel exceeds the number of stages from `index`
on. -/
def Session.rendersFrom (s : Session) (index fuel : Nat) (o : Outcome) : Prop :=
  o.state.stages = s.stages ∧ s.currentStageIndex ≤ o.state.currentStageIndex ∧
  (s.stages.length - index < fuel → ∀ x : Session, o ≠ Outcome.exhausted x)

/-- A letter stage with name and sound steps. -/
def sampleLetterStage : Stage :=
  { id := "letters_caps".toList, type := StageType.letter_recognition,
    items := ["A".toList, "B".toList], wordLists := [], passages := [] }

/-- The name-only letter stage. -/
def sampleCommonStage : Stage :=
  { id := "letters_common".toList, type := StageType.letter_recognition,
    items := ["a".toList, "b".toList], wordLists := [], passages := [] }

/-- The session of a test with the two letter stages, once `startTestFromGreeting` has
rendered the first letter. -/
def sampleLetterSession : Session :=
  (startTestFromGreeting (Session.initial [sampleLetterStage, sampleCommonStage] id)).state

/-- The same session at the start of the name-only stage. -/
def sampleCommonSession : Session :=
  (nextStageFromModal sampleLetterSession).state

/-- A run of the name-only stage: the first letter is named, the second times out. -/
def sampleCommonEvents : List Event :=
  [Event.transcript "a".toList false, Event.timer 0, Event.timeout]

/-! ### Sample tests for the word list and the passage -/

/-- A word-list stage with words for `pre_primer`, among them the word `constructor`
and the word `cat` twice. -/
def sampleWordStage : Stage :=
  { id := "word_lists".toList, type := StageType.word_list, items := [],
    wordLists := [(Level.pre_primer,
      ["cat".toList, "cat".toList, "constructor".toList, "dog".toList])],
    passages := [] }

/-- The session of a test with that stage alone, once `startTestFromGreeting` has drawn
the list, in the order given, and rendered its first word. -/
def sampleWordSession : Session :=
  (startTestFromGreeting (Session.initial [sampleWordStage] id)).state

/-- An oral-reading stage with a passage for `pre_primer` that has two questions. -/
def samplePassageStage : Stage :=
  { id := "oral_passage".toList, type := StageType.oral_reading, items := [],
    wordLists := [],
    passages := [{ levelId := Level.pre_primer, title := "The cat".toList,
                   text := "the cat sat".toList,
                   questions := [{ question := "Who sat?".toList, answer := "cat".toList },
                                 { question := "What did the cat do?".toList,
                                   answer := "sat, sit".toList }] }] }

/-- The session of a test with that stage alone, once `startTestFromGreeting` has set up
the passage in reading mode. -/
def samplePassageSession : Session :=
  (startTestFromGreeting (Session.initial [samplePassageStage] id)).state

/-- The same session once the button `finish-btn` has been clicked: the first question
is shown. -/
def sampleQuestionSession : Session :=
  (finishReadingClick samplePassageSession).state

/-- The sample word-list session at its third word, `constructor`, after the first two
words were read. -/
def sampleWordSessionAtThird : Session :=
  runEvents sampleWordSession
    [Event.transcript "cat".toList false, Event.timer 0,
     Event.transcript "cat".toList false, Event.timer 0]

/-- The sample word-list session at its second word, the second `cat`, after the first
word was read. -/
def sampleWordSessionAtSecond : Session :=
  runEvents sampleWordSession [Event.transcript "cat".toList false, Event.timer 0]

/-- A word-list stage that has words for `pre_primer` only. -/
def sampleShortWordStage : Stage :=
  { id := "word_lists".toList, type := StageType.word_list, items := [],
    wordLists := [(Level.pre_primer, ["cat".toList, "dog".toList])], passages := [] }

/-- A test of three stages: the sample sentences, the word lists for `pre_primer` only,
and the sample passage. -/
def sampleAssessment : List Stage :=
  [sampleSentenceStage, sampleShortWordStage, samplePassageStage]

/-- The session of that test when the section modal closes the sentence stage, after
the three sentences were read in full: `wordListLevel` is `level_2`. -/
def sampleAssessmentAfterSentences : Session :=
  runEvents (startTestFromGreeting (Session.initial sampleAssessment id)).state
    [Event.transcript "I can play".toList false, Event.timer 0,
     Event.transcript "the cat sat".toList false, Event.timer 0,
     Event.transcript "run fast now".toList false, Event.timer 0]

/-- The sample question session at its second and last question, after the first was
answered and the delayed advance has run. -/
def sampleLastQuestionSession : Session :=
  runEvents sampleQuestionSession [Event.transcript "cat".toList false, Event.timer 0]

/-- An oral-reading stage whose passage for `pre_primer` has no question. -/
def sampleBarePassageStage : Stage :=
  { id := "oral_passage".toList, type := StageType.oral_reading, items := [],
    wordLists := [],
    passages := [{ levelId := Level.pre_primer, title := "The cat".toList,
                   text := "the cat sat".toList, questions := [] }] }

/-- The session of a test with that stage alone, in reading mode. -/
def sampleBarePassageSession : Session :=
  (startTestFromGreeting (Session.initial [sampleBarePassageStage] id)).state

/-! ### Reference notions of the aligner -/

/-- The normalized form of `words[i]`, when there is such a word. -/
def cleanAt (words : List Word) (i : Nat) : Option Str :=
  (words[i]?).map (fun w => w.clean)

/-- The words up to the cursor are resolved and the words after it are pending: the
cursor is at least `-1` and below the number of words, the word at index `i` is pending
exactly when `i` is greater than the cursor, and the word at the cursor is `'correct'`. -/
def Reading.resolvedUpToCursor (st : Reading) : Prop :=
  -1 ≤ st.lastMarkedWordIndex ∧ st.lastMarkedWordIndex < st.passageWords.length ∧
  (∀ i : Nat, i < st.passageWords.length →
    (statusAt st.passageWords i = some Status.pending ↔ st.lastMarkedWordIndex < i)) ∧
  (0 ≤ st.lastMarkedWordIndex →
    statusAt st.passageWords st.lastMarkedWordIndex.toNat = some Status.correct)

/-- No word whose normalized form is empty is `'correct'`. -/
def Reading.emptyNeverCorrect (st : Reading) : Prop :=
  ∀ i : Nat, cleanAt st.passageWords i = some [] →
    statusAt st.passageWords i ≠ some Status.correct

/-! ### Reference notions of the matcher -/

/-- The characterisation of `checkMatch` in the words of the specification, on the
normalized forms `s` of the spoken text and `t` of the target: `s` is a digit key whose
variants include `t`, or `s = t`, or the canonical number word of `s` is `t`, or `s`
contains `t`, or `t` has a letter-mapping entry one of whose normalized aliases is a
substring of `s`, or `t` has more than 3 characters and `dist(s, t) ≤ 1`. -/
def checkMatchAsStated (spoken target : Str) : Bool :=
  let s := cleanWord spoken
  let t := cleanWord target
  (match DIGIT_MAP.lookup s with
   | some ws => ws.contains t
   | none => false) ||
  s == t ||
  (match DIGIT_MAP.lookup s with
   | some (w :: _) => w == t
   | _ => false) ||
  includes s t ||
  (match getLetterMappings.lookup t with
   | some opts => opts.any (fun opt => includes s (cleanWord opt))
   | none => false) ||
  (decide (t.length > 3) && decide (dist s t ≤ 1))

/-- The source's `checkMatch` with the repetition check for single letters, the
repetition check for whole words and the phrase-matching branch deleted. -/
def checkMatchWithoutDeadChecks (spoken target : Str) : Option Bool :=
  if spoken = [] ∨ target = [] then some false
  else
    let s := cleanWord spoken
    let t := cleanWord target
    let allDigits := !s.isEmpty && s.all isDigit
    let s_norm :=
      if allDigits then
        match DIGIT_MAP.lookup s with
        | some (w :: _) => w
        | _ => s
      else s
    if allDigits && (match DIGIT_MAP.lookup s with
                     | some ws => ws.contains t
                     | none => false) then some true
    else if s = t then some true
    else if s_norm = t then some true
    else if includes s t then some true
    else
      match propRead getLetterMappings t with
      | PropRead.inherited => none
      | PropRead.own opts =>
        if opts.any (fun opt => includes s (cleanWord opt)) then some true
        else if decide (t.length > 3) && decide (dist s t ≤ 1) then some true
        else some false
      | PropRead.undefined =>
        if decide (t.length > 3) && decide (dist s t ≤ 1) then some true
        else some false

/-! ## Properties -/

set_option maxRecDepth 100000

/-! ### The lexical matcher on letters, homophones and digits -/

theorem includes_cons_singleton (c : Char) (rest : Str) : includes (c :: rest) [c] = true := by
  simp [includes, startsWith]

theorem checkMatch_of_includes (spoken target : Str) (hs : spoken ≠ []) (ht : target ≠ [])
    (h : includes (cleanWord spoken) (cleanWord target) = true) :
    checkMatch spoken target = some true := by
  unfold checkMatch
  simp only [hs, ht, or_self, if_false, h, if_true]
  split_ifs <;> rfl

theorem cleanWord_append (a b : Str) : cleanWord (a ++ b) = cleanWord a ++ cleanWord b := by
  simp [cleanWord, toLowerCase]

theorem cleanWord_letter (c : Char) (hc : isAsciiLetter c = true) :
    ∃ d, cleanWord [c] = [d] := by
  simp only [isAsciiLetter, Bool.or_eq_true, Bool.and_eq_true, decide_eq_true_eq] at hc
  rcases hc with ⟨h1, h2⟩ | ⟨h1, h2⟩
  · refine ⟨Char.ofNat (c.toNat + 32), ?_⟩
    have hl : lowerChar c = [Char.ofNat (c.toNat + 32)] := by simp [lowerChar, h1, h2]
    simp only [cleanWord, toLowerCase, List.flatMap_cons, List.flatMap_nil, List.append_nil, hl]
    generalize c.toNat = n at h1 h2
    interval_cases n <;> decide
  · refine ⟨c, ?_⟩
    have hl : lowerChar c = [c] := by
      simp only [lowerChar]
      rw [if_neg (by omega), if_neg (by omega), if_neg (by omega)]
    have ha : isLowerAlnum c = true := by simp [isLowerAlnum, h1, h2]
    simp [cleanWord, toLowerCase, hl, ha]

theorem cleanWord_replicate (c d : Char) (h : cleanWord [c] = [d]) (n : Nat) :
    cleanWord (List.replicate n c) = List.replicate n d := by
  induction n with
  | zero => rfl
  | succ n ih =>
    have : List.replicate (n + 1) c = [c] ++ List.replicate n c := rfl
    rw [this, cleanWord_append, h, ih]; rfl

/-- Claim C8 (letter repetition): for every ASCII letter `L`, in either case, and every
`n ≥ 1` (so in particular for `n` from 1 to 5), `checkMatch` accepts `L` repeated `n`
times as spoken text for the target `L`. -/
theorem checkMatch_letter_repetition (c : Char) (n : Nat)
    (hc : isAsciiLetter c = true) (hn : 1 ≤ n) :
    checkMatch (List.replicate n c) [c] = some true := by
  obtain ⟨d, hd⟩ := cleanWord_letter c hc
  obtain ⟨m, rfl⟩ : ∃ m, n = m + 1 := ⟨n - 1, by omega⟩
  apply checkMatch_of_includes
  · simp [List.replicate_succ]
  · simp
  · rw [cleanWord_replicate c d hd, hd, List.replicate_succ]
    exact includes_cons_singleton d _

/-- Instance of claim C8 at the letter `b`: `"b"`, `"bb"` and `"bbb"` match target `"b"`,
and so does `"BBBBB"` the target `"B"`. -/
theorem checkMatch_letter_repetition_witness :
    isAsciiLetter 'b' = true ∧ 1 ≤ 3 ∧
    checkMatch (List.replicate 3 'b') ['b'] = some true ∧
    checkMatch "b".toList "b".toList = some true ∧
    checkMatch "bb".toList "b".toList = some true ∧
    checkMatch "BBBBB".toList "B".toList = some true :=
  ⟨by decide, by decide, checkMatch_letter_repetition 'b' 3 (by decide) (by decide),
   by decide, by decide, by decide⟩

theorem letterMappings_all :
    ∀ p ∈ getLetterMappings, ∀ a ∈ p.2, checkMatch a p.1 = some true := by
  decide

/-- Claim C9 (homophones): for every letter with an entry in the table of
`getLetterMappings` and every alias `opt` listed for it, `checkMatch(opt, letter)` is true. -/
theorem checkMatch_homophone (letter opt : Str) (aliases : List Str)
    (hentry : (letter, aliases) ∈ getLetterMappings) (hopt : opt ∈ aliases) :
    checkMatch opt letter = some true :=
  letterMappings_all (letter, aliases) hentry opt hopt

/-- Instances of claim C9: target `"c"` matches spoken `"see"` and `"sea"`, and target
`"w"` matches spoken `"double u"`. -/
theorem checkMatch_homophone_witness :
    checkMatch "see".toList "c".toList = some true ∧
    checkMatch "sea".toList "c".toList = some true ∧
    checkMatch "double u".toList "w".toList = some true :=
  ⟨checkMatch_homophone "c".toList "see".toList
      ["see".toList, "sea".toList, "si".toList, "ci".toList] (by decide) (by decide),
   checkMatch_homophone "c".toList "sea".toList
      ["see".toList, "sea".toList, "si".toList, "ci".toList] (by decide) (by decide),
   checkMatch_homophone "w".toList "double u".toList
      ["double u".toList, "doubleplay".toList, "doubleyou".toList] (by decide) (by decide)⟩

theorem digitMap_all :
    ∀ p ∈ DIGIT_MAP, checkMatch p.1 (p.2.headD []) = some true := by
  decide

/-- Claim C10 (digit-to-word equivalence): for every digit string `d` of `DIGIT_MAP` whose
canonical word, the first of its variants, is `w`, `checkMatch(d, w)` is true. -/
theorem checkMatch_digit_word (d w : Str) (variants : List Str)
    (hentry : (d, variants) ∈ DIGIT_MAP) (hw : variants.head? = some w) :
    checkMatch d w = some true := by
  have h := digitMap_all (d, variants) hentry
  cases variants with
  | nil => simp at hw
  | cons v vs =>
    simp only [List.head?_cons, Option.some.injEq] at hw
    subst hw
    simpa using h

/-- Instance of claim C10: `checkMatch("100", "hundred")` is true; the digit strings of
the table are `0` to `12`, `20` and `100`, with the canonical words listed. -/
theorem checkMatch_digit_word_witness :
    checkMatch "100".toList "hundred".toList = some true ∧
    DIGIT_MAP.map (fun p => (String.mk p.1, p.2.head?.map String.mk)) =
      [("0", some "zero"), ("1", some "one"), ("2", some "two"), ("3", some "three"),
       ("4", some "four"), ("5", some "five"), ("6", some "six"), ("7", some "seven"),
       ("8", some "eight"), ("9", some "nine"), ("10", some "ten"), ("11", some "eleven"),
       ("12", some "twelve"), ("20", some "twenty"), ("100", some "hundred")] :=
  ⟨checkMatch_digit_word "100".toList "hundred".toList
      ["hundred".toList, "one hundred".toList] (by decide) (by decide),
   by decide⟩

/-! ### The aligner step -/

theorem length_setStatus (words : List Word) (i : Nat) (x : Status) :
    (setStatus words i x).length = words.length := by
  unfold setStatus
  split <;> simp

theorem getElem?_setStatus (words : List Word) (i j : Nat) (x : Status) :
    (setStatus words i x)[j]? =
      if j = i then (words[i]?).map (fun w => { w with status := x }) else words[j]? := by
  unfold setStatus
  split
  · next w hw =>
    by_cases hji : j = i
    · subst hji
      have hlt : j < words.length := by
        rcases Nat.lt_or_ge j words.length with h | h
        · exact h
        · rw [List.getElem?_eq_none h] at hw; cases hw
      simp [hw, List.getElem?_set_self hlt]
    · have hij : ¬ i = j := fun h => hji h.symm
      simp [hji, List.getElem?_set_ne hij]
  · next hw =>
    by_cases hji : j = i
    · subst hji; simp [hw]
    · simp [hji]

theorem statusAt_setStatus (words : List Word) (i j : Nat) (x : Status) :
    statusAt (setStatus words i x) j =
      if j = i then (statusAt words i).map (fun _ => x) else statusAt words j := by
  unfold statusAt
  rw [getElem?_setStatus]
  split
  · cases words[i]? <;> rfl
  · rfl

theorem length_markSkipped (n k : Nat) (words : List Word) :
    (markSkipped n k words).length = words.length := by
  induction n generalizing k words with
  | zero => rfl
  | succ n ih =>
    simp only [markSkipped]
    rw [ih]
    split
    · exact length_setStatus _ _ _
    · rfl

theorem statusAt_markSkipped (n k : Nat) (words : List Word) (j : Nat) :
    statusAt (markSkipped n k words) j =
      if k ≤ j ∧ j < k + n ∧ statusAt words j = some Status.pending
      then some Status.incorrect else statusAt words j := by
  induction n generalizing k words with
  | zero =>
    simp only [markSkipped, Nat.add_zero]
    rw [if_neg (by omega)]
  | succ n ih =>
    simp only [markSkipped]
    rw [ih]
    by_cases hp : statusAt words k = some Status.pending
    · simp only [hp, if_true, statusAt_setStatus]
      by_cases hjk : j = k
      · subst hjk
        simp [hp]
      · simp only [hjk, if_false]
        by_cases hq : statusAt words j = some Status.pending
        · have e1 : (k + 1 ≤ j ∧ j < k + 1 + n ∧ True) ↔ (k ≤ j ∧ j < k + (n + 1) ∧ True) := by
            constructor <;> rintro ⟨a, b, -⟩ <;> exact ⟨by omega, by omega, trivial⟩
          simp only [hq, true_and, and_true] at e1 ⊢
          by_cases hr : k ≤ j ∧ j < k + (n + 1)
          · rw [if_pos (by omega), if_pos hr]
          · rw [if_neg (by omega), if_neg hr]
        · simp [hq]
    · simp only [hp, if_false]
      by_cases hq : statusAt words j = some Status.pending
      · have hjk : j ≠ k := by rintro rfl; exact hp hq
        simp only [hq, and_true]
        by_cases hr : k ≤ j ∧ j < k + (n + 1)
        · rw [if_pos (by omega), if_pos hr]
        · rw [if_neg (by omega), if_neg hr]
      · simp [hq]

theorem scanWindow_found (words : List Word) (spoken : Str) (ci : Int) :
    ∀ (offs : List Nat) (idx : Nat), scanWindow words spoken ci offs = some (some idx) →
      ∃ off ∈ offs, ci + (off : Int) = (idx : Int) ∧ idx < words.length ∧
        ∃ w, words[idx]? = some w ∧ w.status = Status.pending ∧
          checkMatch spoken w.clean = some true := by
  intro offs
  induction offs with
  | nil => intro idx h; simp [scanWindow] at h
  | cons off more ih =>
    intro idx h
    simp only [scanWindow] at h
    split_ifs at h with h1 h2
    · cases h
    · have hnn : 0 ≤ ci + (off : Int) := by omega
      split at h
      · cases h
      · next targetWord hw =>
        split_ifs at h with hp
        · obtain ⟨o, ho, rest⟩ := ih idx h
          exact ⟨o, List.mem_cons_of_mem _ ho, rest⟩
        · split at h
          · cases h
          · next hm =>
            simp only [Option.some.injEq] at h
            subst h
            refine ⟨off, List.mem_cons_self _ _, ?_, ?_, targetWord, hw, ?_, hm⟩
            · exact (Int.toNat_of_nonneg hnn).symm
            · have := Int.toNat_of_nonneg hnn
              omega
            · simpa using hp
          · obtain ⟨o, ho, rest⟩ := ih idx h
            exact ⟨o, List.mem_cons_of_mem _ ho, rest⟩

/-- What one token can do: nothing, or mark the first matching pending word of the
window `'correct'`, the pending words before it `'incorrect'`, and move the cursor there. -/
theorem afterToken_cases (st : Reading) (spoken : Str) :
    afterToken st spoken = st ∨
    ∃ idx : Nat, st.lastMarkedWordIndex + 1 ≤ (idx : Int) ∧
      (idx : Int) ≤ st.lastMarkedWordIndex + 3 ∧ idx < st.passageWords.length ∧
      statusAt st.passageWords idx = some Status.pending ∧
      afterToken st spoken =
        { passageWords := setStatus
            (markSkipped (idx - (st.lastMarkedWordIndex + 1).toNat)
              (st.lastMarkedWordIndex + 1).toNat st.passageWords) idx Status.correct,
          lastMarkedWordIndex := idx } := by
  unfold afterToken alignToken
  split_ifs with hb
  · left; rfl
  · simp only
    split
    · left; rfl
    · left; rfl
    · next targetIdx hscan =>
      right
      obtain ⟨off, hoff, hsum, hlt, w, hw, hp, -⟩ := scanWindow_found _ _ _ _ _ hscan
      refine ⟨targetIdx, by omega, ?_, hlt, ?_, rfl⟩
      · simp only [List.mem_cons, List.mem_singleton, List.not_mem_nil, or_false] at hoff
        rcases hoff with rfl | rfl | rfl <;> omega
      · simp [statusAt, hw, hp]

theorem afterToken_bounds (st : Reading) (spoken : Str) :
    st.lastMarkedWordIndex ≤ (afterToken st spoken).lastMarkedWordIndex ∧
    (afterToken st spoken).passageWords.length = st.passageWords.length ∧
    (st.lastMarkedWordIndex < st.passageWords.length →
      (afterToken st spoken).lastMarkedWordIndex < st.passageWords.length) := by
  rcases afterToken_cases st spoken with h | ⟨idx, h1, -, h3, -, h5⟩
  · rw [h]; exact ⟨le_refl _, rfl, fun h => h⟩
  · rw [h5]
    refine ⟨by simp only; omega, ?_, fun _ => by simp only; omega⟩
    simp only [length_setStatus, length_markSkipped]

theorem afterToken_of_alignToken (st st1 : Reading) (spoken : Str)
    (h : alignToken st spoken = some st1) : afterToken st spoken = st1 := by
  simp [afterToken, h]

theorem alignTokens_bounds (toks : List Str) :
    ∀ st : Reading,
      st.lastMarkedWordIndex ≤ (alignTokens st toks).1.lastMarkedWordIndex ∧
      (alignTokens st toks).1.passageWords.length = st.passageWords.length ∧
      (st.lastMarkedWordIndex < st.passageWords.length →
        (alignTokens st toks).1.lastMarkedWordIndex < st.passageWords.length) := by
  induction toks with
  | nil => intro st; exact ⟨le_refl _, rfl, fun h => h⟩
  | cons spoken more ih =>
    intro st
    simp only [alignTokens]
    split
    · exact ⟨le_refl _, rfl, fun h => h⟩
    · next st1 h1 =>
      have hb := afterToken_bounds st spoken
      rw [afterToken_of_alignToken st st1 spoken h1] at hb
      obtain ⟨a1, a2, a3⟩ := hb
      obtain ⟨b1, b2, b3⟩ := ih st1
      refine ⟨le_trans a1 b1, by rw [b2, a2], fun h => ?_⟩
      have := b3 (by rw [a2]; exact a3 h)
      rw [a2] at this
      exact this

theorem runChunks_bounds (chunks : List Str) :
    ∀ st : Reading,
      st.lastMarkedWordIndex ≤ (runChunks st chunks).lastMarkedWordIndex ∧
      (runChunks st chunks).passageWords.length = st.passageWords.length ∧
      (st.lastMarkedWordIndex < st.passageWords.length →
        (runChunks st chunks).lastMarkedWordIndex < st.passageWords.length) := by
  induction chunks with
  | nil => intro st; exact ⟨le_refl _, rfl, fun h => h⟩
  | cons text more ih =>
    intro st
    simp only [runChunks, List.foldl_cons]
    obtain ⟨a1, a2, a3⟩ := alignTokens_bounds (splitWs text) st
    obtain ⟨b1, b2, b3⟩ := ih (alignChunk st text).1
    simp only [runChunks, alignChunk] at b1 b2 b3 ⊢
    refine ⟨le_trans a1 b1, by rw [b2, a2], fun h => ?_⟩
    have := b3 (by rw [a2]; exact a3 h)
    rw [a2] at this
    exact this

/-- Claim C3 (alignment cursor invariant): start from cursor `-1` on any target sequence
`words`, in particular a freshly built one, handle any sequence of transcripts `chunks`
and then any tokens `toks` of a further transcript.  The cursor reached is at least `-1`
and strictly less than the number of target words, the next token `spoken` does not
decrease it and leaves it strictly less than the number of target words, which never
changes. -/
theorem cursor_invariant (words : List Word) (chunks toks : List Str) (spoken : Str) :
    (-1 : Int) ≤
      (alignTokens (runChunks { passageWords := words, lastMarkedWordIndex := -1 } chunks)
        toks).1.lastMarkedWordIndex ∧
    (alignTokens (runChunks { passageWords := words, lastMarkedWordIndex := -1 } chunks)
        toks).1.lastMarkedWordIndex < words.length ∧
    (alignTokens (runChunks { passageWords := words, lastMarkedWordIndex := -1 } chunks)
        toks).1.lastMarkedWordIndex ≤
      (afterToken
        (alignTokens (runChunks { passageWords := words, lastMarkedWordIndex := -1 } chunks)
          toks).1 spoken).lastMarkedWordIndex ∧
    (afterToken
        (alignTokens (runChunks { passageWords := words, lastMarkedWordIndex := -1 } chunks)
          toks).1 spoken).lastMarkedWordIndex < words.length ∧
    (afterToken
        (alignTokens (runChunks { passageWords := words, lastMarkedWordIndex := -1 } chunks)
          toks).1 spoken).passageWords.length = words.length := by
  obtain ⟨a1, a2, a3⟩ :=
    runChunks_bounds chunks { passageWords := words, lastMarkedWordIndex := -1 }
  obtain ⟨b1, b2, b3⟩ := alignTokens_bounds toks
    (runChunks { passageWords := words, lastMarkedWordIndex := -1 } chunks)
  obtain ⟨c1, c2, c3⟩ := afterToken_bounds
    (alignTokens (runChunks { passageWords := words, lastMarkedWordIndex := -1 } chunks)
      toks).1 spoken
  simp only at a1 a2 a3
  have h0 : (-1 : Int) < (words.length : Int) := by omega
  have ha := a3 h0
  rw [a2] at b2 b3
  have hb := b3 ha
  rw [b2] at c2 c3
  exact ⟨le_trans a1 b1, hb, c1, c3 hb, c2⟩

theorem statusAt_markPendingIncorrect (words : List Word) (i : Nat) :
    statusAt (markPendingIncorrect words) i =
      (statusAt words i).map (fun x => if x = Status.pending then Status.incorrect else x) := by
  simp only [statusAt, markPendingIncorrect, List.getElem?_map, Option.map_map]
  cases words[i]? with
  | none => rfl
  | some w =>
    simp only [Option.map_some', Function.comp_apply, Option.some.injEq]
    split <;> rfl

theorem statusAt_afterToken (st : Reading) (spoken : Str) (i : Nat) :
    statusAt (afterToken st spoken).passageWords i = statusAt st.passageWords i ∨
    (statusAt st.passageWords i = some Status.pending ∧
      (statusAt (afterToken st spoken).passageWords i = some Status.correct ∨
       statusAt (afterToken st spoken).passageWords i = some Status.incorrect)) := by
  rcases afterToken_cases st spoken with h | ⟨idx, h1, -, -, h4, h5⟩
  · left; rw [h]
  · rw [h5]
    simp only [statusAt_setStatus, statusAt_markSkipped]
    by_cases hi : i = idx
    · subst hi
      right
      refine ⟨h4, Or.inl ?_⟩
      simp only [if_true, h4, and_true]
      rw [if_neg (by omega)]
      rfl
    · simp only [hi, if_false]
      by_cases hp : statusAt st.passageWords i = some Status.pending
      · split
        · right; exact ⟨hp, Or.inr rfl⟩
        · left; rfl
      · left
        rw [if_neg (fun h => hp h.2.2)]

/-- Claim C4 (a target word's status is terminal once set): for the aligner step of any
spoken token and for the sentence timeout, with the guard flag in either state, the status
of the word at every index `i` is unchanged, or it was `'pending'` and is now `'correct'`
or `'incorrect'`; an index holds a word after the event exactly when it did before. -/
theorem status_terminal (st : Reading) (spoken : Str) (sentenceAdvancing : Bool) (i : Nat) :
    (statusAt (afterToken st spoken).passageWords i = statusAt st.passageWords i ∨
      (statusAt st.passageWords i = some Status.pending ∧
        (statusAt (afterToken st spoken).passageWords i = some Status.correct ∨
         statusAt (afterToken st spoken).passageWords i = some Status.incorrect))) ∧
    (statusAt (handleTimeoutWords sentenceAdvancing st.passageWords) i =
        statusAt st.passageWords i ∨
      (statusAt st.passageWords i = some Status.pending ∧
        (statusAt (handleTimeoutWords sentenceAdvancing st.passageWords) i =
            some Status.correct ∨
         statusAt (handleTimeoutWords sentenceAdvancing st.passageWords) i =
            some Status.incorrect))) := by
  refine ⟨statusAt_afterToken st spoken i, ?_⟩
  unfold handleTimeoutWords
  cases sentenceAdvancing with
  | true => left; rfl
  | false =>
    simp only [Bool.false_eq_true, if_false, statusAt_markPendingIncorrect]
    cases h : statusAt st.passageWords i with
    | none => left; rfl
    | some x =>
      cases x with
      | pending => right; exact ⟨rfl, Or.inr rfl⟩
      | correct => left; rfl
      | incorrect => left; rfl

theorem wordAt_natCast (words : List Word) (idx : Nat) :
    wordAt words (idx : Int) = words[idx]? := by
  simp [wordAt]

/-- Claim C2 (noise step): if at none of the offsets 0, 1, 2 from `cursor + 1` there is a
pending word that `checkMatch` accepts for the token, then handling the token leaves the
target words and the cursor as they were. -/
theorem noise_token_discarded (st : Reading) (spoken : Str)
    (h : ∀ offset : Nat, offset ≤ 2 → ∀ w : Word,
      wordAt st.passageWords (st.lastMarkedWordIndex + 1 + (offset : Int)) = some w →
      w.status = Status.pending → checkMatch spoken w.clean ≠ some true) :
    afterToken st spoken = st := by
  unfold afterToken alignToken
  split_ifs with hb
  · rfl
  · simp only
    split
    · rfl
    · rfl
    · next targetIdx hscan =>
      exfalso
      obtain ⟨off, hoff, hsum, -, w, hw, hp, hm⟩ := scanWindow_found _ _ _ _ _ hscan
      have hle : off ≤ 2 := by
        simp only [List.mem_cons, List.mem_singleton, List.not_mem_nil, or_false] at hoff
        rcases hoff with rfl | rfl | rfl <;> omega
      refine h off hle w ?_ hp hm
      rw [hsum, wordAt_natCast]
      exact hw

/-- Instance of claim C2: with targets `run fast now` and `run` already matched, the
token `really` is discarded; the transcript `run really fast now` ends with all three
words correct. -/
theorem noise_token_discarded_witness :
    afterToken (afterToken (renderSentence "run fast now".toList) "run".toList)
        "really".toList =
      afterToken (renderSentence "run fast now".toList) "run".toList ∧
    (runChunks (renderSentence "run fast now".toList)
        ["run really fast now".toList]).passageWords.map (fun w => w.status) =
      [Status.correct, Status.correct, Status.correct] :=
  ⟨noise_token_discarded
      (afterToken (renderSentence "run fast now".toList) "run".toList) "really".toList
      (by
        have hst : afterToken (renderSentence "run fast now".toList) "run".toList =
            { passageWords :=
                [{ original := "run".toList, clean := "run".toList, status := Status.correct },
                 { original := "fast".toList, clean := "fast".toList, status := Status.pending },
                 { original := "now".toList, clean := "now".toList, status := Status.pending }],
              lastMarkedWordIndex := 0 } := by decide
        rw [hst]
        intro offset ho w hw hp
        interval_cases offset
        · simp only [wordAt] at hw
          simp at hw
          subst hw
          decide
        · simp only [wordAt] at hw
          simp at hw
          subst hw
          decide
        · simp only [wordAt] at hw
          simp at hw),
   by decide⟩

theorem scanWindow_first (words : List Word) (spoken : Str) (ci : Int) (hci : 0 ≤ ci)
    (k : Nat) (w : Word) (hw : wordAt words (ci + (k : Int)) = some w)
    (hp : w.status = Status.pending) (hm : checkMatch spoken w.clean = some true) :
    ∀ offs : List Nat, k ∈ offs → offs.Pairwise (fun x y => x < y) →
      (∀ j ∈ offs, j < k → ∀ v : Word, wordAt words (ci + (j : Int)) = some v →
        v.status = Status.pending → checkMatch spoken v.clean = some false) →
      scanWindow words spoken ci offs = some (some (ci + (k : Int)).toNat) := by
  have hk : words[(ci + (k : Int)).toNat]? = some w := by
    have : ¬ (ci + (k : Int) < 0) := by omega
    simpa [wordAt, this] using hw
  have hklt : (ci + (k : Int)).toNat < words.length := by
    rcases Nat.lt_or_ge (ci + (k : Int)).toNat words.length with h | h
    · exact h
    · rw [List.getElem?_eq_none h] at hk; cases hk
  intro offs
  induction offs with
  | nil => intro hmem; cases hmem
  | cons o more ih =>
    intro hmem hsorted hmin
    have hok : o ≤ k := by
      rcases List.mem_cons.mp hmem with h | h
      · omega
      · exact Nat.le_of_lt ((List.pairwise_cons.mp hsorted).1 k h)
    have hnn : ¬ (ci + (o : Int) < 0) := by omega
    have hlt : ¬ (ci + (o : Int) ≥ (words.length : Int)) := by
      have := Int.toNat_of_nonneg (show 0 ≤ ci + (k : Int) by omega)
      omega
    have holt : (ci + (o : Int)).toNat < words.length := by
      have := Int.toNat_of_nonneg (show 0 ≤ ci + (o : Int) by omega)
      omega
    simp only [scanWindow, if_neg hlt, if_neg hnn]
    rw [List.getElem?_eq_getElem holt]
    simp only
    by_cases hko : o = k
    · subst hko
      have hwo : words[(ci + (o : Int)).toNat] = w := by
        rw [List.getElem?_eq_getElem holt] at hk
        exact Option.some.inj hk
      rw [hwo]
      simp [hp, hm]
    · have hlt2 : o < k := by omega
      have hmem2 : k ∈ more := by
        rcases List.mem_cons.mp hmem with h | h
        · exact absurd h.symm hko
        · exact h
      have hrec := ih hmem2 (List.pairwise_cons.mp hsorted).2
        (fun j hj => hmin j (List.mem_cons_of_mem _ hj))
      by_cases hpo : (words[(ci + (o : Int)).toNat]).status = Status.pending
      · have hwa : wordAt words (ci + (o : Int)) = some (words[(ci + (o : Int)).toNat]) := by
          simp only [wordAt, if_neg hnn]
          exact List.getElem?_eq_getElem holt
        have hf := hmin o (List.mem_cons_self _ _) hlt2 _ hwa hpo
        simp [hpo, hf, hrec]
      · simp [hpo, hrec]

/-- The match step of the aligner when no call of `checkMatch` raises: if offset `k ≤ 2`
from `cursor + 1` holds a pending word that `checkMatch` accepts for a non-blank token,
and `checkMatch` returns false for the pending words at lower offsets, then the word at
`cursor + 1 + k` becomes `'correct'`, the pending words from `cursor + 1` up to it become
`'incorrect'`, every other status is unchanged and the cursor is `cursor + 1 + k`. -/
theorem alignToken_match (st : Reading) (spoken : Str) (k : Nat) (w : Word)
    (hc : -1 ≤ st.lastMarkedWordIndex) (hk : k ≤ 2) (hb : trim spoken ≠ [])
    (hw : wordAt st.passageWords (st.lastMarkedWordIndex + 1 + (k : Int)) = some w)
    (hp : w.status = Status.pending) (hm : checkMatch spoken w.clean = some true)
    (hmin : ∀ j : Nat, j < k → ∀ v : Word,
      wordAt st.passageWords (st.lastMarkedWordIndex + 1 + (j : Int)) = some v →
      v.status = Status.pending → checkMatch spoken v.clean = some false) :
    (afterToken st spoken).lastMarkedWordIndex = st.lastMarkedWordIndex + 1 + (k : Int) ∧
    statusAt (afterToken st spoken).passageWords
        ((st.lastMarkedWordIndex + 1).toNat + k) = some Status.correct ∧
    ∀ i : Nat, i ≠ (st.lastMarkedWordIndex + 1).toNat + k →
      statusAt (afterToken st spoken).passageWords i =
        if (st.lastMarkedWordIndex + 1).toNat ≤ i ∧ i < (st.lastMarkedWordIndex + 1).toNat + k ∧
            statusAt st.passageWords i = some Status.pending
        then some Status.incorrect else statusAt st.passageWords i := by
  have hci : (0 : Int) ≤ st.lastMarkedWordIndex + 1 := by omega
  have hscan := scanWindow_first st.passageWords spoken (st.lastMarkedWordIndex + 1) hci k w
    hw hp hm [0, 1, 2]
    (by
      simp only [List.mem_cons, List.mem_singleton, List.not_mem_nil, or_false]
      omega)
    (by decide) (fun j _ hj => hmin j hj)
  have hidx : (st.lastMarkedWordIndex + 1 + (k : Int)).toNat =
      (st.lastMarkedWordIndex + 1).toNat + k := by
    have := Int.toNat_of_nonneg hci
    omega
  have hsp : spoken ≠ [] := by
    rintro rfl
    exact hb rfl
  have hafter : afterToken st spoken =
      { passageWords := setStatus
          (markSkipped k (st.lastMarkedWordIndex + 1).toNat st.passageWords)
          ((st.lastMarkedWordIndex + 1).toNat + k) Status.correct,
        lastMarkedWordIndex := ((st.lastMarkedWordIndex + 1).toNat + k : Nat) } := by
    have hno : ¬ (spoken = [] ∨ (trim spoken).length = 0) := by
      rintro (h | h)
      · exact hsp h
      · exact hb (List.length_eq_zero.mp h)
    unfold afterToken alignToken
    rw [if_neg hno]
    simp only [hscan, hidx, Option.getD_some, Nat.add_sub_cancel_left]
  have hwk : statusAt st.passageWords ((st.lastMarkedWordIndex + 1).toNat + k) =
      some Status.pending := by
    have : ¬ (st.lastMarkedWordIndex + 1 + (k : Int) < 0) := by omega
    simp only [wordAt, if_neg this, hidx] at hw
    simp [statusAt, hw, hp]
  rw [hafter]
  refine ⟨?_, ?_, ?_⟩
  · simp only
    have := Int.toNat_of_nonneg hci
    omega
  · simp only [statusAt_setStatus, statusAt_markSkipped, if_true, hwk, and_true]
    rw [if_neg (by omega)]
    rfl
  · intro i hi
    simp only [statusAt_setStatus, statusAt_markSkipped, if_neg hi]

/-- The target sequence `the cat sat` with the spoken tokens `cat`, `sat` from cursor
`-1` ends with the statuses incorrect, correct, correct and cursor `2`. -/
theorem align_the_cat_sat :
    (runChunks (renderSentence "the cat sat".toList) ["cat sat".toList]).passageWords.map
        (fun w => w.status) = [Status.incorrect, Status.correct, Status.correct] ∧
    (runChunks (renderSentence "the cat sat".toList)
        ["cat sat".toList]).lastMarkedWordIndex = 2 := by
  decide

/-- Claim C1, at the target sequence `constructor cat` with cursor `-1` and the token
`cat`: offset `1` is the smallest offset holding a pending word that `checkMatch`
accepts, since `checkMatch("cat", "constructor")` raises instead of returning, and the
step raises too, leaving word `1` pending and the cursor at `-1`. -/
theorem alignToken_raises_at_constructor :
    (renderSentence "constructor cat".toList).passageWords =
      [{ original := "constructor".toList, clean := "constructor".toList,
         status := Status.pending },
       { original := "cat".toList, clean := "cat".toList, status := Status.pending }] ∧
    checkMatch "cat".toList "cat".toList = some true ∧
    checkMatch "cat".toList "constructor".toList = none ∧
    propRead getLetterMappings "constructor".toList = PropRead.inherited ∧
    alignToken (renderSentence "constructor cat".toList) "cat".toList = none ∧
    afterToken (renderSentence "constructor cat".toList) "cat".toList =
      renderSentence "constructor cat".toList ∧
    (alignChunk (renderSentence "constructor cat".toList) "cat".toList).1.lastMarkedWordIndex
      = -1 := by
  decide

/-! ### Phrase matching -/

theorem splitWsFrom_ne_nil (b : Bool) (s : Str) : splitWsFrom b s ≠ [] := by
  induction s generalizing b with
  | nil => simp [splitWsFrom]
  | cons c rest ih =>
    simp only [splitWsFrom]
    split_ifs
    · exact ih true
    · simp
    · split <;> simp

theorem length_splitWs_pos (s : Str) : 0 < (splitWs s).length :=
  List.length_pos.mpr (splitWsFrom_ne_nil false s)

theorem foldl_count (p : Str → Bool) (l : List Str) (k : Nat) :
    l.foldl (fun m tw => if p tw then m + 1 else m) k = k + (l.filter p).length := by
  induction l generalizing k with
  | nil => simp
  | cons x xs ih =>
    simp only [List.foldl_cons, List.filter_cons]
    rw [ih]
    split
    · simp only [List.length_cons]; omega
    · rfl

theorem ratio_ge_iff (m n : Nat) (hn : 0 < n) :
    ((m : ℚ) / (n : ℚ) ≥ 3 / 4) ↔ 4 * m ≥ 3 * n := by
  have hq : (0 : ℚ) < (n : ℚ) := by exact_mod_cast hn
  rw [ge_iff_le, le_div_iff₀ hq]
  constructor
  · intro h
    have h2 : (3 : ℚ) * n ≤ 4 * m := by linarith
    exact_mod_cast h2
  · intro h
    have h2 : (3 : ℚ) * n ≤ 4 * m := by exact_mod_cast h
    linarith

/-- The source's `checkPhraseMatch` computes phrase matching on lower-cased text. -/
theorem checkPhraseMatch_eq_lowered (spoken target : Str) :
    checkPhraseMatch spoken target = phraseMatchLowered spoken target := by
  unfold checkPhraseMatch phraseMatchLowered phraseTarget keywordPresent
  by_cases hct : trim (beforeOr (trim (stripParens target))) = []
  · simp [hct]
  · have hne : (trim (beforeOr (trim (stripParens target)))).isEmpty = false := by
      cases h : trim (beforeOr (trim (stripParens target))) with
      | nil => exact absurd h hct
      | cons _ _ => rfl
    simp only [hct, if_false, hne, Bool.not_false, Bool.true_and]
    rw [foldl_count, Nat.zero_add]
    exact decide_eq_decide.mpr (ratio_ge_iff _ _ (length_splitWs_pos _))

/-- Claim C6, as amended: for all spoken and target strings, `checkPhraseMatch` is true
exactly when the target, after removing parenthesised annotations and everything from the
first `" or "` onward and trimming, is not empty and at least 75% of its white-space
separated keywords are present, both the spoken text and the cleaned target being put in
lower case before they are split. -/
theorem checkPhraseMatch_iff_lowered (spoken target : Str) :
    checkPhraseMatch spoken target = true ↔ phraseMatchLowered spoken target = true := by
  rw [checkPhraseMatch_eq_lowered]

/-- Claim C6 fails as stated: for spoken `AB` and target `ab` the source's
`checkPhraseMatch` is true, while no spoken token equals the keyword `ab`, which has
fewer than 4 characters. -/
theorem checkPhraseMatch_not_as_stated :
    checkPhraseMatch "AB".toList "ab".toList = true ∧
    phraseMatchAsStated "AB".toList "ab".toList = false := by
  rw [checkPhraseMatch_eq_lowered]
  decide

/-- Target `plants grow (detail)` with spoken `it helps plants to grow` is a phrase
match: both keywords are present and the annotation is stripped. -/
theorem checkPhraseMatch_plants_grow :
    checkPhraseMatch "it helps plants to grow".toList "plants grow (detail)".toList = true := by
  rw [checkPhraseMatch_eq_lowered]
  decide

/-! ### The phrase branch of `checkMatch` -/

theorem splitChar_of_not_mem (sep : Char) (s : Str) (h : sep ∉ s) : splitChar sep s = [s] := by
  induction s with
  | nil => rfl
  | cons c rest ih =>
    have hc : ¬ c = sep := fun e => h (by simp [e])
    have hr : sep ∉ rest := fun e => h (List.mem_cons_of_mem _ e)
    simp [splitChar, hc, ih hr]

theorem space_not_mem_cleanWord (w : Str) : ' ' ∉ cleanWord w := by
  intro h
  have := (List.mem_filter.mp h).2
  revert this
  decide

/-- The test `t.split(' ').length > 1` of `checkMatch` is false for every target: the
cleaned target holds no space, so the phrase branch is never entered. -/
theorem phrase_branch_dead (target : Str) :
    (splitChar ' ' (cleanWord target)).length = 1 := by
  rw [splitChar_of_not_mem _ _ (space_not_mem_cleanWord target)]
  rfl

/-- Claim C7, at spoken `it helps plants to grow` and target `plants grow (detail)`: the
target has three white-space separated words and phrase matching of the spoken text
against it succeeds, yet `checkMatch` returns false. -/
theorem checkMatch_skips_phrase_matching :
    (splitWs "plants grow (detail)".toList).length = 3 ∧
    checkPhraseMatch "it helps plants to grow".toList "plants grow (detail)".toList = true ∧
    checkMatch "it helps plants to grow".toList "plants grow (detail)".toList = some false := by
  rw [checkPhraseMatch_eq_lowered]
  decide

/-! ### Edit distance -/

theorem lev_nil_left (ys : Str) : lev [] ys = ys.length := by
  rw [lev]

theorem lev_nil_right (xs : Str) : lev xs [] = xs.length := by
  cases xs with
  | nil => rw [lev]
  | cons x xs => rw [lev]

theorem lev_cons_cons (x y : Char) (xs ys : Str) :
    lev (x :: xs) (y :: ys) =
      if x = y then lev xs ys
      else min3 (lev xs ys) (lev xs (y :: ys)) (lev (x :: xs) ys) + 1 := by
  rw [lev]

theorem rowFrom_eq_cons (rb ra suf : Str) :
    rowFrom rb ra suf = lev ra rb :: (rowFrom rb ra suf).tail := by
  cases suf <;> simp [rowFrom]

theorem distRow_rowFrom (bc : Char) (rb : Str) :
    ∀ suf ra : Str,
      distRow bc suf (rowFrom rb ra suf) (lev ra (bc :: rb)) =
        (rowFrom (bc :: rb) ra suf).tail := by
  intro suf
  induction suf with
  | nil => intro ra; simp [rowFrom, distRow]
  | cons c suf ih =>
    intro ra
    have hcell : (if bc = c then lev ra rb
        else min3 (lev ra rb) (lev ra (bc :: rb)) (lev (c :: ra) rb) + 1) =
        lev (c :: ra) (bc :: rb) := by
      rw [lev_cons_cons]
      by_cases h : bc = c
      · rw [if_pos h, if_pos h.symm]
      · rw [if_neg h, if_neg (fun e => h e.symm)]
    have hrow : rowFrom rb ra (c :: suf) =
        lev ra rb :: lev (c :: ra) rb :: (rowFrom rb (c :: ra) suf).tail := by
      conv_lhs => rw [rowFrom, rowFrom_eq_cons rb (c :: ra) suf]
    rw [hrow]
    simp only [distRow]
    rw [hcell, ← rowFrom_eq_cons rb (c :: ra) suf, ih (c :: ra)]
    conv_rhs => rw [rowFrom, List.tail_cons, rowFrom_eq_cons (bc :: rb) (c :: ra) suf]

theorem distRows_rowFrom (a : Str) :
    ∀ (bsuf rb : Str) (i : Nat), i = rb.length →
      distRows a bsuf i (rowFrom rb [] a) = rowFrom (bsuf.reverse ++ rb) [] a := by
  intro bsuf
  induction bsuf with
  | nil => intro rb i _; simp [distRows]
  | cons bc bsuf ih =>
    intro rb i hi
    have hlev : lev [] (bc :: rb) = i + 1 := by rw [lev_nil_left, hi]; rfl
    simp only [distRows]
    rw [← hlev, distRow_rowFrom bc rb a [], ← rowFrom_eq_cons (bc :: rb) [] a,
      ih (bc :: rb) (lev [] (bc :: rb)) (by rw [lev_nil_left])]
    simp

theorem rowFrom_nil (suf : Str) :
    ∀ ra : Str, rowFrom [] ra suf = List.range' ra.length (suf.length + 1) := by
  induction suf with
  | nil => intro ra; simp [rowFrom, lev_nil_right]
  | cons c suf ih =>
    intro ra
    rw [rowFrom, ih (c :: ra), lev_nil_right]
    simp [List.range'_succ]

theorem getLastD_rowFrom (rb suf : Str) :
    ∀ (ra : Str) (d : Nat), (rowFrom rb ra suf).getLastD d = lev (suf.reverse ++ ra) rb := by
  induction suf with
  | nil => intro ra d; simp [rowFrom]
  | cons c suf ih =>
    intro ra d
    rw [rowFrom, List.getLastD_cons, ih (c :: ra)]
    simp

/-- The matrix of `dist` holds the Levenshtein recurrence on the reversed strings. -/
theorem dist_eq_lev (a b : Str) : dist a b = lev a.reverse b.reverse := by
  unfold dist
  split_ifs with ha hb
  · have : a = [] := List.length_eq_zero.mp ha
    subst this
    simp [lev_nil_left]
  · have : b = [] := List.length_eq_zero.mp hb
    subst this
    simp [lev_nil_right]
  · have h0 : List.range (a.length + 1) = rowFrom [] [] a := by
      rw [rowFrom_nil, List.range_eq_range']
      rfl
    rw [h0, distRows_rowFrom a b [] 0 rfl, getLastD_rowFrom]
    simp

theorem lev_self (x : Str) : lev x x = 0 := by
  induction x with
  | nil => rw [lev_nil_left]; rfl
  | cons c x ih => rw [lev_cons_cons, if_pos rfl, ih]

theorem lev_comm (x y : Str) : lev x y = lev y x := by
  induction x, y using lev.induct with
  | case1 ys => rw [lev_nil_left, lev_nil_right]
  | case2 x xs => rw [lev_nil_left, lev_nil_right]
  | case3 xs y ys ih => rw [lev_cons_cons, lev_cons_cons, if_pos rfl, if_pos rfl, ih]
  | case4 x xs y ys hxy ih1 ih2 ih3 =>
    rw [lev_cons_cons, lev_cons_cons, if_neg hxy, if_neg (fun e => hxy e.symm), ih1, ih2, ih3]
    simp only [min3]
    omega

/-- Adding or removing the first code unit of the second string changes the recurrence
by at most one. -/
theorem lev_cons_right_aux (n : Nat) :
    ∀ (x r : Str) (c : Char), x.length + r.length ≤ n →
      lev x (c :: r) ≤ lev x r + 1 ∧ lev x r ≤ lev x (c :: r) + 1 := by
  induction n with
  | zero =>
    intro x r c h
    have hx : x = [] := List.length_eq_zero.mp (by omega)
    have hr : r = [] := List.length_eq_zero.mp (by omega)
    subst hx hr
    simp [lev_nil_left]
  | succ n ih =>
    intro x r c h
    cases x with
    | nil =>
      simp only [lev_nil_left, List.length_cons]
      constructor <;> omega
    | cons a x =>
      have hlen : x.length + r.length ≤ n := by simp only [List.length_cons] at h; omega
      -- removing the head of the first string, through symmetry
      have hdel : lev x r ≤ lev (a :: x) r + 1 := by
        rw [lev_comm x r, lev_comm (a :: x) r]
        exact (ih r x a (by omega)).2
      have hadd : lev (a :: x) r ≤ lev x r + 1 := by
        rw [lev_comm x r, lev_comm (a :: x) r]
        exact (ih r x a (by omega)).1
      have h1 := (ih x r c hlen).1
      have h2 := (ih x r c hlen).2
      rw [lev_cons_cons]
      by_cases hac : a = c
      · rw [if_pos hac]
        exact ⟨hdel, hadd⟩
      · rw [if_neg hac]
        simp only [min3]
        constructor <;> omega

theorem lev_insert_head (x r : Str) (c : Char) : lev x (c :: r) ≤ lev x r + 1 :=
  (lev_cons_right_aux _ x r c (le_refl _)).1

theorem lev_delete_head (x r : Str) (c : Char) : lev x r ≤ lev x (c :: r) + 1 :=
  (lev_cons_right_aux _ x r c (le_refl _)).2

theorem lev_substitute_head (r : Str) (c d : Char) :
    ∀ x : Str, lev x (d :: r) ≤ lev x (c :: r) + 1 := by
  intro x
  induction x with
  | nil => simp [lev_nil_left]
  | cons a x ih =>
    have h1 := lev_delete_head x r c
    have h2 := lev_insert_head (a :: x) r d
    have h3 := lev_insert_head (a :: x) r c
    have h4 : lev x r ≤ lev (a :: x) r + 1 := by
      rw [lev_comm x r, lev_comm (a :: x) r]
      exact lev_delete_head r x a
    rw [lev_cons_cons, lev_cons_cons]
    by_cases had : a = d <;> by_cases hac : a = c
    · rw [if_pos had, if_pos hac]; omega
    · rw [if_pos had, if_neg hac]; simp only [min3]; omega
    · rw [if_neg had, if_pos hac]; simp only [min3]; omega
    · rw [if_neg had, if_neg hac]; simp only [min3]; omega

theorem lev_cons_both (c : Char) (r r2 : Str) (h : ∀ x : Str, lev x r2 ≤ lev x r + 1) :
    ∀ x : Str, lev x (c :: r2) ≤ lev x (c :: r) + 1 := by
  intro x
  induction x with
  | nil =>
    have := h []
    simp only [lev_nil_left, List.length_cons] at this ⊢
    omega
  | cons a x ih =>
    have h1 := h x
    have h2 := h (a :: x)
    rw [lev_cons_cons, lev_cons_cons]
    by_cases hac : a = c
    · rw [if_pos hac, if_pos hac]; exact h1
    · rw [if_neg hac, if_neg hac]; simp only [min3]; omega

theorem lev_after_insert (l r : Str) (c : Char) :
    ∀ x : Str, lev x (l ++ c :: r) ≤ lev x (l ++ r) + 1 := by
  induction l with
  | nil => intro x; exact lev_insert_head x r c
  | cons p l ih => exact lev_cons_both p (l ++ r) (l ++ c :: r) ih

theorem lev_after_delete (l r : Str) (c : Char) :
    ∀ x : Str, lev x (l ++ r) ≤ lev x (l ++ c :: r) + 1 := by
  induction l with
  | nil => intro x; exact lev_delete_head x r c
  | cons p l ih => exact lev_cons_both p (l ++ c :: r) (l ++ r) ih

theorem lev_after_substitute (l r : Str) (c d : Char) :
    ∀ x : Str, lev x (l ++ d :: r) ≤ lev x (l ++ c :: r) + 1 := by
  induction l with
  | nil => exact lev_substitute_head r c d
  | cons p l ih => exact lev_cons_both p (l ++ c :: r) (l ++ d :: r) ih

theorem lev_after_step (x b c : Str) (h : EditStep b c) : lev x c ≤ lev x b + 1 := by
  cases h with
  | insert l c r => exact lev_after_insert l r c x
  | delete l c r => exact lev_after_delete l r c x
  | substitute l c d r => exact lev_after_substitute l r c d x

theorem lev_le_of_editsTo (n : Nat) (a b : Str) (h : EditsTo n a b) : lev a b ≤ n := by
  induction h with
  | done a => rw [lev_self]
  | @step n a b c _ hs ih =>
    have := lev_after_step a b c hs
    omega

theorem editStep_cons (p : Char) (b c : Str) (h : EditStep b c) :
    EditStep (p :: b) (p :: c) := by
  cases h with
  | insert l c r => exact EditStep.insert (p :: l) c r
  | delete l c r => exact EditStep.delete (p :: l) c r
  | substitute l c d r => exact EditStep.substitute (p :: l) c d r

theorem editsTo_cons (p : Char) (n : Nat) (a b : Str) (h : EditsTo n a b) :
    EditsTo n (p :: a) (p :: b) := by
  induction h with
  | done a => exact EditsTo.done _
  | step _ hs ih => exact EditsTo.step ih (editStep_cons p _ _ hs)

theorem editsTo_head (n : Nat) (a b c : Str) (hs : EditStep a b) (h : EditsTo n b c) :
    EditsTo (n + 1) a c := by
  induction h with
  | done b => exact EditsTo.step (EditsTo.done a) hs
  | step _ hs2 ih => exact EditsTo.step (ih hs) hs2

theorem editStep_reverse (b c : Str) (h : EditStep b c) : EditStep b.reverse c.reverse := by
  cases h with
  | insert l c r =>
    have := EditStep.insert r.reverse c l.reverse
    simpa using this
  | delete l c r =>
    have := EditStep.delete r.reverse c l.reverse
    simpa using this
  | substitute l c d r =>
    have := EditStep.substitute r.reverse c d l.reverse
    simpa using this

theorem editsTo_reverse (n : Nat) (a b : Str) (h : EditsTo n a b) :
    EditsTo n a.reverse b.reverse := by
  induction h with
  | done a => exact EditsTo.done _
  | step _ hs ih => exact EditsTo.step ih (editStep_reverse _ _ hs)

theorem editsTo_lev (x y : Str) : EditsTo (lev x y) x y := by
  induction x, y using lev.induct with
  | case1 ys =>
    rw [lev_nil_left]
    induction ys with
    | nil => exact EditsTo.done _
    | cons y ys ih => exact EditsTo.step ih (EditStep.insert [] y ys)
  | case2 x xs =>
    rw [lev_nil_right]
    generalize x :: xs = zs
    induction zs with
    | nil => exact EditsTo.done _
    | cons z zs ih => exact editsTo_head _ _ _ _ (EditStep.delete [] z zs) ih
  | case3 xs y ys ih =>
    rw [lev_cons_cons, if_pos rfl]
    exact editsTo_cons y _ _ _ ih
  | case4 x xs y ys hxy ih1 ih2 ih3 =>
    rw [lev_cons_cons, if_neg hxy]
    have hcases : min3 (lev xs ys) (lev xs (y :: ys)) (lev (x :: xs) ys) = lev xs ys ∨
        min3 (lev xs ys) (lev xs (y :: ys)) (lev (x :: xs) ys) = lev xs (y :: ys) ∨
        min3 (lev xs ys) (lev xs (y :: ys)) (lev (x :: xs) ys) = lev (x :: xs) ys := by
      simp only [min3]
      omega
    rcases hcases with h | h | h <;> rw [h]
    · exact EditsTo.step (editsTo_cons x _ _ _ ih1) (EditStep.substitute [] x y ys)
    · exact editsTo_head _ _ _ _ (EditStep.delete [] x xs) ih2
    · exact EditsTo.step ih3 (EditStep.insert [] y ys)

/-- Claim C5: for all strings `a` and `b`, `dist(a, b)` is the Levenshtein edit distance:
some sequence of `dist(a, b)` single-character insertions, deletions and substitutions
turns `a` into `b`, and no sequence of fewer such edits does. -/
theorem dist_is_levenshtein (a b : Str) :
    EditsTo (dist a b) a b ∧ ∀ n : Nat, EditsTo n a b → dist a b ≤ n := by
  rw [dist_eq_lev]
  constructor
  · have := editsTo_reverse _ _ _ (editsTo_lev a.reverse b.reverse)
    simpa using this
  · intro n h
    exact lev_le_of_editsTo n _ _ (editsTo_reverse _ _ _ h)

/-- Instance of claim C5: one substitution turns `cat` into `cut`, so `dist` is at most
`1` there; and `dist("kitten", "sitting")` is `3`, `dist("", "abc")` is `3`. -/
theorem dist_is_levenshtein_witness :
    EditsTo 1 "cat".toList "cut".toList ∧
    dist "cat".toList "cut".toList ≤ 1 ∧
    EditsTo (dist "kitten".toList "sitting".toList) "kitten".toList "sitting".toList ∧
    dist "kitten".toList "sitting".toList = 3 ∧
    dist [] "abc".toList = 3 ∧ dist "abc".toList [] = 3 :=
  have h : EditsTo 1 "cat".toList "cut".toList :=
    EditsTo.step (EditsTo.done _) (EditStep.substitute ['c'] 'a' 'u' ['t'])
  ⟨h, (dist_is_levenshtein "cat".toList "cut".toList).2 1 h,
   (dist_is_levenshtein "kitten".toList "sitting".toList).1, by decide, by decide, by decide⟩

/-! ### Levels and classifications -/

/-- Claim C13 (word list to passage level): for every level `L` and score,
`evaluateWordListPass` sets `passageLevel` to `L` when the score reaches the pass
threshold configured for `L`, and otherwise to the level immediately below `L` in
`LEVEL_ORDER`, which is `pre_primer` when `L` is the lowest; every level is in
`LEVEL_ORDER`, and the thresholds are 8, 8, 12, 12, 12, 15, 15, 15. -/
theorem evaluateWordListPass_level (s : Session) :
    (evaluateWordListPass s).passageLevel =
      (if s.wordListScore ≥ (WORD_LIST_CONFIG s.wordListLevel).pass then s.wordListLevel
       else levelBelow s.wordListLevel) ∧
    s.wordListLevel ∈ LEVEL_ORDER ∧
    LEVEL_ORDER.map (fun l => (WORD_LIST_CONFIG l).pass) = [8, 8, 12, 12, 12, 15, 15, 15] := by
  refine ⟨?_, ?_, by decide⟩
  · simp only [evaluateWordListPass, passageLevelFor]
    split
    · rfl
    · cases s.wordListLevel <;> decide
  · cases s.wordListLevel <;> decide

/-- Instance of claim C13: at level `primer`, whose threshold is 8, the score 8 gives
`primer` and the score 5 gives `pre_primer`. -/
theorem evaluateWordListPass_level_witness :
    (WORD_LIST_CONFIG Level.primer).pass = 8 ∧
    (evaluateWordListPass
      { Session.initial [] id with wordListLevel := Level.primer,
                                   wordListScore := 8 }).passageLevel = Level.primer ∧
    (evaluateWordListPass
      { Session.initial [] id with wordListLevel := Level.primer,
                                   wordListScore := 5 }).passageLevel = Level.pre_primer :=
  ⟨by decide, (evaluateWordListPass_level _).1.trans (by decide),
    (evaluateWordListPass_level _).1.trans (by decide)⟩

/-- Claim C14 (oral reading classification): for every passage word sequence,
`finishTest` hands over one result record whose `oralErrors` is the number of words whose
status is not `'correct'`, classified Frustrational when `oralErrors ≥ 5`, Instructional
when it is 3 or 4, and Independent when it is at most 2. -/
theorem finishTest_oral (s : Session) :
    ∃ r : ResultRecord, (finishTest s).results = s.results ++ [r] ∧
      r.oralErrors = s.passageWords.countP (fun w => decide (w.status ≠ Status.correct)) ∧
      (r.oralClassification = Classification.Frustrational ↔ r.oralErrors ≥ 5) ∧
      (r.oralClassification = Classification.Instructional ↔
        (r.oralErrors = 3 ∨ r.oralErrors = 4)) ∧
      (r.oralClassification = Classification.Independent ↔ r.oralErrors ≤ 2) := by
  refine ⟨_, rfl, ?_, ?_, ?_, ?_⟩
  · simp only [oralErrorsOf, List.countP_eq_length_filter]
  · simp only [oralClassificationOf]
    split_ifs <;> simp <;> omega
  · simp only [oralClassificationOf]
    split_ifs <;> simp <;> omega
  · simp only [oralClassificationOf]
    split_ifs <;> simp <;> omega

/-- Instance of claim C14: 5 errors give Frustrational and 2 errors give Independent; a
passage of six words, none read, gives 6 errors and Frustrational. -/
theorem finishTest_oral_witness :
    oralClassificationOf 5 = Classification.Frustrational ∧
    oralClassificationOf 2 = Classification.Independent ∧
    ∃ r : ResultRecord,
      (finishTest { Session.initial [] id with
        passageWords := buildWords "a b c d e f".toList }).results = [r] ∧
      r.oralErrors = 6 ∧ r.oralClassification = Classification.Frustrational := by
  obtain ⟨r, hr, he, hf, -, -⟩ := finishTest_oral
    { Session.initial [] id with passageWords := buildWords "a b c d e f".toList }
  have he6 : r.oralErrors = 6 := he.trans (by decide)
  exact ⟨by decide, by decide, r, hr, he6, hf.mpr (by omega)⟩

theorem log2Fuel_eq_log2 : ∀ fuel n : Nat, n ≤ fuel → log2Fuel fuel n = Nat.log2 n := by
  intro fuel
  induction fuel with
  | zero =>
    intro n h
    have h0 : n = 0 := by omega
    subst h0
    unfold Nat.log2
    simp [log2Fuel]
  | succ fuel ih =>
    intro n h
    unfold Nat.log2
    simp only [log2Fuel]
    by_cases h2 : n < 2
    · rw [if_pos h2, if_neg (by omega)]
    · rw [if_neg h2, if_pos (by omega), ih (n / 2) (by omega)]

theorem scaleOf_spec (num den : Nat) (hn : 0 < num) (hd : 0 < den) :
    0 < (scaleOf num den).1 ∧ 0 < (scaleOf num den).2 ∧
    2 ^ 52 * (den * (scaleOf num den).2) ≤ num * (scaleOf num den).1 := by
  have hla : 2 ^ log2Fuel num num ≤ num := by
    rw [log2Fuel_eq_log2 num num (le_refl _)]
    exact Nat.log2_self_le (by omega)
  have hlb : den < 2 ^ (log2Fuel den den + 1) := by
    rw [log2Fuel_eq_log2 den den (le_refl _)]
    exact Nat.lt_log2_self
  simp only [scaleOf]
  generalize log2Fuel num num = la at hla
  generalize log2Fuel den den = lb at hlb
  have hup : 0 < 2 ^ (52 + lb - la) := Nat.two_pow_pos _
  have hdown : 0 < 2 ^ (la - (52 + lb)) := Nat.two_pow_pos _
  have hkey : 2 ^ 51 * (den * 2 ^ (la - (52 + lb))) ≤ num * 2 ^ (52 + lb - la) := by
    calc 2 ^ 51 * (den * 2 ^ (la - (52 + lb)))
        ≤ 2 ^ 51 * (2 ^ (lb + 1) * 2 ^ (la - (52 + lb))) :=
          Nat.mul_le_mul_left _ (Nat.mul_le_mul_right _ hlb.le)
      _ = 2 ^ la * 2 ^ (52 + lb - la) := by
          rw [← pow_add, ← pow_add, ← pow_add]
          congr 1
          omega
      _ ≤ num * 2 ^ (52 + lb - la) := Nat.mul_le_mul_right _ hla
  split_ifs with hlow
  · refine ⟨by omega, hdown, ?_⟩
    calc 2 ^ 52 * (den * 2 ^ (la - (52 + lb)))
        = 2 * (2 ^ 51 * (den * 2 ^ (la - (52 + lb)))) := by ring
      _ ≤ 2 * (num * 2 ^ (52 + lb - la)) := Nat.mul_le_mul_left _ hkey
      _ = num * (2 * 2 ^ (52 + lb - la)) := by ring
  · refine ⟨hup, hdown, ?_⟩
    have h52 : 2 ^ 52 ≤ num * 2 ^ (52 + lb - la) / (den * 2 ^ (la - (52 + lb))) :=
      Nat.le_of_not_lt hlow
    exact (Nat.le_div_iff_mul_le (Nat.mul_pos hd hdown)).mp h52

theorem roundQuotient_error (n d : Nat) (hd : 0 < d) :
    |2 * ((roundQuotient n d : ℤ) * d - n)| ≤ d := by
  have hdiv := Nat.div_add_mod n d
  have hmod := Nat.mod_lt n hd
  simp only [roundQuotient]
  generalize n / d = q at hdiv
  generalize n % d = r at hdiv hmod
  have hdivZ : (d : ℤ) * q + r = n := by exact_mod_cast hdiv
  have hmodZ : (r : ℤ) < d := by exact_mod_cast hmod
  split_ifs with hc
  · have h2 : (d : ℤ) ≤ 2 * r := by
      rcases hc with h | ⟨h, -⟩
      · exact_mod_cast h.le
      · exact_mod_cast h.ge
    rw [abs_le]
    push_cast
    constructor <;> nlinarith
  · have h2 : 2 * (r : ℤ) ≤ d := by
      have : ¬ 2 * r > d := fun h => hc (Or.inl h)
      exact_mod_cast Nat.le_of_not_lt this
    rw [abs_le]
    constructor <;> nlinarith

/-- The relative error of rounding to double precision is at most `2^-53`. -/
theorem roundToDouble_error (num den : Nat) (hd : 0 < den) :
    0 < (roundToDouble num den).2 ∧
    (2 : ℚ) ^ 53 *
      |((roundToDouble num den).1 : ℚ) / ((roundToDouble num den).2 : ℚ) * den - num| ≤ num := by
  unfold roundToDouble
  by_cases hn : num = 0
  · subst hn
    simp
  · rw [if_neg hn]
    dsimp only
    obtain ⟨h1, h2, h52⟩ := scaleOf_spec num den (Nat.pos_of_ne_zero hn) hd
    have hq := roundQuotient_error (num * (scaleOf num den).1) (den * (scaleOf num den).2)
      (Nat.mul_pos hd h2)
    generalize roundQuotient (num * (scaleOf num den).1) (den * (scaleOf num den).2) = m at hq
    generalize (scaleOf num den).1 = up at h1 h52 hq
    generalize (scaleOf num den).2 = down at h2 h52 hq
    refine ⟨h1, ?_⟩
    have hupq : (0 : ℚ) < up := by exact_mod_cast h1
    have hqQ : |2 * ((m : ℚ) * (den * down) - num * up)| ≤ den * down := by
      have := hq
      push_cast at this
      exact_mod_cast this
    have h52Q : (2 : ℚ) ^ 52 * (den * down) ≤ num * up := by exact_mod_cast h52
    have e : ((m * down : Nat) : ℚ) / (up : ℚ) * den - num =
        ((m : ℚ) * (den * down) - num * up) / up := by
      push_cast
      field_simp
      ring
    rw [e, abs_div, abs_of_pos hupq, ← mul_div_assoc, div_le_iff₀ hupq]
    have h3 : (2 : ℚ) ^ 53 * |(m : ℚ) * (den * down) - num * up| =
        2 ^ 52 * |2 * ((m : ℚ) * (den * down) - num * up)| := by
      rw [abs_mul, abs_two]
      ring
    rw [h3]
    calc (2 : ℚ) ^ 52 * |2 * ((m : ℚ) * (den * down) - num * up)|
        ≤ 2 ^ 52 * (den * down) := mul_le_mul_of_nonneg_left hqQ (by positivity)
      _ ≤ num * up := h52Q

theorem error_scale (X a k : ℚ) (hk : 0 ≤ k) (h : (2 : ℚ) ^ 53 * |X - a| ≤ a) :
    (2 : ℚ) ^ 53 * |X * k - a * k| ≤ a * k := by
  have e : X * k - a * k = (X - a) * k := by ring
  rw [e, abs_mul, abs_of_nonneg hk, ← mul_assoc]
  exact mul_le_mul_of_nonneg_right h hk

theorem error_unscale (X a k : ℚ) (hk : 0 < k) (h : (2 : ℚ) ^ 53 * |X * k - a * k| ≤ a * k) :
    (2 : ℚ) ^ 53 * |X - a| ≤ a := by
  have e : X * k - a * k = (X - a) * k := by ring
  rw [e, abs_mul, abs_of_pos hk, ← mul_assoc] at h
  exact le_of_mul_le_mul_right h hk

theorem error_bounds (X a : ℚ) (h : (2 : ℚ) ^ 53 * |X - a| ≤ a) :
    -a ≤ (2 : ℚ) ^ 53 * (X - a) ∧ (2 : ℚ) ^ 53 * (X - a) ≤ a := by
  have h1 := le_abs_self (X - a)
  have h2 := neg_abs_le (X - a)
  generalize |X - a| = t at *
  constructor <;> linarith

/-- The integer that `Math.round` gives for the double-precision product is an integer
nearest to the exact percentage, for a quotient of at most `1` with a denominator below
`2^32`. -/
theorem roundedPercent_nearest (c n : Nat) (hn : 0 < n) (hc : c ≤ n) (hb : n < 2 ^ 32) :
    2 * (roundedPercent c n * n) ≤ 200 * c + n ∧
    200 * c ≤ 2 * (roundedPercent c n * n) + n := by
  simp only [roundedPercent, mathRound]
  obtain ⟨hq2, e1⟩ := roundToDouble_error c n hn
  obtain ⟨hp2, e2⟩ := roundToDouble_error ((roundToDouble c n).1 * 100) (roundToDouble c n).2 hq2
  generalize (roundToDouble ((roundToDouble c n).1 * 100) (roundToDouble c n).2).1 = a2 at *
  generalize (roundToDouble ((roundToDouble c n).1 * 100) (roundToDouble c n).2).2 = b2 at *
  generalize (roundToDouble c n).1 = a1 at *
  generalize (roundToDouble c n).2 = b1 at *
  have hb1 : (0 : ℚ) < b1 := by exact_mod_cast hq2
  have hb2 : (0 : ℚ) < b2 := by exact_mod_cast hp2
  have hnQ : (0 : ℚ) < n := by exact_mod_cast hn
  have hcQ : (c : ℚ) ≤ n := by exact_mod_cast hc
  have hc0 : (0 : ℚ) ≤ c := Nat.cast_nonneg _
  have hbQ : (n : ℚ) < 2 ^ 32 := by exact_mod_cast hb
  -- the quotient and the product, multiplied by `n`
  have e2a : (2 : ℚ) ^ 53 * |(a2 : ℚ) / b2 * b1 - 100 * ((a1 : ℚ) / b1) * b1| ≤
      100 * ((a1 : ℚ) / b1) * b1 := by
    have e : 100 * ((a1 : ℚ) / b1) * b1 = ((a1 * 100 : Nat) : ℚ) := by
      push_cast
      field_simp
      ring
    rw [e]
    exact e2
  have e2b := error_scale _ _ (n : ℚ) hnQ.le (error_unscale _ _ _ hb1 e2a)
  have hV := error_bounds _ _ e1
  have hY := error_bounds _ _ e2b
  -- the floor of `Math.round`
  have hdiv := Nat.div_add_mod (2 * a2 + b2) (2 * b2)
  have hmod := Nat.mod_lt (2 * a2 + b2) (by omega : 0 < 2 * b2)
  generalize (2 * a2 + b2) / (2 * b2) = p at *
  generalize (2 * a2 + b2) % (2 * b2) = r at *
  have hdivQ : 2 * (b2 : ℚ) * p + r = 2 * a2 + b2 := by exact_mod_cast hdiv
  have hmodQ : (r : ℚ) < 2 * b2 := by exact_mod_cast hmod
  have hr0 : (0 : ℚ) ≤ r := Nat.cast_nonneg _
  have hy : (a2 : ℚ) / b2 = p + r / (2 * b2) - 1 / 2 := by
    have ha : (a2 : ℚ) = b2 * p + r / 2 - b2 / 2 := by linarith
    rw [ha]
    field_simp
    ring
  have hr1 : (0 : ℚ) ≤ r / (2 * b2) := by positivity
  have hr2 : (r : ℚ) / (2 * b2) < 1 := by
    rw [div_lt_one (by positivity)]
    exact hmodQ
  rw [hy] at hY
  generalize (r : ℚ) / (2 * b2) = f at *
  generalize (a1 : ℚ) / b1 = v at *
  have hfn1 : 0 ≤ f * n := mul_nonneg hr1 hnQ.le
  have hfn2 : f * n < n := by
    have := mul_lt_mul_of_pos_right hr2 hnQ
    linarith
  obtain ⟨hV1, hV2⟩ := hV
  obtain ⟨hY1, hY2⟩ := hY
  norm_num at hV1 hV2 hY1 hY2
  have hbQ2 : (n : ℚ) < 4294967296 := by
    have h : n < 4294967296 := by
      have e : (2 : Nat) ^ 32 = 4294967296 := by norm_num
      omega
    exact_mod_cast h
  constructor
  · have : (2 * (p * n) : ℚ) < 200 * c + n + 1 := by
      linarith
    have h2 : 2 * (p * n) < 200 * c + n + 1 := by exact_mod_cast this
    omega
  · have : (200 * c : ℚ) < 2 * (p * n) + n + 1 := by
      linarith
    have h2 : 200 * c < 2 * (p * n) + n + 1 := by exact_mod_cast this
    omega

theorem compPercentOf_nearest (c n : Nat) (hn : 0 < n) (hc : c ≤ n) (hb : n < 2 ^ 32) :
    2 * (compPercentOf c n * n) ≤ 200 * c + n ∧
    200 * c ≤ 2 * (compPercentOf c n * n) + n := by
  have hg : 0 < Nat.gcd c n := Nat.gcd_pos_of_pos_right c hn
  have hcg : c / Nat.gcd c n * Nat.gcd c n = c := Nat.div_mul_cancel (Nat.gcd_dvd_left c n)
  have hng : n / Nat.gcd c n * Nat.gcd c n = n := Nat.div_mul_cancel (Nat.gcd_dvd_right c n)
  have hn2 : 0 < n / Nat.gcd c n :=
    Nat.div_pos (Nat.le_of_dvd hn (Nat.gcd_dvd_right c n)) hg
  have hc2 : c / Nat.gcd c n ≤ n / Nat.gcd c n := Nat.div_le_div_right hc
  have hb2 : n / Nat.gcd c n < 2 ^ 32 := lt_of_le_of_lt (Nat.div_le_self _ _) hb
  obtain ⟨h1, h2⟩ := roundedPercent_nearest _ _ hn2 hc2 hb2
  have e : compPercentOf c n = roundedPercent (c / Nat.gcd c n) (n / Nat.gcd c n) := by
    simp only [compPercentOf]
    rw [if_pos hn]
  rw [e]
  generalize roundedPercent (c / Nat.gcd c n) (n / Nat.gcd c n) = p at *
  generalize c / Nat.gcd c n = c2 at *
  generalize n / Nat.gcd c n = n2 at *
  generalize Nat.gcd c n = g at *
  subst hcg
  subst hng
  have k1 := Nat.mul_le_mul_right g h1
  have k2 := Nat.mul_le_mul_right g h2
  constructor
  · calc 2 * (p * (n2 * g)) = 2 * (p * n2) * g := by ring
      _ ≤ (200 * c2 + n2) * g := k1
      _ = 200 * (c2 * g) + n2 * g := by ring
  · calc 200 * (c2 * g) = 200 * c2 * g := by ring
      _ ≤ (2 * (p * n2) + n2) * g := k2
      _ = 2 * (p * (n2 * g)) + n2 * g := by ring

/-- A fraction equal to `a / b` in lowest terms reduces to `a / b`. -/
theorem reduced_of_eq (a b c n : Nat) (hab : Nat.Coprime a b) (hn : 0 < n)
    (h : b * c = a * n) : c / Nat.gcd c n = a ∧ n / Nat.gcd c n = b := by
  have hg : 0 < Nat.gcd c n := Nat.gcd_pos_of_pos_right c hn
  have hcg : c / Nat.gcd c n * Nat.gcd c n = c := Nat.div_mul_cancel (Nat.gcd_dvd_left c n)
  have hng : n / Nat.gcd c n * Nat.gcd c n = n := Nat.div_mul_cancel (Nat.gcd_dvd_right c n)
  have hco : Nat.Coprime (c / Nat.gcd c n) (n / Nat.gcd c n) :=
    Nat.coprime_div_gcd_div_gcd hg
  generalize c / Nat.gcd c n = c2 at *
  generalize n / Nat.gcd c n = n2 at *
  generalize Nat.gcd c n = g at *
  subst hcg
  subst hng
  have h2 : b * c2 = a * n2 := by
    have : (b * c2) * g = (a * n2) * g := by
      calc (b * c2) * g = b * (c2 * g) := by ring
        _ = a * (n2 * g) := h
        _ = (a * n2) * g := by ring
    exact Nat.eq_of_mul_eq_mul_right hg this
  have d1 : a ∣ c2 := hab.dvd_of_dvd_mul_left ⟨n2, h2⟩
  have d2 : c2 ∣ a := hco.dvd_of_dvd_mul_right ⟨b, by rw [← h2]; ring⟩
  have ec : c2 = a := Nat.dvd_antisymm d2 d1
  subst ec
  refine ⟨rfl, ?_⟩
  rcases Nat.eq_zero_or_pos c2 with h0 | h0
  · subst h0
    have e1 : n2 = 1 := by simpa using hco
    have e2 : b = 1 := by simpa using hab
    rw [e1, e2]
  · have : c2 * b = c2 * n2 := by rw [mul_comm c2 b, h2]
    exact (Nat.eq_of_mul_eq_mul_left h0 this).symm

/-- At the two exact halves that decide the classification the double-precision
computation goes up: `39.5` gives `40` and `79.5` gives `80`. -/
theorem compPercentOf_at_thresholds (c n : Nat) (hn : 0 < n) :
    (200 * c = 79 * n → compPercentOf c n = 40) ∧
    (200 * c = 159 * n → compPercentOf c n = 80) := by
  have e : compPercentOf c n = roundedPercent (c / Nat.gcd c n) (n / Nat.gcd c n) := by
    simp only [compPercentOf]
    rw [if_pos hn]
  constructor
  · intro h
    obtain ⟨h1, h2⟩ := reduced_of_eq 79 200 c n (by decide) hn h
    rw [e, h1, h2]
    decide
  · intro h
    obtain ⟨h1, h2⟩ := reduced_of_eq 159 200 c n (by decide) hn h
    rw [e, h1, h2]
    decide

/-- The rounded percentage is below 40 exactly when the exact percentage is below 39.5,
and below 80 exactly when the exact percentage is below 79.5. -/
theorem compPercentOf_lt_iff (c n : Nat) (hn : 0 < n) (hc : c ≤ n) (hb : n < 2 ^ 32) :
    (compPercentOf c n < 40 ↔ 200 * c < 79 * n) ∧
    (compPercentOf c n < 80 ↔ 200 * c < 159 * n) := by
  obtain ⟨h1, h2⟩ := compPercentOf_nearest c n hn hc hb
  obtain ⟨t1, t2⟩ := compPercentOf_at_thresholds c n hn
  generalize compPercentOf c n = p at *
  constructor
  · constructor
    · intro hp
      have k : p * n ≤ 39 * n := Nat.mul_le_mul_right n (by omega)
      rcases Nat.lt_or_ge (200 * c) (79 * n) with h | h
      · exact h
      · have := t1 (by omega)
        omega
    · intro h
      by_contra hp
      have k : 40 * n ≤ p * n := Nat.mul_le_mul_right n (by omega)
      omega
  · constructor
    · intro hp
      have k : p * n ≤ 79 * n := Nat.mul_le_mul_right n (by omega)
      rcases Nat.lt_or_ge (200 * c) (159 * n) with h | h
      · exact h
      · have := t2 (by omega)
        omega
    · intro h
      by_contra hp
      have k : 80 * n ≤ p * n := Nat.mul_le_mul_right n (by omega)
      omega

/-- The classification of comprehension in exact terms: the rounded percentage is below
40 exactly when `100 * correct / total < 39.5`, and below 80 exactly when it is below
`79.5`. -/
theorem compClassificationOf_thresholds (compCorrect compTotal : Nat) (h : 0 < compTotal)
    (hc : compCorrect ≤ compTotal) (hb : compTotal < 2 ^ 32) :
    (compClassificationOf (compPercentOf compCorrect compTotal) = Classification.Frustrational ↔
      200 * compCorrect < 79 * compTotal) ∧
    (compClassificationOf (compPercentOf compCorrect compTotal) = Classification.Instructional ↔
      (79 * compTotal ≤ 200 * compCorrect ∧ 200 * compCorrect < 159 * compTotal)) ∧
    (compClassificationOf (compPercentOf compCorrect compTotal) = Classification.Independent ↔
      159 * compTotal ≤ 200 * compCorrect) := by
  obtain ⟨k40, k80⟩ := compPercentOf_lt_iff compCorrect compTotal h hc hb
  generalize compPercentOf compCorrect compTotal = p at *
  simp only [compClassificationOf]
  refine ⟨?_, ?_, ?_⟩
  · split_ifs with a b
    · simp only [true_iff]; exact k40.mp a
    · simp only [reduceCtorEq, false_iff]; exact fun hh => a (k40.mpr hh)
    · simp only [reduceCtorEq, false_iff]; exact fun hh => a (k40.mpr hh)
  · split_ifs with a b
    · simp only [reduceCtorEq, false_iff]
      intro hh
      have := k40.mp a
      omega
    · simp only [true_iff]
      have := k80.mp b
      have : ¬ 200 * compCorrect < 79 * compTotal := fun hh => a (k40.mpr hh)
      omega
    · simp only [reduceCtorEq, false_iff]
      intro hh
      exact b (k80.mpr hh.2)
  · split_ifs with a b
    · simp only [reduceCtorEq, false_iff]
      intro hh
      have := k40.mp a
      omega
    · simp only [reduceCtorEq, false_iff]
      intro hh
      have := k80.mp b
      omega
    · simp only [true_iff]
      have : ¬ 200 * compCorrect < 159 * compTotal := fun hh => b (k80.mpr hh)
      omega

/-- Claim C15, as amended: for every comprehension log with `total > 0` entries, fewer
than `2^32` as in every array, of which `correct` are `'correct'`, `finishTest` hands over
one result record whose percentage is `Math.round((correct / total) * 100)` as computed
in double precision, an integer nearest to `100 * correct / total` (at most one half away
from it), and it classifies by that rounded percentage: Frustrational when it is below
40, that is when the exact percentage is below 39.5, Instructional when it is at least 40
and below 80 (exact percentage at least 39.5 and below 79.5), and Independent when it is
at least 80 (exact percentage at least 79.5). -/
theorem finishTest_comprehension (s : Session) (h : 0 < s.comprehensionLogs.length)
    (hb : s.comprehensionLogs.length < 2 ^ 32) :
    ∃ r : ResultRecord, (finishTest s).results = s.results ++ [r] ∧
      r.comprehensionPercent =
        compPercentOf (s.comprehensionLogs.countP (fun l => decide (l.status = LogStatus.correct)))
          s.comprehensionLogs.length ∧
      2 * (r.comprehensionPercent * s.comprehensionLogs.length) ≤
        200 * s.comprehensionLogs.countP (fun l => decide (l.status = LogStatus.correct)) +
          s.comprehensionLogs.length ∧
      200 * s.comprehensionLogs.countP (fun l => decide (l.status = LogStatus.correct)) ≤
        2 * (r.comprehensionPercent * s.comprehensionLogs.length) +
          s.comprehensionLogs.length ∧
      (r.comprehensionClassification = Classification.Frustrational ↔
        r.comprehensionPercent < 40) ∧
      (r.comprehensionClassification = Classification.Instructional ↔
        (40 ≤ r.comprehensionPercent ∧ r.comprehensionPercent < 80)) ∧
      (r.comprehensionClassification = Classification.Independent ↔
        80 ≤ r.comprehensionPercent) ∧
      (r.comprehensionClassification = Classification.Frustrational ↔
        200 * s.comprehensionLogs.countP (fun l => decide (l.status = LogStatus.correct)) <
          79 * s.comprehensionLogs.length) ∧
      (r.comprehensionClassification = Classification.Instructional ↔
        (79 * s.comprehensionLogs.length ≤
            200 * s.comprehensionLogs.countP (fun l => decide (l.status = LogStatus.correct)) ∧
          200 * s.comprehensionLogs.countP (fun l => decide (l.status = LogStatus.correct)) <
            159 * s.comprehensionLogs.length)) ∧
      (r.comprehensionClassification = Classification.Independent ↔
        159 * s.comprehensionLogs.length ≤
          200 * s.comprehensionLogs.countP (fun l => decide (l.status = LogStatus.correct))) := by
  have hc : s.comprehensionLogs.countP (fun l => decide (l.status = LogStatus.correct)) ≤
      s.comprehensionLogs.length := List.countP_le_length _
  obtain ⟨n1, n2⟩ := compPercentOf_nearest _ _ h hc hb
  obtain ⟨t1, t2, t3⟩ := compClassificationOf_thresholds _ _ h hc hb
  refine ⟨_, rfl, ?_, ?_, ?_, ?_, ?_, ?_, ?_, ?_, ?_⟩
  · simp only [← List.countP_eq_length_filter]
  · simp only [← List.countP_eq_length_filter]
    exact n1
  · simp only [← List.countP_eq_length_filter]
    exact n2
  · simp only [compClassificationOf]
    split_ifs <;> simp <;> omega
  · simp only [compClassificationOf]
    split_ifs <;> simp <;> omega
  · simp only [compClassificationOf]
    split_ifs <;> simp <;> omega
  · simp only [← List.countP_eq_length_filter]
    exact t1
  · simp only [← List.countP_eq_length_filter]
    exact t2
  · simp only [← List.countP_eq_length_filter]
    exact t3

/-- Instance of claim C15: 39 correct answers of 100 give 39 percent and Frustrational,
80 of 100 give 80 percent and Independent; 23 of 40, an exact percentage of 57.5, give
57 percent and Instructional. -/
theorem finishTest_comprehension_witness :
    (∃ r : ResultRecord,
      (finishTest { Session.initial [] id with
          comprehensionLogs :=
            List.replicate 39 { question := [], expected := [], spoken := [],
                                status := LogStatus.correct } ++
            List.replicate 61 { question := [], expected := [], spoken := [],
                                status := LogStatus.incorrect } }).results = [] ++ [r] ∧
        r.comprehensionPercent = 39 ∧
        r.comprehensionClassification = Classification.Frustrational) ∧
    compPercentOf 80 100 = 80 ∧
    compClassificationOf (compPercentOf 80 100) = Classification.Independent ∧
    compPercentOf 23 40 = 57 ∧
    compClassificationOf (compPercentOf 23 40) = Classification.Instructional := by
  refine ⟨?_, by decide, by decide, by decide, by decide⟩
  obtain ⟨r, hr, hp, -, -, hf, -⟩ := finishTest_comprehension
    { Session.initial [] id with
        comprehensionLogs :=
          List.replicate 39 { question := [], expected := [], spoken := [],
                              status := LogStatus.correct } ++
          List.replicate 61 { question := [], expected := [], spoken := [],
                              status := LogStatus.incorrect } } (by decide) (by decide)
  have hp2 : r.comprehensionPercent = 39 := by rw [hp]; decide
  exact ⟨r, hr, hp2, hf.mpr (by rw [hp2]; decide)⟩

/-- Claim C15 fails as stated: with 17 correct answers of 43 the percentage
`100 * 17 / 43` is below 40, yet `finishTest` rounds it to 40 and classifies
Instructional; with 35 of 44 the percentage is below 80, yet it is rounded to 80 and
classified Independent. -/
theorem comprehension_not_by_exact_percentage :
    ((100 * 17 : ℚ) / 43 < 40 ∧
      compPercentOf 17 43 = 40 ∧
      compClassificationOf (compPercentOf 17 43) = Classification.Instructional) ∧
    ((100 * 35 : ℚ) / 44 < 80 ∧
      compPercentOf 35 44 = 80 ∧
      compClassificationOf (compPercentOf 35 44) = Classification.Independent) := by
  exact ⟨⟨by norm_num, by decide, by decide⟩, ⟨by norm_num, by decide, by decide⟩⟩

/-- Claim C16 (final placement adjustment): for every passage level `P` and every pair of
classifications, the final level is the level immediately below `P` in `LEVEL_ORDER`, or
`P` itself when `P` is `pre_primer`, if one of the two classifications is Frustrational,
and is `P` otherwise; the record that `finishTest` hands over is placed at that level for
the passage level and the classifications of the session. -/
theorem finishTest_placement (s : Session) (P : Level)
    (oralClassification compClassification : Classification) :
    finalLevelOf P oralClassification compClassification =
      (if oralClassification = Classification.Frustrational ∨
          compClassification = Classification.Frustrational
       then levelBelow P else P) ∧
    levelBelow Level.pre_primer = Level.pre_primer ∧
    ∃ r : ResultRecord, (finishTest s).results = s.results ++ [r] ∧
      r.placedLevel =
        (if r.oralClassification = Classification.Frustrational ∨
            r.comprehensionClassification = Classification.Frustrational
         then levelBelow s.passageLevel else s.passageLevel) := by
  have key : ∀ (Q : Level) (a b : Classification),
      finalLevelOf Q a b =
        (if a = Classification.Frustrational ∨ b = Classification.Frustrational
         then levelBelow Q else Q) := by
    intro Q a b
    cases Q <;> cases a <;> cases b <;> decide
  exact ⟨key _ _ _, rfl, _, rfl, key _ _ _⟩

/-! ### Case and punctuation -/

/-- Claim C11, as amended: for all strings such that `cleanWord(spoken) =
cleanWord(spoken')` and `cleanWord(target) = cleanWord(target')`, and such that `spoken`
is empty exactly when `spoken'` is and `target` is empty exactly when `target'` is,
`checkMatch(spoken, target)` and `checkMatch(spoken', target')` end the same way, with
the same result or both with an exception. -/
theorem checkMatch_clean_invariant (spoken spoken2 target target2 : Str)
    (hs : cleanWord spoken = cleanWord spoken2) (ht : cleanWord target = cleanWord target2)
    (hse : spoken = [] ↔ spoken2 = []) (hte : target = [] ↔ target2 = []) :
    checkMatch spoken target = checkMatch spoken2 target2 := by
  have hguard : (spoken = [] ∨ target = []) ↔ (spoken2 = [] ∨ target2 = []) := by
    rw [hse, hte]
  unfold checkMatch
  by_cases hg : spoken = [] ∨ target = []
  · rw [if_pos hg, if_pos (hguard.mp hg)]
  · rw [if_neg hg, if_neg (fun h => hg (hguard.mpr h)), hs, ht]

/-- Instance of claim C11: `Cat!` against `cat.` matches as `cat` against `cat` does. -/
theorem checkMatch_clean_invariant_witness :
    checkMatch "Cat!".toList "cat.".toList = checkMatch "cat".toList "cat".toList ∧
    checkMatch "cat".toList "cat".toList = some true :=
  ⟨checkMatch_clean_invariant "Cat!".toList "cat".toList "cat.".toList "cat".toList
      (by decide) (by decide) (by decide) (by decide),
   by decide⟩

/-- Claim C11 fails as stated: the targets `""` and `"-"` have the same cleaned form, the
empty string, yet `checkMatch("a", "")` is false, by the guard on an empty argument, while
`checkMatch("a", "-")` is true; likewise for the spoken texts `""` and `"!"` against the
target `"?"`. -/
theorem checkMatch_not_clean_invariant :
    (cleanWord "a".toList = cleanWord "a".toList ∧
      cleanWord "".toList = cleanWord "-".toList ∧
      checkMatch "a".toList "".toList = some false ∧
      checkMatch "a".toList "-".toList = some true) ∧
    (cleanWord "".toList = cleanWord "!".toList ∧
      cleanWord "?".toList = cleanWord "?".toList ∧
      checkMatch "".toList "?".toList = some false ∧
      checkMatch "!".toList "?".toList = some true) := by
  decide

/-! ### The render chain leaves the evidence logs alone -/

theorem logs_finishTest (s : Session) : (finishTest s).logs = s.logs := rfl

theorem logs_showSectionCompleteModal (s : Session) :
    (showSectionCompleteModal s).logs = s.logs := by
  unfold showSectionCompleteModal
  split <;> rfl

theorem logs_renderLetterStage (renderNext : Session → Outcome) (stage : Stage) (s : Session)
    (h : ∀ x, (renderNext x).state.logs = x.logs) :
    (renderLetterStage renderNext stage s).state.logs = s.logs := by
  unfold renderLetterStage
  split_ifs
  · rw [h]; rfl
  · rfl
  · rfl

theorem logs_renderSentenceStage (renderNext : Session → Outcome) (stage : Stage)
    (s : Session) (h : ∀ x, (renderNext x).state.logs = x.logs) :
    (renderSentenceStage renderNext stage s).state.logs = s.logs := by
  unfold renderSentenceStage
  split
  · rw [h]; rfl
  · rfl

theorem logs_prepareWordList (renderNext : Session → Outcome) (stage : Stage) (s : Session)
    (h : ∀ x, (renderNext x).state.logs = x.logs) :
    (prepareWordList renderNext stage s).state.logs = s.logs := by
  simp only [prepareWordList]
  split
  · rw [h]; rfl
  · rfl

theorem logs_renderWordListStage (renderNext : Session → Outcome) (s : Session)
    (h : ∀ x, (renderNext x).state.logs = x.logs) :
    (renderWordListStage renderNext s).state.logs = s.logs := by
  unfold renderWordListStage
  split_ifs
  · rw [h]; rfl
  · rfl

theorem logs_prepareReadingPassage (stage : Stage) (s : Session) :
    (prepareReadingPassage stage s).logs = s.logs := by
  simp only [prepareReadingPassage]
  split <;> rfl

theorem logs_renderReadingPassageStage (s : Session) :
    (renderReadingPassageStage s).state.logs = s.logs := by
  unfold renderReadingPassageStage
  split
  · rfl
  · split
    · rfl
    · split_ifs <;> rfl

theorem logs_andThen (o : Outcome) (f : Session → Outcome) (s : Session)
    (ho : o.state.logs = s.logs) (hf : ∀ x, (f x).state.logs = x.logs) :
    (o.andThen f).state.logs = s.logs := by
  cases o with
  | returned x => simp only [Outcome.andThen]; rw [hf]; exact ho
  | raised x => exact ho
  | exhausted x => exact ho

theorem logs_renderCurrentStageFuel (fuel : Nat) :
    ∀ s : Session, (renderCurrentStageFuel fuel s).state.logs = s.logs := by
  induction fuel with
  | zero => intro s; rfl
  | succ fuel ih =>
    intro s
    simp only [renderCurrentStageFuel, Bool.false_eq_true, if_false]
    by_cases h : s.currentStageIndex ≥ s.stages.length
    · rw [if_pos h]; rfl
    · rw [if_neg h]
      split
      · rfl
      · next stage _ =>
        split
        · rw [logs_renderLetterStage _ _ _ ih]; rfl
        · rw [logs_renderSentenceStage _ _ _ ih]; rfl
        · apply logs_andThen
          · rw [logs_prepareWordList _ _ _ ih]; rfl
          · intro x; exact logs_renderWordListStage _ x ih
        · rw [logs_renderReadingPassageStage, logs_prepareReadingPassage]; rfl
        · rw [ih]; rfl

theorem logs_renderCurrentStage (s : Session) : (renderCurrentStage s).state.logs = s.logs :=
  logs_renderCurrentStageFuel _ s

/-! ### The evidence logs only grow -/

theorem logsExtend_of_logs_eq (s1 s2 : Session) (h : s2.logs = s1.logs) :
    s1.logsExtend s2 := by
  simp only [Session.logs, Prod.mk.injEq] at h
  obtain ⟨h1, h2, h3, h4⟩ := h
  exact ⟨⟨[], by simp [h1]⟩, ⟨[], by simp [h2]⟩, ⟨[], by simp [h3]⟩, ⟨[], by simp [h4]⟩⟩

theorem logsExtend_refl (s : Session) : s.logsExtend s :=
  logsExtend_of_logs_eq s s rfl

theorem logsExtend_trans (s1 s2 s3 : Session) (h12 : s1.logsExtend s2)
    (h23 : s2.logsExtend s3) : s1.logsExtend s3 := by
  obtain ⟨⟨a1, ha1⟩, ⟨a2, ha2⟩, ⟨a3, ha3⟩, ⟨a4, ha4⟩⟩ := h12
  obtain ⟨⟨b1, hb1⟩, ⟨b2, hb2⟩, ⟨b3, hb3⟩, ⟨b4, hb4⟩⟩ := h23
  exact ⟨⟨a1 ++ b1, by rw [hb1, ha1, List.append_assoc]⟩,
    ⟨a2 ++ b2, by rw [hb2, ha2, List.append_assoc]⟩,
    ⟨a3 ++ b3, by rw [hb3, ha3, List.append_assoc]⟩,
    ⟨a4 ++ b4, by rw [hb4, ha4, List.append_assoc]⟩⟩

theorem logsExtend_congr (s1 s2 s3 : Session) (h : s3.logs = s2.logs)
    (h12 : s1.logsExtend s2) : s1.logsExtend s3 :=
  logsExtend_trans s1 s2 s3 h12 (logsExtend_of_logs_eq s2 s3 h)

theorem logsExtend_letter (s s2 : Session) (r : LetterLog)
    (h : s2.logs = (s.letterLogs ++ [r], s.sentenceLogs, s.wordLogs, s.comprehensionLogs)) :
    s.logsExtend s2 := by
  simp only [Session.logs, Prod.mk.injEq] at h
  obtain ⟨h1, h2, h3, h4⟩ := h
  exact ⟨⟨[r], h1⟩, ⟨[], by simp [h2]⟩, ⟨[], by simp [h3]⟩, ⟨[], by simp [h4]⟩⟩

theorem logsExtend_sentence (s s2 : Session) (r : SentenceLog)
    (h : s2.logs = (s.letterLogs, s.sentenceLogs ++ [r], s.wordLogs, s.comprehensionLogs)) :
    s.logsExtend s2 := by
  simp only [Session.logs, Prod.mk.injEq] at h
  obtain ⟨h1, h2, h3, h4⟩ := h
  exact ⟨⟨[], by simp [h1]⟩, ⟨[r], h2⟩, ⟨[], by simp [h3]⟩, ⟨[], by simp [h4]⟩⟩

theorem logsExtend_word (s s2 : Session) (r : WordLog)
    (h : s2.logs = (s.letterLogs, s.sentenceLogs, s.wordLogs ++ [r], s.comprehensionLogs)) :
    s.logsExtend s2 := by
  simp only [Session.logs, Prod.mk.injEq] at h
  obtain ⟨h1, h2, h3, h4⟩ := h
  exact ⟨⟨[], by simp [h1]⟩, ⟨[], by simp [h2]⟩, ⟨[r], h3⟩, ⟨[], by simp [h4]⟩⟩

theorem logsExtend_comprehension (s s2 : Session) (r : ComprehensionLog)
    (h : s2.logs = (s.letterLogs, s.sentenceLogs, s.wordLogs, s.comprehensionLogs ++ [r])) :
    s.logsExtend s2 := by
  simp only [Session.logs, Prod.mk.injEq] at h
  obtain ⟨h1, h2, h3, h4⟩ := h
  exact ⟨⟨[], by simp [h1]⟩, ⟨[], by simp [h2]⟩, ⟨[], by simp [h3]⟩, ⟨[r], h4⟩⟩

theorem logs_afterWordDecided (stage : Stage) (s : Session) :
    (afterWordDecided stage s).logs = s.logs := by
  simp only [afterWordDecided]
  split_ifs
  · rw [logs_showSectionCompleteModal]; rfl
  · rfl

theorem logsExtend_handleTimeout (s : Session) : s.logsExtend (handleTimeout s).state := by
  simp only [handleTimeout]
  repeat' split
  all_goals
    first
    | exact logsExtend_of_logs_eq _ _ rfl
    | exact logsExtend_letter _ _ _ rfl
    | exact logsExtend_sentence _ _ _ rfl
    | exact logsExtend_comprehension _ _ _ rfl
    | exact logsExtend_letter _ _ _ (logs_showSectionCompleteModal _)

theorem logsExtend_handleInputSentence (stage : Stage) (s : Session) (text : Str) :
    s.logsExtend (handleInputSentence stage s text).state := by
  simp only [handleInputSentence]
  repeat' split
  all_goals
    first
    | exact logsExtend_of_logs_eq _ _ rfl
    | exact logsExtend_sentence _ _ _ rfl

theorem logsExtend_handleInputLetter (stage : Stage) (s : Session) (text : Str)
    (isInterim : Bool) : s.logsExtend (handleInputLetter stage s text isInterim).state := by
  simp only [handleInputLetter]
  repeat' split
  all_goals
    first
    | exact logsExtend_of_logs_eq _ _ rfl
    | exact logsExtend_letter _ _ _ rfl

theorem logsExtend_handleInputWord (stage : Stage) (s : Session) (text : Str)
    (isInterim : Bool) : s.logsExtend (handleInputWord stage s text isInterim).state := by
  simp only [handleInputWord]
  repeat' split
  all_goals
    first
    | exact logsExtend_of_logs_eq _ _ rfl
    | exact logsExtend_word _ _ _ (logs_afterWordDecided _ _)

theorem logsExtend_handleInputPassage (s : Session) (text : Str) :
    s.logsExtend (handleInputPassage s text).state := by
  simp only [handleInputPassage]
  repeat' split
  all_goals exact logsExtend_of_logs_eq _ _ rfl

theorem logsExtend_handleInputQuestion (stage : Stage) (s : Session) (text : Str)
    (isInterim : Bool) : s.logsExtend (handleInputQuestion stage s text isInterim).state := by
  simp only [handleInputQuestion]
  repeat' split
  all_goals
    first
    | exact logsExtend_of_logs_eq _ _ rfl
    | exact logsExtend_comprehension _ _ _ rfl

theorem logsExtend_handleInput (s : Session) (text : Str) (isInterim : Bool) :
    s.logsExtend (handleInput s text isInterim).state := by
  unfold handleInput
  split
  · exact logsExtend_refl s
  · split
    · exact logsExtend_refl s
    · split
      · exact logsExtend_handleInputLetter _ _ _ _
      · exact logsExtend_handleInputSentence _ _ _
      · exact logsExtend_handleInputWord _ _ _ _
      · split
        · exact logsExtend_handleInputPassage _ _
        · exact logsExtend_handleInputQuestion _ _ _ _
      · exact logsExtend_refl s

theorem logsExtend_runCallback (cb : Callback) (s : Session) :
    s.logsExtend (runCallback cb s).state := by
  cases cb with
  | renderLetter stage =>
    exact logsExtend_of_logs_eq _ _ (logs_renderLetterStage _ _ _ logs_renderCurrentStage)
  | letterAdvance stage =>
    simp only [runCallback]
    split_ifs
    · exact logsExtend_of_logs_eq _ _ (logs_renderLetterStage _ _ _ logs_renderCurrentStage)
    · exact logsExtend_of_logs_eq _ _ (logs_showSectionCompleteModal _)
    · exact logsExtend_of_logs_eq _ _ (logs_renderLetterStage _ _ _ logs_renderCurrentStage)
  | sentenceAdvance stage =>
    simp only [runCallback]
    split_ifs
    · exact logsExtend_of_logs_eq _ _ (logs_showSectionCompleteModal _)
    · exact logsExtend_of_logs_eq _ _ (logs_renderCurrentStage _)
  | wordGrace stage target =>
    simp only [runCallback]
    split_ifs
    · exact logsExtend_refl s
    · exact logsExtend_word s _ _
        ((logs_showSectionCompleteModal _).trans rfl)
    · exact logsExtend_word s _ _
        ((logs_renderWordListStage _ _ logs_renderCurrentStage).trans rfl)
  | renderWord stage =>
    exact logsExtend_of_logs_eq _ _ (logs_renderWordListStage _ _ logs_renderCurrentStage)
  | questionAdvance stage =>
    simp only [runCallback]
    split
    · exact logsExtend_refl s
    · split_ifs
      · exact logsExtend_refl s
      · exact logsExtend_of_logs_eq _ _ (logs_renderReadingPassageStage _)

theorem logsExtend_fireTimer (s : Session) (i : Nat) : s.logsExtend (fireTimer s i).state := by
  unfold fireTimer
  split
  · exact logsExtend_refl s
  · exact logsExtend_trans _ _ _ (logsExtend_of_logs_eq _ _ rfl) (logsExtend_runCallback _ _)

/-- Claim C19 (the evidence logs are append-only): for every event that the session
handles, a transcript in any stage, a timeout, a timer with the grace callback of the
word list among them, or a click, each of the four logs `letterLogs`, `sentenceLogs`,
`wordLogs` and `comprehensionLogs` after the event is the log before the event followed
by the records added; the same holds for the grace callback run on any state and for
any sequence of events. -/
theorem logs_append_only (s : Session) (e : Event) (events : List Event) (stage : Stage)
    (target : Option Str) :
    s.logsExtend (handleEvent s e).state ∧
    s.logsExtend (runCallback (Callback.wordGrace stage target) s).state ∧
    s.logsExtend (runEvents s events) := by
  have step : ∀ (x : Session) (ev : Event), x.logsExtend (handleEvent x ev).state := by
    intro x ev
    cases ev with
    | transcript text isInterim => exact logsExtend_handleInput x text isInterim
    | timeout => exact logsExtend_handleTimeout x
    | timer i => exact logsExtend_fireTimer x i
    | nextStage => exact logsExtend_of_logs_eq _ _ (logs_renderCurrentStage _)
    | startTest => exact logsExtend_of_logs_eq _ _ (logs_renderCurrentStage _)
    | finishReading => exact logsExtend_of_logs_eq _ _ (logs_renderReadingPassageStage _)
    | skip => exact logsExtend_of_logs_eq _ _ (logs_renderReadingPassageStage _)
  refine ⟨step s e, logsExtend_runCallback _ s, ?_⟩
  induction events generalizing s with
  | nil => exact logsExtend_refl s
  | cons ev more ih =>
    simp only [runEvents, List.foldl_cons]
    exact logsExtend_trans _ _ _ (step s ev) (ih _)

/-! ### The sentence stage -/

theorem scanWindow_raises_pending (words : List Word) (spoken : Str) (ci : Int)
    (hci : 0 ≤ ci) :
    ∀ offs : List Nat, scanWindow words spoken ci offs = none →
      ∃ w ∈ words, w.status = Status.pending := by
  intro offs
  induction offs with
  | nil => intro h; simp [scanWindow] at h
  | cons off more ih =>
    intro h
    simp only [scanWindow] at h
    split_ifs at h with h1 h2
    · omega
    · split at h
      · next hnone =>
        have hlt : (ci + (off : Int)).toNat < words.length := by
          have := Int.toNat_of_nonneg (show 0 ≤ ci + (off : Int) by omega)
          omega
        rw [List.getElem?_eq_getElem hlt] at hnone
        cases hnone
      · next targetWord hw =>
        split_ifs at h with hp
        · exact ih h
        · split at h
          · exact ⟨targetWord, List.getElem?_mem hw, by simpa using hp⟩
          · cases h
          · exact ih h

theorem alignToken_raises_pending (st : Reading) (spoken : Str)
    (hc : -1 ≤ st.lastMarkedWordIndex) (h : alignToken st spoken = none) :
    ∃ w ∈ st.passageWords, w.status = Status.pending := by
  unfold alignToken at h
  split_ifs at h
  simp only at h
  split at h
  · next hscan => exact scanWindow_raises_pending _ _ _ (by omega) _ hscan
  · cases h
  · cases h

theorem alignToken_of_no_pending (st : Reading) (spoken : Str)
    (hc : -1 ≤ st.lastMarkedWordIndex)
    (hno : ∀ w ∈ st.passageWords, w.status ≠ Status.pending) :
    alignToken st spoken = some st := by
  cases h : alignToken st spoken with
  | none =>
    obtain ⟨w, hw, hp⟩ := alignToken_raises_pending st spoken hc h
    exact absurd hp (hno w hw)
  | some st1 =>
    have ha := afterToken_of_alignToken st st1 spoken h
    rcases afterToken_cases st spoken with h1 | ⟨idx, -, -, -, h4, -⟩
    · rw [← ha, h1]
    · exfalso
      simp only [statusAt, Option.map_eq_some'] at h4
      obtain ⟨w, hw, hp⟩ := h4
      exact hno w (List.getElem?_mem hw) hp

theorem alignTokens_of_no_pending (toks : List Str) (st : Reading)
    (hc : -1 ≤ st.lastMarkedWordIndex)
    (hno : ∀ w ∈ st.passageWords, w.status ≠ Status.pending) :
    alignTokens st toks = (st, true) := by
  induction toks with
  | nil => rfl
  | cons spoken more ih =>
    simp only [alignTokens, alignToken_of_no_pending st spoken hc hno]
    exact ih

theorem alignTokens_raised_pending (toks : List Str) :
    ∀ st : Reading, -1 ≤ st.lastMarkedWordIndex → (alignTokens st toks).2 = false →
      ∃ w ∈ (alignTokens st toks).1.passageWords, w.status = Status.pending := by
  induction toks with
  | nil => intro st _ h; simp [alignTokens] at h
  | cons spoken more ih =>
    intro st hc h
    simp only [alignTokens] at h ⊢
    cases ha : alignToken st spoken with
    | none =>
      simp only [ha]
      exact alignToken_raises_pending st spoken hc ha
    | some st1 =>
      simp only [ha] at h ⊢
      have hb := (afterToken_bounds st spoken).1
      rw [afterToken_of_alignToken st st1 spoken ha] at hb
      exact ih st1 (le_trans hc hb) h

theorem countP_pending_eq_zero (words : List Word) :
    (words.filter (fun w => decide (w.status = Status.pending))).length = 0 ↔
      ∀ w ∈ words, w.status ≠ Status.pending := by
  rw [List.length_eq_zero, List.filter_eq_nil_iff]
  simp

theorem status_counts (words : List Word) :
    (words.filter (fun w => decide (w.status = Status.correct))).length +
    (words.filter (fun w => decide (w.status = Status.incorrect))).length +
    (words.filter (fun w => decide (w.status = Status.pending))).length = words.length := by
  induction words with
  | nil => rfl
  | cons w ws ih =>
    simp only [List.filter_cons, List.length_cons]
    cases hs : w.status <;> simp <;> omega

theorem correct_markPendingIncorrect (words : List Word) :
    ((markPendingIncorrect words).filter (fun w => decide (w.status = Status.correct))).length =
      (words.filter (fun w => decide (w.status = Status.correct))).length := by
  induction words with
  | nil => rfl
  | cons w ws ih =>
    simp only [markPendingIncorrect, List.map_cons, List.filter_cons] at ih ⊢
    cases hs : w.status <;> simp [hs, ih]

theorem handleTimeout_sentence (s : Session) (stage : Stage) (hin : s.inStage stage)
    (htype : stage.type = StageType.sentence_reading) (hguard : s.sentenceAdvancing = false) :
    handleTimeout s = Outcome.returned
      { s with sentenceAdvancing := true,
               passageWords := markPendingIncorrect s.passageWords,
               sentenceLogs := s.sentenceLogs ++
                 [{ sentence_id := s.currentSubIndex, total_words := s.passageWords.length,
                    correct_words := (s.passageWords.filter
                      (fun w => decide (w.status = Status.correct))).length,
                    completed := false,
                    errors_count := s.passageWords.length - (s.passageWords.filter
                      (fun w => decide (w.status = Status.correct))).length }],
               timers := s.timers ++ [Callback.sentenceAdvance stage] } := by
  unfold handleTimeout
  rw [hin.2]
  simp only [htype, hguard, Bool.false_eq_true, if_false]

theorem handleTimeout_sentence_guarded (s : Session) (stage : Stage) (hin : s.inStage stage)
    (htype : stage.type = StageType.sentence_reading) (hguard : s.sentenceAdvancing = true) :
    handleTimeout s = Outcome.returned s := by
  unfold handleTimeout
  rw [hin.2]
  simp only [htype, hguard, if_true]

theorem handleInput_sentence (s : Session) (stage : Stage) (text : Str) (isInterim : Bool)
    (hin : s.inStage stage) (htype : stage.type = StageType.sentence_reading) :
    handleInput s text isInterim = handleInputSentence stage s text := by
  unfold handleInput
  rw [hin.1, hin.2]
  simp only [htype]

theorem no_pending_markPendingIncorrect (words : List Word) :
    ∀ w ∈ markPendingIncorrect words, w.status ≠ Status.pending := by
  intro w hw
  simp only [markPendingIncorrect, List.mem_map] at hw
  obtain ⟨v, -, rfl⟩ := hw
  split
  · simp
  · assumption

theorem handleInputSentence_words (stage : Stage) (s : Session) (text : Str) :
    (handleInputSentence stage s text).state.passageWords =
      (alignChunk { passageWords := s.passageWords,
                    lastMarkedWordIndex := s.lastMarkedWordIndex } text).1.passageWords ∧
    (handleInputSentence stage s text).state.lastMarkedWordIndex =
      (alignChunk { passageWords := s.passageWords,
                    lastMarkedWordIndex := s.lastMarkedWordIndex } text).1.lastMarkedWordIndex := by
  simp only [handleInputSentence]
  split_ifs <;> exact ⟨rfl, rfl⟩

/-- A transcript that leaves no pending word, with the guard clear: the handler returns,
logs one record and schedules one advance. -/
theorem handleInputSentence_resolved (stage : Stage) (s : Session) (text : Str)
    (hguard : s.sentenceAdvancing = false) (hc : -1 ≤ s.lastMarkedWordIndex)
    (hno : ∀ w ∈ (handleInputSentence stage s text).state.passageWords,
      w.status ≠ Status.pending) :
    handleInputSentence stage s text = Outcome.returned
      { s with
        passageWords := (handleInputSentence stage s text).state.passageWords,
        lastMarkedWordIndex := (handleInputSentence stage s text).state.lastMarkedWordIndex,
        sentenceAdvancing := true,
        sentenceLogs := s.sentenceLogs ++
          [{ sentence_id := s.currentSubIndex,
             total_words := (handleInputSentence stage s text).state.passageWords.length,
             correct_words := ((handleInputSentence stage s text).state.passageWords.filter
               (fun w => decide (w.status = Status.correct))).length,
             completed := decide (((handleInputSentence stage s text).state.passageWords.filter
               (fun w => decide (w.status = Status.incorrect))).length = 0),
             errors_count := ((handleInputSentence stage s text).state.passageWords.filter
               (fun w => decide (w.status = Status.incorrect))).length }],
        wordListLevel :=
          if ((handleInputSentence stage s text).state.passageWords.filter
               (fun w => decide (w.status = Status.incorrect))).length = 0
          then levelMap s.currentSubIndex else s.wordListLevel,
        timers := s.timers ++ [Callback.sentenceAdvance stage] } := by
  obtain ⟨hw, hcur⟩ := handleInputSentence_words stage s text
  rw [hw] at hno
  rw [hw, hcur]
  have hran : (alignChunk (Reading.mk s.passageWords s.lastMarkedWordIndex) text).2 = true := by
    by_contra hf
    have hf2 : (alignChunk (Reading.mk s.passageWords s.lastMarkedWordIndex) text).2 = false := by
      simpa using hf
    obtain ⟨w, hmem, hp⟩ := alignTokens_raised_pending (splitWs text)
      (Reading.mk s.passageWords s.lastMarkedWordIndex) hc hf2
    exact hno w hmem hp
  have hzero := (countP_pending_eq_zero _).mpr hno
  simp only [handleInputSentence, hran, Bool.true_eq_false, if_false, hzero, if_true, hguard,
    Bool.false_eq_true, decide_eq_true_eq]

/-- Claim C18 (sentence evidence record): in a sentence stage with the guard flag clear,
the timeout appends exactly one record, with `total_words` the number of target words,
`correct_words` the number of words marked correct, `errors_count` their difference and
`completed = false`, after setting every pending word to `'incorrect'` and leaving the
other words as they are; a transcript that leaves no pending word appends exactly one
record with the same three counts and `completed = true` exactly when no word is
`'incorrect'`. -/
theorem sentence_record (s : Session) (stage : Stage) (text : Str) (isInterim : Bool)
    (hin : s.inStage stage) (htype : stage.type = StageType.sentence_reading)
    (hguard : s.sentenceAdvancing = false) (hc : -1 ≤ s.lastMarkedWordIndex) :
    ((handleTimeout s).state.sentenceLogs = s.sentenceLogs ++
        [{ sentence_id := s.currentSubIndex,
           total_words := s.passageWords.length,
           correct_words := s.passageWords.countP (fun w => decide (w.status = Status.correct)),
           completed := false,
           errors_count := s.passageWords.length -
             s.passageWords.countP (fun w => decide (w.status = Status.correct)) }] ∧
      (∀ i : Nat, statusAt (handleTimeout s).state.passageWords i =
        (statusAt s.passageWords i).map
          (fun x => if x = Status.pending then Status.incorrect else x)) ∧
      (handleTimeout s).state.passageWords.countP (fun w => decide (w.status = Status.correct)) =
        s.passageWords.countP (fun w => decide (w.status = Status.correct))) ∧
    ((∀ w ∈ (handleInput s text isInterim).state.passageWords, w.status ≠ Status.pending) →
      ∃ r : SentenceLog,
        (handleInput s text isInterim).state.sentenceLogs = s.sentenceLogs ++ [r] ∧
        r.sentence_id = s.currentSubIndex ∧
        r.total_words = (handleInput s text isInterim).state.passageWords.length ∧
        r.correct_words = (handleInput s text isInterim).state.passageWords.countP
          (fun w => decide (w.status = Status.correct)) ∧
        r.errors_count = r.total_words - r.correct_words ∧
        (r.completed = true ↔
          ∀ w ∈ (handleInput s text isInterim).state.passageWords,
            w.status ≠ Status.incorrect)) := by
  constructor
  · rw [handleTimeout_sentence s stage hin htype hguard]
    simp only [Outcome.state, List.countP_eq_length_filter]
    exact ⟨trivial, fun i => statusAt_markPendingIncorrect _ i,
      correct_markPendingIncorrect _⟩
  · rw [handleInput_sentence s stage text isInterim hin htype]
    intro hno
    have hres := handleInputSentence_resolved stage s text hguard hc hno
    have hcount := status_counts (handleInputSentence stage s text).state.passageWords
    rw [(countP_pending_eq_zero _).mpr hno] at hcount
    refine ⟨_, by rw [hres]; rfl, rfl, rfl, ?_, ?_, ?_⟩
    · simp only [List.countP_eq_length_filter]
    · simp only
      omega
    · simp only [decide_eq_true_eq]
      rw [List.length_eq_zero, List.filter_eq_nil_iff]
      simp

theorem handleInputSentence_of_no_pending (stage : Stage) (s : Session) (text : Str)
    (hguard : s.sentenceAdvancing = true) (hc : -1 ≤ s.lastMarkedWordIndex)
    (hno : ∀ w ∈ s.passageWords, w.status ≠ Status.pending) :
    handleInputSentence stage s text = Outcome.returned s := by
  have ha : alignChunk (Reading.mk s.passageWords s.lastMarkedWordIndex) text =
      (Reading.mk s.passageWords s.lastMarkedWordIndex, true) :=
    alignTokens_of_no_pending (splitWs text) _ hc hno
  have hzero := (countP_pending_eq_zero _).mpr hno
  simp only [handleInputSentence, ha, Bool.true_eq_false, if_false, hzero, if_true]
  rw [if_pos hguard]

/-- Claim C17 (the sentence advance is idempotent under racing triggers): in a sentence
stage with the guard flag clear, when a timeout is followed by a transcript, the timeout
appends exactly one record to `sentenceLogs` and schedules exactly one advance, and the
transcript then changes nothing in the state; and when a transcript that leaves no
pending word is followed by a timeout, the transcript appends exactly one record and
schedules exactly one advance, and the timeout then changes nothing in the state. -/
theorem sentence_advance_idempotent (s : Session) (stage : Stage) (text : Str)
    (isInterim : Bool) (hin : s.inStage stage)
    (htype : stage.type = StageType.sentence_reading)
    (hguard : s.sentenceAdvancing = false) (hc : -1 ≤ s.lastMarkedWordIndex) :
    ((∃ r : SentenceLog, (handleTimeout s).state.sentenceLogs = s.sentenceLogs ++ [r]) ∧
      (handleTimeout s).state.timers = s.timers ++ [Callback.sentenceAdvance stage] ∧
      (handleInput (handleTimeout s).state text isInterim).state = (handleTimeout s).state) ∧
    ((∀ w ∈ (handleInput s text isInterim).state.passageWords, w.status ≠ Status.pending) →
      (∃ r : SentenceLog,
        (handleInput s text isInterim).state.sentenceLogs = s.sentenceLogs ++ [r]) ∧
      (handleInput s text isInterim).state.timers =
        s.timers ++ [Callback.sentenceAdvance stage] ∧
      (handleTimeout (handleInput s text isInterim).state).state =
        (handleInput s text isInterim).state) := by
  have key1 : ∀ s1 : Session, s1.inStage stage → s1.sentenceAdvancing = true →
      -1 ≤ s1.lastMarkedWordIndex → (∀ w ∈ s1.passageWords, w.status ≠ Status.pending) →
      (handleInput s1 text isInterim).state = s1 := by
    intro s1 h1 h2 h3 h4
    rw [handleInput_sentence s1 stage text isInterim h1 htype,
      handleInputSentence_of_no_pending stage s1 text h2 h3 h4]
    rfl
  have key2 : ∀ s1 : Session, s1.inStage stage → s1.sentenceAdvancing = true →
      (handleTimeout s1).state = s1 := by
    intro s1 h1 h2
    rw [handleTimeout_sentence_guarded s1 stage h1 htype h2]
    rfl
  constructor
  · have ht := handleTimeout_sentence s stage hin htype hguard
    rw [ht]
    exact ⟨⟨_, rfl⟩, rfl, key1 _ ⟨hin.1, hin.2⟩ rfl hc (no_pending_markPendingIncorrect _)⟩
  · rw [handleInput_sentence s stage text isInterim hin htype]
    intro hno
    have hres := handleInputSentence_resolved stage s text hguard hc hno
    refine ⟨⟨_, by rw [hres]; rfl⟩, by rw [hres]; rfl, ?_⟩
    rw [hres]
    exact key2 _ ⟨hin.1, hin.2⟩ rfl

theorem levelForHighest_some (n : Nat) : levelForHighest (some n) = levelMap n := by
  match n with
  | 0 => rfl
  | 1 => rfl
  | 2 => rfl
  | 3 => rfl
  | 4 => rfl
  | n + 5 => simp [levelForHighest, levelMap]

theorem highestCompleted_append (logs : List SentenceLog) (l : SentenceLog) :
    highestCompleted (logs ++ [l]) =
      if l.completed then
        match highestCompleted logs with
        | none => some l.sentence_id
        | some h => some (max h l.sentence_id)
      else highestCompleted logs := by
  simp [highestCompleted, List.foldl_append]

theorem highestCompleted_le (n : Nat) (logs : List SentenceLog) :
    (∀ l ∈ logs, l.sentence_id ≤ n) → ∀ m, highestCompleted logs = some m → m ≤ n := by
  induction logs using List.reverseRecOn with
  | nil => intro _ m h; simp [highestCompleted] at h
  | append_singleton logs l ih =>
    intro hall m h
    rw [highestCompleted_append] at h
    have hl := hall l (by simp)
    have hrest := ih (fun x hx => hall x (by simp [hx]))
    split_ifs at h
    · split at h
      · simp only [Option.some.injEq] at h; omega
      · next hh hbest =>
        simp only [Option.some.injEq] at h
        have := hrest hh hbest
        omega
    · exact hrest m h

theorem renderCurrentStage_sentence (s : Session) (stage : Stage) (text : Str)
    (hstage : s.stages[s.currentStageIndex]? = some stage)
    (htype : stage.type = StageType.sentence_reading)
    (hitem : stage.items[s.currentSubIndex]? = some text) :
    renderCurrentStage s = Outcome.returned
      { s with setupDone := false, sentenceAdvancing := false, lastMarkedWordIndex := -1,
               passageWords := buildWords text } := by
  have hlt : ¬ s.currentStageIndex ≥ s.stages.length := by
    intro h
    rw [List.getElem?_eq_none h] at hstage
    cases hstage
  simp only [renderCurrentStage, renderCurrentStageFuel, if_neg hlt, hstage, htype,
    renderSentenceStage, hitem]

theorem sentenceInvariant_showSectionCompleteModal (s : Session) (stage : Stage)
    (h : s.sentenceInvariant stage) :
    (showSectionCompleteModal s).sentenceInvariant stage := by
  unfold showSectionCompleteModal
  split
  · exact h
  · exact h

theorem sentenceInvariant_resolved (s s2 : Session) (stage : Stage) (l : SentenceLog)
    (h : s.sentenceInvariant stage)
    (hmode : s2.interactionMode = s.interactionMode) (hstages : s2.stages = s.stages)
    (hidx : s2.currentStageIndex = s.currentStageIndex)
    (hsub : s2.currentSubIndex = s.currentSubIndex)
    (htimers : s2.timers = s.timers ++ [Callback.sentenceAdvance stage])
    (hlogs : s2.sentenceLogs = s.sentenceLogs ++ [l])
    (hid : l.sentence_id = s.currentSubIndex)
    (hlevel : (l.completed = true ∧ s2.wordListLevel = levelMap s.currentSubIndex) ∨
      (l.completed = false ∧ s2.wordListLevel = s.wordListLevel)) :
    s2.sentenceInvariant stage := by
  obtain ⟨hin, htim, hids, hlev⟩ := h
  refine ⟨⟨hmode.trans hin.1, ?_⟩, ?_, ?_, ?_⟩
  · rw [hstages, hidx]
    exact hin.2
  · intro cb hcb
    rw [htimers, List.mem_append, List.mem_singleton] at hcb
    rcases hcb with hcb | hcb
    · exact htim cb hcb
    · exact hcb
  · intro x hx
    rw [hlogs, List.mem_append, List.mem_singleton] at hx
    rw [hsub]
    rcases hx with hx | hx
    · exact hids x hx
    · rw [hx, hid]
  · rw [hlogs, highestCompleted_append]
    rcases hlevel with ⟨hc, hl⟩ | ⟨hc, hl⟩
    · rw [hl, if_pos hc, hid]
      cases hbest : highestCompleted s.sentenceLogs with
      | none => exact (levelForHighest_some _).symm
      | some m =>
        have hm := highestCompleted_le s.currentSubIndex s.sentenceLogs hids m hbest
        simp only [Nat.max_eq_right hm]
        exact (levelForHighest_some _).symm
    · rw [hl, hc]
      exact hlev

theorem sentenceInvariant_handleInput (s : Session) (stage : Stage) (text : Str)
    (isInterim : Bool) (htype : stage.type = StageType.sentence_reading)
    (h : s.sentenceInvariant stage) :
    (handleInput s text isInterim).state.sentenceInvariant stage := by
  have hin := h.1
  rw [handleInput_sentence s stage text isInterim hin htype]
  simp only [handleInputSentence]
  split_ifs with h1 h2 h3 h4
  · exact ⟨⟨hin.1, hin.2⟩, h.2.1, h.2.2.1, h.2.2.2⟩
  · exact ⟨⟨hin.1, hin.2⟩, h.2.1, h.2.2.1, h.2.2.2⟩
  · exact sentenceInvariant_resolved s _ stage _ h rfl rfl rfl rfl rfl rfl rfl
      (Or.inl ⟨h4, rfl⟩)
  · exact sentenceInvariant_resolved s _ stage _ h rfl rfl rfl rfl rfl rfl rfl
      (Or.inr ⟨(Bool.not_eq_true _).mp h4, rfl⟩)
  · exact ⟨⟨hin.1, hin.2⟩, h.2.1, h.2.2.1, h.2.2.2⟩

theorem sentenceInvariant_handleTimeout (s : Session) (stage : Stage)
    (htype : stage.type = StageType.sentence_reading) (h : s.sentenceInvariant stage) :
    (handleTimeout s).state.sentenceInvariant stage := by
  have hin := h.1
  cases hg : s.sentenceAdvancing with
  | true =>
    rw [handleTimeout_sentence_guarded s stage hin htype hg]
    exact h
  | false =>
    rw [handleTimeout_sentence s stage hin htype hg]
    exact sentenceInvariant_resolved s _ stage _ h rfl rfl rfl rfl rfl rfl rfl
      (Or.inr ⟨rfl, rfl⟩)

theorem sentenceInvariant_renderCurrentStage (s : Session) (stage : Stage) (text : Str)
    (h : s.sentenceInvariant stage) (htype : stage.type = StageType.sentence_reading)
    (hitem : stage.items[s.currentSubIndex]? = some text) :
    (renderCurrentStage s).state.sentenceInvariant stage := by
  rw [renderCurrentStage_sentence s stage text h.1.2 htype hitem]
  exact ⟨⟨h.1.1, h.1.2⟩, h.2.1, h.2.2.1, h.2.2.2⟩

theorem sentenceInvariant_runCallback (s : Session) (stage : Stage)
    (htype : stage.type = StageType.sentence_reading) (h : s.sentenceInvariant stage) :
    (runCallback (Callback.sentenceAdvance stage) s).state.sentenceInvariant stage := by
  obtain ⟨hin, htim, hids, hlev⟩ := h
  have hids2 : ∀ l ∈ s.sentenceLogs, l.sentence_id ≤ s.currentSubIndex + 1 :=
    fun l hl => Nat.le_succ_of_le (hids l hl)
  simp only [runCallback]
  split_ifs with hend
  · exact sentenceInvariant_showSectionCompleteModal _ stage
      ⟨⟨hin.1, hin.2⟩, htim, hids2, hlev⟩
  · have hlt : s.currentSubIndex + 1 < stage.items.length := by
      simpa using hend
    exact sentenceInvariant_renderCurrentStage _ stage (stage.items[s.currentSubIndex + 1])
      ⟨⟨hin.1, hin.2⟩, htim, hids2, hlev⟩ htype (List.getElem?_eq_getElem hlt)

theorem sentenceInvariant_fireTimer (s : Session) (stage : Stage) (i : Nat)
    (htype : stage.type = StageType.sentence_reading) (h : s.sentenceInvariant stage) :
    (fireTimer s i).state.sentenceInvariant stage := by
  unfold fireTimer
  split
  · exact h
  · next cb hcb =>
    have hcb2 := h.2.1 cb (List.getElem?_mem hcb)
    subst hcb2
    exact sentenceInvariant_runCallback _ stage htype
      ⟨⟨h.1.1, h.1.2⟩, fun cb hmem => h.2.1 cb (List.mem_of_mem_eraseIdx hmem), h.2.2.1,
        h.2.2.2⟩

theorem sentenceInvariant_runEvents (stage : Stage)
    (htype : stage.type = StageType.sentence_reading) (events : List Event) :
    ∀ s : Session, s.sentenceInvariant stage →
      (∀ e ∈ events, e.insideStage = true) →
      (runEvents s events).sentenceInvariant stage := by
  induction events with
  | nil => intro s h _; exact h
  | cons e more ih =>
    intro s h hev
    simp only [runEvents, List.foldl_cons]
    apply ih
    · have he := hev e (List.mem_cons_self _ _)
      cases e with
      | transcript text isInterim => exact sentenceInvariant_handleInput s stage _ _ htype h
      | timeout => exact sentenceInvariant_handleTimeout s stage htype h
      | timer i => exact sentenceInvariant_fireTimer s stage i htype h
      | nextStage => cases he
      | startTest => cases he
      | finishReading => cases he
      | skip => cases he
    · exact fun x hx => hev x (List.mem_cons_of_mem _ hx)

/-- Claim C12 (sentence to word-list level): enter a sentence stage with no sentence
record, `wordListLevel` at `pre_primer` and no closure waiting, and let the sentences be
resolved by any sequence of transcripts, timeouts and delayed advances, in particular one
after another in index order without racing events.  Then, at every moment up to the end
of the stage, `wordListLevel` is the image of the highest `sentence_id` logged with
`completed = true` under the map none to `pre_primer`, 0 to `primer`, 1 to `level_1`, 2
to `level_2`, 3 to `level_3`, 4 or more to `level_4`, whichever lower sentences failed. -/
theorem wordListLevel_of_highest_completed (s : Session) (stage : Stage)
    (events : List Event) (htype : stage.type = StageType.sentence_reading)
    (hin : s.inStage stage) (hlogs : s.sentenceLogs = [])
    (hlevel : s.wordListLevel = Level.pre_primer) (htimers : s.timers = [])
    (hevents : ∀ e ∈ events, e.insideStage = true) :
    (runEvents s events).wordListLevel =
      levelForHighest (highestCompleted (runEvents s events).sentenceLogs) := by
  have h0 : s.sentenceInvariant stage := by
    refine ⟨hin, ?_, ?_, ?_⟩
    · rw [htimers]; intro cb hcb; cases hcb
    · rw [hlogs]; intro l hl; cases hl
    · rw [hlogs, hlevel]; rfl
  exact (sentenceInvariant_runEvents stage htype events s h0 hevents).2.2.2

/-- Instance of claim C12: in the sample run the first and the third sentence are logged
completed, the second is not, and the level is `level_2`. -/
theorem wordListLevel_of_highest_completed_witness :
    (runEvents sampleSentenceSession sampleSentenceEvents).wordListLevel =
      levelForHighest
        (highestCompleted (runEvents sampleSentenceSession sampleSentenceEvents).sentenceLogs) ∧
    (runEvents sampleSentenceSession sampleSentenceEvents).sentenceLogs.map
      (fun l => (l.sentence_id, l.completed)) = [(0, true), (1, false), (2, true)] ∧
    (runEvents sampleSentenceSession sampleSentenceEvents).wordListLevel = Level.level_2 :=
  ⟨wordListLevel_of_highest_completed sampleSentenceSession sampleSentenceStage
      sampleSentenceEvents rfl ⟨rfl, rfl⟩ rfl rfl rfl (by decide),
    by decide, by decide⟩

/-- Instance of claim C18: on the first sample sentence a timeout logs three words, none
correct, three errors, not completed; the transcript `I can play` logs a completed
record. -/
theorem sentence_record_witness :
    (handleTimeout sampleSentenceSession).state.sentenceLogs =
      [{ sentence_id := 0, total_words := 3, correct_words := 0, completed := false,
         errors_count := 3 }] ∧
    (∃ r : SentenceLog,
      (handleInput sampleSentenceSession "I can play".toList false).state.sentenceLogs = [r] ∧
      r.completed = true) := by
  have h := sentence_record sampleSentenceSession sampleSentenceStage "I can play".toList
    false ⟨rfl, rfl⟩ rfl rfl (by decide)
  refine ⟨h.1.1.trans (by decide), ?_⟩
  obtain ⟨r, hr, -, -, -, -, hcomp⟩ := h.2 (by decide)
  exact ⟨r, hr, hcomp.mpr (by decide)⟩

/-- Instance of claim C17: on the first sample sentence, a timeout followed by the
transcript `I can play`, and that transcript followed by a timeout, both leave one record
and the state of the first trigger. -/
theorem sentence_advance_idempotent_witness :
    (handleInput (handleTimeout sampleSentenceSession).state "I can play".toList false).state =
      (handleTimeout sampleSentenceSession).state ∧
    (handleTimeout (handleInput sampleSentenceSession "I can play".toList false).state).state =
      (handleInput sampleSentenceSession "I can play".toList false).state ∧
    (handleTimeout sampleSentenceSession).state.sentenceLogs.length = 1 ∧
    (handleInput sampleSentenceSession "I can play".toList false).state.sentenceLogs.length =
      1 := by
  have h := sentence_advance_idempotent sampleSentenceSession sampleSentenceStage
    "I can play".toList false ⟨rfl, rfl⟩ rfl rfl (by decide)
  exact ⟨h.1.2.2, (h.2 (by decide)).2.2, by decide, by decide⟩

/-! ### The letter stage -/

theorem keepsNameStep_refl (s : Session) : s.keepsNameStep s := ⟨rfl, id⟩

theorem keepsNameStep_trans (s1 s2 s3 : Session) (h1 : s1.keepsNameStep s2)
    (h2 : s2.keepsNameStep s3) : s1.keepsNameStep s3 :=
  ⟨h2.1.trans h1.1, fun h => h2.2 (h1.2 h)⟩

theorem keepsNameStep_showSectionCompleteModal (s : Session) :
    s.keepsNameStep (showSectionCompleteModal s) := by
  unfold showSectionCompleteModal
  split
  · exact ⟨rfl, id⟩
  · exact ⟨rfl, id⟩

theorem keepsNameStep_renderLetterStage (renderNext : Session → Outcome) (stage : Stage)
    (s : Session) (h : ∀ x : Session, x.keepsNameStep (renderNext x).state) :
    s.keepsNameStep (renderLetterStage renderNext stage s).state := by
  unfold renderLetterStage
  split_ifs
  · refine keepsNameStep_trans _ _ _ ?_ (h _)
    exact ⟨rfl, fun _ => rfl⟩
  · exact ⟨rfl, fun _ => rfl⟩
  · exact ⟨rfl, id⟩

theorem keepsNameStep_renderSentenceStage (renderNext : Session → Outcome) (stage : Stage)
    (s : Session) (h : ∀ x : Session, x.keepsNameStep (renderNext x).state) :
    s.keepsNameStep (renderSentenceStage renderNext stage s).state := by
  unfold renderSentenceStage
  split
  · exact keepsNameStep_trans _ _ _ ⟨rfl, id⟩ (h _)
  · exact ⟨rfl, id⟩

theorem keepsNameStep_prepareWordList (renderNext : Session → Outcome) (stage : Stage)
    (s : Session) (h : ∀ x : Session, x.keepsNameStep (renderNext x).state) :
    s.keepsNameStep (prepareWordList renderNext stage s).state := by
  simp only [prepareWordList]
  split
  · exact keepsNameStep_trans _ _ _ ⟨rfl, id⟩ (h _)
  · exact ⟨rfl, id⟩

theorem keepsNameStep_renderWordListStage (renderNext : Session → Outcome) (s : Session)
    (h : ∀ x : Session, x.keepsNameStep (renderNext x).state) :
    s.keepsNameStep (renderWordListStage renderNext s).state := by
  unfold renderWordListStage
  split_ifs
  · exact keepsNameStep_trans _ _ _ ⟨rfl, id⟩ (h _)
  · exact ⟨rfl, id⟩

theorem keepsNameStep_prepareReadingPassage (stage : Stage) (s : Session) :
    s.keepsNameStep (prepareReadingPassage stage s) := by
  simp only [prepareReadingPassage]
  repeat' split
  all_goals exact ⟨rfl, id⟩

theorem keepsNameStep_renderReadingPassageStage (s : Session) :
    s.keepsNameStep (renderReadingPassageStage s).state := by
  unfold renderReadingPassageStage
  repeat' split
  all_goals exact ⟨rfl, id⟩

theorem keepsNameStep_andThen (s : Session) (o : Outcome) (f : Session → Outcome)
    (ho : s.keepsNameStep o.state) (hf : ∀ x : Session, x.keepsNameStep (f x).state) :
    s.keepsNameStep (o.andThen f).state := by
  cases o with
  | returned x => exact keepsNameStep_trans _ _ _ ho (hf x)
  | raised x => exact ho
  | exhausted x => exact ho

theorem keepsNameStep_renderCurrentStageFuel (fuel : Nat) :
    ∀ s : Session, s.keepsNameStep (renderCurrentStageFuel fuel s).state := by
  induction fuel with
  | zero => intro s; exact ⟨rfl, id⟩
  | succ fuel ih =>
    intro s
    simp only [renderCurrentStageFuel, Bool.false_eq_true, if_false]
    by_cases h : s.currentStageIndex ≥ s.stages.length
    · rw [if_pos h]; exact ⟨rfl, id⟩
    · rw [if_neg h]
      split
      · exact ⟨rfl, id⟩
      · next stage _ =>
        split
        · exact keepsNameStep_trans _ _ _ ⟨rfl, id⟩ (keepsNameStep_renderLetterStage _ _ _ ih)
        · exact keepsNameStep_trans _ _ _ ⟨rfl, id⟩
            (keepsNameStep_renderSentenceStage _ _ _ ih)
        · apply keepsNameStep_andThen
          · exact keepsNameStep_trans _ _ _ ⟨rfl, id⟩ (keepsNameStep_prepareWordList _ _ _ ih)
          · intro x; exact keepsNameStep_renderWordListStage _ x ih
        · refine keepsNameStep_trans _ _ _ ?_ (keepsNameStep_renderReadingPassageStage _)
          refine keepsNameStep_trans _ _ _ ?_ (keepsNameStep_prepareReadingPassage _ _)
          exact ⟨rfl, id⟩
        · exact keepsNameStep_trans _ _ _ ⟨rfl, id⟩ (ih _)

theorem keepsNameStep_renderCurrentStage (s : Session) :
    s.keepsNameStep (renderCurrentStage s).state :=
  keepsNameStep_renderCurrentStageFuel _ s

theorem isNameOnly_eq (stage : Stage) :
    isNameOnly stage = decide (stage.id = "letters_common".toList) := by
  unfold isNameOnly
  rw [Bool.eq_iff_iff, beq_iff_eq, decide_eq_true_iff]

theorem nextLetterPosition_eq (nameOnly : Bool) (step : LetterStep) (i : Nat) :
    nextLetterPosition nameOnly step i =
      if step = LetterStep.name ∧ nameOnly = false then (LetterStep.sound, i)
      else (LetterStep.name, i + 1) := by
  cases nameOnly <;> cases step <;> simp [nextLetterPosition]

theorem letterPosition_showSectionCompleteModal (s : Session) :
    (showSectionCompleteModal s).letterPosition = s.letterPosition := by
  unfold showSectionCompleteModal
  split <;> rfl

theorem letterLogs_of_logs_eq (s1 s2 : Session) (h : s2.logs = s1.logs) :
    s2.letterLogs = s1.letterLogs :=
  congrArg Prod.fst h

theorem handleInput_letter (s : Session) (stage : Stage) (text : Str) (isInterim : Bool)
    (hin : s.inStage stage) (htype : stage.type = StageType.letter_recognition) :
    handleInput s text isInterim = handleInputLetter stage s text isInterim := by
  unfold handleInput
  rw [hin.1, hin.2]
  simp only [htype]

theorem handleTimeout_letter (s : Session) (stage : Stage) (hin : s.inStage stage)
    (htype : stage.type = StageType.letter_recognition) :
    (handleTimeout s).state.letterPosition =
      nextLetterPosition (isNameOnly stage) s.letterStep s.currentSubIndex ∧
    (handleTimeout s).state.letterLogs = s.letterLogs ++
      [{ letter := stage.items[s.currentSubIndex]?, step := s.letterStep,
         spoken := "(no response)".toList, status := LogStatus.no_response }] ∧
    (∀ cb ∈ (handleTimeout s).state.timers, cb ∈ s.timers ∨ cb = Callback.renderLetter stage) := by
  unfold handleTimeout
  rw [hin.2, nextLetterPosition_eq]
  simp only [htype]
  split_ifs with h1 h2
  · refine ⟨rfl, rfl, ?_⟩
    intro cb hcb
    change cb ∈ s.timers ++ [Callback.renderLetter stage] at hcb
    rw [List.mem_append, List.mem_singleton] at hcb
    exact hcb
  · refine ⟨letterPosition_showSectionCompleteModal _,
      letterLogs_of_logs_eq _ _ (logs_showSectionCompleteModal _), ?_⟩
    intro cb hcb
    change cb ∈ (showSectionCompleteModal _).timers at hcb
    rw [(keepsNameStep_showSectionCompleteModal _).1] at hcb
    exact Or.inl hcb
  · refine ⟨rfl, rfl, ?_⟩
    intro cb hcb
    change cb ∈ s.timers ++ [Callback.renderLetter stage] at hcb
    rw [List.mem_append, List.mem_singleton] at hcb
    exact hcb

theorem runCallback_letterAdvance (s : Session) (stage : Stage)
    (hi : s.currentSubIndex < stage.items.length) :
    (runCallback (Callback.letterAdvance stage) s).state.letterPosition =
      nextLetterPosition (isNameOnly stage) s.letterStep s.currentSubIndex := by
  rw [nextLetterPosition_eq]
  simp only [runCallback]
  split_ifs with h1 h2
  · unfold renderLetterStage
    rw [if_neg (Nat.not_le.mpr hi)]
    simp only [h1.2, Bool.false_eq_true, if_false]
    rfl
  · exact letterPosition_showSectionCompleteModal _
  · unfold renderLetterStage
    rw [if_neg h2]
    split_ifs <;> rfl

theorem fireTimer_last (s : Session) (timers : List Callback) (cb : Callback)
    (h : s.timers = timers ++ [cb]) :
    fireTimer s timers.length = runCallback cb { s with timers := timers } := by
  unfold fireTimer
  rw [h, List.getElem?_concat_length]
  simp [List.eraseIdx_append_of_length_le]

theorem handleInputLetter_resolved (stage : Stage) (s : Session) (text : Str)
    (h : checkMatchTarget text stage.items[s.currentSubIndex]? = some true ∨
      (checkMatchTarget text stage.items[s.currentSubIndex]? = some false ∧
        (trim text).length > 0)) :
    ∃ l : LetterLog, l.step = s.letterStep ∧ l.letter = stage.items[s.currentSubIndex]? ∧
      (l.status = LogStatus.correct ↔
        checkMatchTarget text stage.items[s.currentSubIndex]? = some true) ∧
      handleInputLetter stage s text false = Outcome.returned
        { s with letterLogs := s.letterLogs ++ [l],
                 timers := s.timers ++ [Callback.letterAdvance stage] } := by
  simp only [handleInputLetter, Bool.false_eq_true, if_false]
  rcases h with h | ⟨h, hlen⟩
  · rw [h]
    exact ⟨_, rfl, rfl, by simp, rfl⟩
  · rw [h]
    simp only [if_pos hlen]
    exact ⟨_, rfl, rfl, by simp, rfl⟩

theorem handleInputLetter_ignored (stage : Stage) (s : Session) (text : Str)
    (isInterim : Bool)
    (h : isInterim = true ∨
      (checkMatchTarget text stage.items[s.currentSubIndex]? = some false ∧
        (trim text).length = 0)) :
    handleInputLetter stage s text isInterim = Outcome.returned s := by
  simp only [handleInputLetter]
  rcases h with h | ⟨h, hlen⟩
  · rw [if_pos h]
  · have hnot : ¬ (trim text).length > 0 := by omega
    rw [h, if_neg hnot]
    split_ifs <;> rfl

theorem nameOnlyInvariant_of_keeps (s1 s2 : Session) (stage : Stage)
    (h : s1.nameOnlyInvariant stage) (hk : s1.keepsNameStep s2) :
    s2.nameOnlyInvariant stage :=
  ⟨hk.2 h.1, fun cb hcb => h.2 cb (hk.1 ▸ hcb)⟩

theorem nameOnly_resolved (s s2 : Session) (stage : Stage) (l : LetterLog) (cb : Callback)
    (h : s.nameOnlyInvariant stage) (hstep : s2.letterStep = LetterStep.name)
    (hcb : cb = Callback.letterAdvance stage ∨ cb = Callback.renderLetter stage)
    (htimers : ∀ x ∈ s2.timers, x ∈ s.timers ∨ x = cb)
    (hlogs : s2.letterLogs = s.letterLogs ++ [l]) (hl : l.step = s.letterStep) :
    s2.nameOnlyInvariant stage ∧
    ∃ added, s2.letterLogs = s.letterLogs ++ added ∧ ∀ x ∈ added, x.step = LetterStep.name := by
  refine ⟨⟨hstep, ?_⟩, [l], hlogs, ?_⟩
  · intro x hx
    rcases htimers x hx with hx | hx
    · exact h.2 x hx
    · rw [hx]
      exact hcb
  · intro x hx
    rw [List.mem_singleton] at hx
    rw [hx, hl]
    exact h.1

theorem nameOnly_unchanged (s : Session) (stage : Stage) (h : s.nameOnlyInvariant stage) :
    s.nameOnlyInvariant stage ∧
    ∃ added, s.letterLogs = s.letterLogs ++ added ∧ ∀ x ∈ added, x.step = LetterStep.name :=
  ⟨h, [], (List.append_nil _).symm, fun _ hx => absurd hx (List.not_mem_nil _)⟩

theorem nameOnly_handleInput (s : Session) (stage : Stage) (text : Str) (isInterim : Bool)
    (hin : s.inStage stage) (htype : stage.type = StageType.letter_recognition)
    (h : s.nameOnlyInvariant stage) :
    (handleInput s text isInterim).state.nameOnlyInvariant stage ∧
    ∃ added, (handleInput s text isInterim).state.letterLogs = s.letterLogs ++ added ∧
      ∀ x ∈ added, x.step = LetterStep.name := by
  rw [handleInput_letter s stage text isInterim hin htype]
  simp only [handleInputLetter]
  repeat' split
  all_goals
    first
    | exact nameOnly_unchanged s stage h
    | exact nameOnly_resolved s _ stage _ (Callback.letterAdvance stage) h h.1 (Or.inl rfl)
        (fun x hx => by
          change x ∈ s.timers ++ [Callback.letterAdvance stage] at hx
          rw [List.mem_append, List.mem_singleton] at hx
          exact hx) rfl rfl

theorem nameOnly_handleTimeout (s : Session) (stage : Stage)
    (hname : isNameOnly stage = true) (hin : s.inStage stage)
    (htype : stage.type = StageType.letter_recognition) (h : s.nameOnlyInvariant stage) :
    (handleTimeout s).state.nameOnlyInvariant stage ∧
    ∃ added, (handleTimeout s).state.letterLogs = s.letterLogs ++ added ∧
      ∀ x ∈ added, x.step = LetterStep.name := by
  obtain ⟨hpos, hlogs, htimers⟩ := handleTimeout_letter s stage hin htype
  rw [hname] at hpos
  exact nameOnly_resolved s _ stage _ (Callback.renderLetter stage) h
    (congrArg Prod.fst hpos) (Or.inr rfl) htimers hlogs rfl

theorem nameOnly_runCallback (s : Session) (stage : Stage) (cb : Callback)
    (hname : isNameOnly stage = true)
    (hcb : cb = Callback.letterAdvance stage ∨ cb = Callback.renderLetter stage)
    (h : s.nameOnlyInvariant stage) :
    (runCallback cb s).state.nameOnlyInvariant stage ∧
    (runCallback cb s).state.letterLogs = s.letterLogs := by
  rcases hcb with hcb | hcb
  · subst hcb
    have hnot : ¬ (s.letterStep = LetterStep.name ∧ isNameOnly stage = false) := by
      rw [hname]
      exact fun hx => Bool.noConfusion hx.2
    have h1 : Session.nameOnlyInvariant
        { s with letterStep := LetterStep.name, currentSubIndex := s.currentSubIndex + 1 }
        stage := ⟨rfl, h.2⟩
    simp only [runCallback, if_neg hnot]
    split_ifs
    · exact ⟨nameOnlyInvariant_of_keeps _ _ stage h1 (keepsNameStep_showSectionCompleteModal _),
        letterLogs_of_logs_eq _ _ (logs_showSectionCompleteModal _)⟩
    · exact ⟨nameOnlyInvariant_of_keeps _ _ stage h1
          (keepsNameStep_renderLetterStage _ _ _ keepsNameStep_renderCurrentStage),
        letterLogs_of_logs_eq _ _ (logs_renderLetterStage _ _ _ logs_renderCurrentStage)⟩
  · subst hcb
    exact ⟨nameOnlyInvariant_of_keeps _ _ stage h
        (keepsNameStep_renderLetterStage _ _ _ keepsNameStep_renderCurrentStage),
      letterLogs_of_logs_eq _ _ (logs_renderLetterStage _ _ _ logs_renderCurrentStage)⟩

theorem nameOnly_fireTimer (s : Session) (stage : Stage) (i : Nat)
    (hname : isNameOnly stage = true) (h : s.nameOnlyInvariant stage) :
    (fireTimer s i).state.nameOnlyInvariant stage ∧
    ∃ added, (fireTimer s i).state.letterLogs = s.letterLogs ++ added ∧
      ∀ x ∈ added, x.step = LetterStep.name := by
  unfold fireTimer
  split
  · exact nameOnly_unchanged s stage h
  · next cb hcb =>
    have hrun := nameOnly_runCallback { s with timers := s.timers.eraseIdx i } stage cb hname
      (h.2 cb (List.getElem?_mem hcb))
      ⟨h.1, fun x hx => h.2 x (List.mem_of_mem_eraseIdx hx)⟩
    exact ⟨hrun.1, [], by rw [hrun.2, List.append_nil],
      fun _ hx => absurd hx (List.not_mem_nil _)⟩

theorem nameOnly_runEvents (stage : Stage) (hname : isNameOnly stage = true)
    (htype : stage.type = StageType.letter_recognition) (events : List Event) :
    ∀ s : Session, s.nameOnlyInvariant stage →
      (∀ e ∈ events, e.insideStage = true) →
      (∀ k : Nat, k < events.length → (runEvents s (events.take k)).inStage stage) →
      ∃ added, (runEvents s events).letterLogs = s.letterLogs ++ added ∧
        ∀ x ∈ added, x.step = LetterStep.name := by
  induction events with
  | nil => intro s _ _ _; exact ⟨[], (List.append_nil _).symm, fun _ hx => absurd hx (List.not_mem_nil _)⟩
  | cons e more ih =>
    intro s h hev hstay
    have hin : s.inStage stage := hstay 0 (Nat.succ_pos _)
    have he := hev e (List.mem_cons_self _ _)
    have hstep : (handleEvent s e).state.nameOnlyInvariant stage ∧
        ∃ added, (handleEvent s e).state.letterLogs = s.letterLogs ++ added ∧
          ∀ x ∈ added, x.step = LetterStep.name := by
      cases e with
      | transcript text isInterim => exact nameOnly_handleInput s stage _ _ hin htype h
      | timeout => exact nameOnly_handleTimeout s stage hname hin htype h
      | timer i => exact nameOnly_fireTimer s stage i hname h
      | nextStage => cases he
      | startTest => cases he
      | finishReading => cases he
      | skip => cases he
    obtain ⟨hinv, added1, hlogs1, hsteps1⟩ := hstep
    obtain ⟨added2, hlogs2, hsteps2⟩ := ih (handleEvent s e).state hinv
      (fun x hx => hev x (List.mem_cons_of_mem _ hx))
      (fun k hk => hstay (k + 1) (Nat.succ_lt_succ hk))
    refine ⟨added1 ++ added2, ?_, ?_⟩
    · change (runEvents (handleEvent s e).state more).letterLogs = _
      rw [hlogs2, hlogs1, List.append_assoc]
    · intro x hx
      rw [List.mem_append] at hx
      rcases hx with hx | hx
      · exact hsteps1 x hx
      · exact hsteps2 x hx

/-- Claim C20 (letter stage step machine): in a letter stage, at letter `i`, each
resolution logs one record with the current step and moves as the specification says: a
stage whose id is not `letters_common` goes from `name` to `sound` of the same letter
and from `sound` to `name` of letter `i + 1`, the stage `letters_common` always goes to
`name` of letter `i + 1`.  A timeout moves at once; a final transcript that matches, or
that does not match and is not blank, schedules one delayed advance that moves when it
runs; an interim transcript and a blank transcript that does not match resolve nothing.
From the step `name`, with only closures of the stage waiting, no record logged while
`letters_common` is the current stage has the step `sound`. -/
theorem letter_step_machine (s : Session) (stage : Stage) (text : Str) (isInterim : Bool)
    (htype : stage.type = StageType.letter_recognition) (hin : s.inStage stage)
    (hi : s.currentSubIndex < stage.items.length) :
    ((handleTimeout s).state.letterPosition =
        nextLetterPosition (decide (stage.id = "letters_common".toList)) s.letterStep
          s.currentSubIndex ∧
      ∃ l : LetterLog, (handleTimeout s).state.letterLogs = s.letterLogs ++ [l] ∧
        l.step = s.letterStep) ∧
    ((checkMatchTarget text stage.items[s.currentSubIndex]? = some true ∨
        (checkMatchTarget text stage.items[s.currentSubIndex]? = some false ∧
          (trim text).length > 0)) →
      (∃ l : LetterLog, (handleInput s text false).state.letterLogs = s.letterLogs ++ [l] ∧
        l.step = s.letterStep) ∧
      (handleInput s text false).state.letterPosition = s.letterPosition ∧
      (handleInput s text false).state.timers = s.timers ++ [Callback.letterAdvance stage] ∧
      (fireTimer (handleInput s text false).state s.timers.length).state.letterPosition =
        nextLetterPosition (decide (stage.id = "letters_common".toList)) s.letterStep
          s.currentSubIndex) ∧
    ((isInterim = true ∨
        (checkMatchTarget text stage.items[s.currentSubIndex]? = some false ∧
          (trim text).length = 0)) →
      (handleInput s text isInterim).state = s) ∧
    (stage.id = "letters_common".toList → s.letterStep = LetterStep.name →
      (∀ cb ∈ s.timers,
        cb = Callback.letterAdvance stage ∨ cb = Callback.renderLetter stage) →
      ∀ events : List Event, (∀ e ∈ events, e.insideStage = true) →
        (∀ k : Nat, k < events.length → (runEvents s (events.take k)).inStage stage) →
        ∃ added, (runEvents s events).letterLogs = s.letterLogs ++ added ∧
          ∀ l ∈ added, l.step = LetterStep.name) := by
  rw [← isNameOnly_eq]
  refine ⟨?_, ?_, ?_, ?_⟩
  · obtain ⟨hpos, hlogs, -⟩ := handleTimeout_letter s stage hin htype
    exact ⟨hpos, _, hlogs, rfl⟩
  · intro hres
    obtain ⟨l, hstep, -, -, hrun⟩ := handleInputLetter_resolved stage s text hres
    rw [handleInput_letter s stage text false hin htype, hrun]
    refine ⟨⟨l, rfl, hstep⟩, rfl, rfl, ?_⟩
    rw [fireTimer_last _ s.timers (Callback.letterAdvance stage) rfl]
    exact runCallback_letterAdvance _ stage hi
  · intro hign
    rw [handleInput_letter s stage text isInterim hin htype,
      handleInputLetter_ignored stage s text isInterim hign]
    rfl
  · intro hid hstep htimers events hev hstay
    have hname : isNameOnly stage = true := by
      rw [isNameOnly_eq, decide_eq_true_iff]
      exact hid
    exact nameOnly_runEvents stage hname htype events s ⟨hstep, htimers⟩ hev hstay

/-- Instance of claim C20: in the sample stage `letters_caps` a timeout and the matching
transcript `a` at the name of the first letter both lead to its sound; in the stage
`letters_common` a timeout leads to the name of the second letter, and the sample run
logs two records, both with the step `name`. -/
theorem letter_step_machine_witness :
    (handleTimeout sampleLetterSession).state.letterPosition = (LetterStep.sound, 0) ∧
    (fireTimer (handleInput sampleLetterSession "a".toList false).state 0).state.letterPosition =
      (LetterStep.sound, 0) ∧
    (handleTimeout sampleCommonSession).state.letterPosition = (LetterStep.name, 1) ∧
    (runEvents sampleCommonSession sampleCommonEvents).letterLogs.map (fun l => l.step) =
      [LetterStep.name, LetterStep.name] ∧
    (∃ added, (runEvents sampleCommonSession sampleCommonEvents).letterLogs =
        sampleCommonSession.letterLogs ++ added ∧
      ∀ l ∈ added, l.step = LetterStep.name) := by
  have h1 := letter_step_machine sampleLetterSession sampleLetterStage "a".toList false rfl
    ⟨rfl, rfl⟩ (by decide)
  have h2 := letter_step_machine sampleCommonSession sampleCommonStage "a".toList false rfl
    ⟨rfl, rfl⟩ (by decide)
  refine ⟨h1.1.1, (h1.2.1 (Or.inl (by decide))).2.2.2, h2.1.1, by decide, ?_⟩
  refine h2.2.2.2 rfl rfl (fun cb hcb => absurd hcb (List.not_mem_nil _)) sampleCommonEvents
    (by decide) ?_
  intro k hk
  have hk3 : k < 3 := hk
  interval_cases k
  · exact ⟨rfl, rfl⟩
  · exact ⟨rfl, rfl⟩
  · exact ⟨rfl, rfl⟩

/-! ### Interim transcripts -/

theorem handleInput_word (s : Session) (stage : Stage) (text : Str) (isInterim : Bool)
    (hin : s.inStage stage) (htype : stage.type = StageType.word_list) :
    handleInput s text isInterim = handleInputWord stage s text isInterim := by
  unfold handleInput
  rw [hin.1, hin.2]
  simp only [htype]

theorem handleInput_question (s : Session) (stage : Stage) (text : Str) (isInterim : Bool)
    (hin : s.inStage stage) (htype : stage.type = StageType.oral_reading)
    (hmode : s.passageMode = PassageMode.questions) :
    handleInput s text isInterim = handleInputQuestion stage s text isInterim := by
  unfold handleInput
  rw [hin.1, hin.2]
  simp only [htype, hmode]

/-- Claim C21 (interim suppression): in test mode, `handleInput` called with an interim
transcript returns with the whole session state as it was when the current stage is a
letter stage or a word-list stage; in the question mode of an oral-reading stage, with
an interim transcript of fewer than 5 characters, it leaves the whole state as it was,
and it returns when the current question exists. -/
theorem interim_suppressed (s : Session) (stage : Stage) (text : Str)
    (hin : s.inStage stage) :
    (stage.type = StageType.letter_recognition ∨ stage.type = StageType.word_list →
      handleInput s text true = Outcome.returned s) ∧
    (stage.type = StageType.oral_reading → s.passageMode = PassageMode.questions →
      text.length < 5 →
      (handleInput s text true).state = s ∧
      ∀ (data : PassageData) (q : Question), s.currentPassageData = some data →
        data.questions[s.currentSubIndex]? = some q →
        handleInput s text true = Outcome.returned s) := by
  refine ⟨?_, ?_⟩
  · intro htype
    rcases htype with htype | htype
    · rw [handleInput_letter s stage text true hin htype]
      simp only [handleInputLetter, if_true]
    · rw [handleInput_word s stage text true hin htype]
      simp only [handleInputWord, if_true]
  · intro htype hmode hlen
    rw [handleInput_question s stage text true hin htype hmode]
    simp only [handleInputQuestion, Bool.true_and, decide_eq_true_eq, if_pos hlen]
    refine ⟨?_, ?_⟩
    · repeat' split
      all_goals rfl
    · intro data q hdata hq
      rw [hdata]
      simp only [hq]

/-- Instance of claim C21: the interim transcript `a` changes nothing at the first letter
of the sample letter stage, at the first word of the sample word list and at the first
question of the sample passage. -/
theorem interim_suppressed_witness :
    handleInput sampleLetterSession "a".toList true = Outcome.returned sampleLetterSession ∧
    handleInput sampleWordSession "cat".toList true = Outcome.returned sampleWordSession ∧
    handleInput sampleQuestionSession "cat".toList true =
      Outcome.returned sampleQuestionSession :=
  ⟨(interim_suppressed sampleLetterSession sampleLetterStage "a".toList ⟨rfl, rfl⟩).1
      (Or.inl rfl),
   (interim_suppressed sampleWordSession sampleWordStage "cat".toList ⟨rfl, rfl⟩).1
      (Or.inr rfl),
   ((interim_suppressed sampleQuestionSession samplePassageStage "cat".toList ⟨rfl, rfl⟩).2
      rfl rfl (by decide)).2 _ _ rfl rfl⟩

/-! ### The word list -/

theorem afterWordDecided_fields (stage : Stage) (s : Session) :
    (afterWordDecided stage s).wordLogs = s.wordLogs ∧
    (afterWordDecided stage s).wordListScore = s.wordListScore ∧
    (afterWordDecided stage s).currentSubIndex = s.currentSubIndex + 1 ∧
    (afterWordDecided stage s).currentWordList = s.currentWordList := by
  simp only [afterWordDecided]
  split_ifs
  · unfold showSectionCompleteModal
    split <;> exact ⟨rfl, rfl, rfl, rfl⟩
  · exact ⟨rfl, rfl, rfl, rfl⟩

/-- The word-list branch of `handleInput` when `checkMatch` returns: a final transcript
that matches, or that does not match and is not blank, appends one record for the current
word, `'correct'` or `'incorrect'`, adds one to the score in the first case, and moves to
the next word. -/
theorem handleInputWord_decided (stage : Stage) (s : Session) (text w : Str) (b : Bool)
    (hw : s.currentWordList[s.currentSubIndex]? = some w)
    (hm : checkMatch text w = some b) (hblank : (trim text).length > 0) :
    ∃ s2 : Session, handleInputWord stage s text false = Outcome.returned s2 ∧
      (∃ l : WordLog, s2.wordLogs = s.wordLogs ++ [l] ∧ l.target = some w ∧
        l.status = if b then LogStatus.correct else LogStatus.incorrect) ∧
      s2.wordListScore = s.wordListScore + (if b then 1 else 0) ∧
      s2.currentSubIndex = s.currentSubIndex + 1 := by
  simp only [handleInputWord, Bool.false_eq_true, if_false, hw, checkMatchTarget, hm]
  cases b with
  | true =>
    refine ⟨_, rfl, ?_, ?_, ?_⟩
    · rw [(afterWordDecided_fields _ _).1]
      exact ⟨_, rfl, rfl, rfl⟩
    · rw [(afterWordDecided_fields _ _).2.1]
      rfl
    · rw [(afterWordDecided_fields _ _).2.2.1]
  | false =>
    simp only [Bool.not_false, Bool.true_and, decide_eq_true_eq, if_pos hblank]
    refine ⟨_, rfl, ?_, ?_, ?_⟩
    · rw [(afterWordDecided_fields _ _).1]
      exact ⟨_, rfl, rfl, rfl⟩
    · rw [(afterWordDecided_fields _ _).2.1]
      rfl
    · rw [(afterWordDecided_fields _ _).2.2.1]

/-- Claim C22, at the word `constructor` of the sample word list with the final
transcript `dog`: the index is inside the drawn list and the transcript is not blank, yet
`handleInput` raises, because `checkMatch("dog", "constructor")` does, and leaves the
state as it was: no record is appended and the index stays where it is. -/
theorem handleInput_word_raises_at_constructor :
    sampleWordSessionAtThird.inStage sampleWordStage ∧
    sampleWordSessionAtThird.currentSubIndex = 2 ∧
    sampleWordSessionAtThird.currentWordList[2]? = some "constructor".toList ∧
    (trim "dog".toList).length > 0 ∧
    checkMatch "dog".toList "constructor".toList = none ∧
    handleInput sampleWordSessionAtThird "dog".toList false =
      Outcome.raised sampleWordSessionAtThird ∧
    (handleInput sampleWordSessionAtThird "dog".toList false).state.wordLogs.length = 2 ∧
    (handleInput sampleWordSessionAtThird "dog".toList false).state.currentSubIndex = 2 :=
  ⟨⟨rfl, rfl⟩, rfl, rfl, by decide, by decide, rfl, rfl, rfl⟩

theorem handleTimeout_word (s : Session) (stage : Stage) (hin : s.inStage stage)
    (htype : stage.type = StageType.word_list) :
    handleTimeout s = Outcome.returned
      { s with timers := s.timers ++
          [Callback.wordGrace stage (s.currentWordList[s.currentSubIndex]?)] } := by
  unfold handleTimeout
  rw [hin.2]
  simp only [htype]

/-- The grace callback of a word-list timeout when the word is still the current one
and no `'correct'` or `'incorrect'` record with the same target is in `wordLogs`: it
appends a `'no_response'` record for the word and moves to the next word. -/
theorem wordGrace_no_response (stage : Stage) (s : Session) (target : Option Str)
    (hcur : s.currentWordList[s.currentSubIndex]? = target)
    (hlog : ∀ l ∈ s.wordLogs, l.target = target → l.status = LogStatus.no_response) :
    (runCallback (Callback.wordGrace stage target) s).state.wordLogs =
      s.wordLogs ++ [{ target := target, spoken := "(no response)".toList,
                       status := LogStatus.no_response }] ∧
    (runCallback (Callback.wordGrace stage target) s).state.currentSubIndex =
      s.currentSubIndex + 1 := by
  have hnot : ¬ (s.currentWordList[s.currentSubIndex]? ≠ target ∨
      s.wordLogs.any (fun l => decide (l.target = target) &&
        (decide (l.status = LogStatus.correct) ||
          decide (l.status = LogStatus.incorrect))) = true) := by
    rintro (h | h)
    · exact h hcur
    · rw [List.any_eq_true] at h
      obtain ⟨l, hl, hp⟩ := h
      simp only [Bool.and_eq_true, Bool.or_eq_true, decide_eq_true_eq] at hp
      have := hlog l hl hp.1
      rw [this] at hp
      rcases hp.2 with h2 | h2 <;> cases h2
  simp only [runCallback, if_neg hnot]
  split_ifs
  · unfold showSectionCompleteModal
    split <;> exact ⟨rfl, rfl⟩
  · have hl := logs_renderWordListStage renderCurrentStage
      { s with wordLogs := s.wordLogs ++
                 [{ target := target, spoken := "(no response)".toList,
                    status := LogStatus.no_response }],
               currentSubIndex := s.currentSubIndex + 1 } logs_renderCurrentStage
    refine ⟨congrArg (fun x => x.2.2.1) hl, ?_⟩
    unfold renderWordListStage
    rw [if_neg (by assumption)]
    rfl

/-- The grace callback of a word-list timeout when the index has moved to another target
or a `'correct'` or `'incorrect'` record with the same target is in `wordLogs`: it
returns at once. -/
theorem wordGrace_handled (stage : Stage) (s : Session) (target : Option Str)
    (h : s.currentWordList[s.currentSubIndex]? ≠ target ∨
      ∃ l ∈ s.wordLogs, l.target = target ∧
        (l.status = LogStatus.correct ∨ l.status = LogStatus.incorrect)) :
    runCallback (Callback.wordGrace stage target) s = Outcome.returned s := by
  have hyes : s.currentWordList[s.currentSubIndex]? ≠ target ∨
      s.wordLogs.any (fun l => decide (l.target = target) &&
        (decide (l.status = LogStatus.correct) ||
          decide (l.status = LogStatus.incorrect))) = true := by
    rcases h with h | ⟨l, hl, ht, hs⟩
    · exact Or.inl h
    · refine Or.inr ?_
      rw [List.any_eq_true]
      exact ⟨l, hl, by simpa [ht] using hs⟩
  simp only [runCallback, if_pos hyes]

/-- A final transcript that resolves the current word during the grace period makes the
grace callback return at once: the record it appended is found by the callback. -/
theorem wordGrace_after_transcript (stage : Stage) (s : Session) (text w : Str) (b : Bool)
    (hw : s.currentWordList[s.currentSubIndex]? = some w)
    (hm : checkMatch text w = some b) (hblank : (trim text).length > 0) :
    runCallback (Callback.wordGrace stage (some w))
        (handleInputWord stage s text false).state =
      Outcome.returned (handleInputWord stage s text false).state := by
  obtain ⟨s2, hs2, ⟨l, hlogs, htarget, hstatus⟩, -, -⟩ :=
    handleInputWord_decided stage s text w b hw hm hblank
  rw [hs2]
  apply wordGrace_handled
  refine Or.inr ⟨l, ?_, htarget, ?_⟩
  · change l ∈ s2.wordLogs
    rw [hlogs]
    simp
  · rw [hstatus]
    cases b
    · exact Or.inr rfl
    · exact Or.inl rfl

/-- Claim C23, at the second word of the sample word list, which is the word `cat` like
the first, read correctly before: the listening window elapses, no transcript comes, and
the index is still `1` when the grace callback runs; the callback finds the record of the
first word, appends nothing and does not advance, and no closure is left waiting. -/
theorem wordGrace_skips_repeated_word :
    sampleWordSessionAtSecond.inStage sampleWordStage ∧
    sampleWordSessionAtSecond.currentSubIndex = 1 ∧
    sampleWordSessionAtSecond.currentWordList[1]? = some "cat".toList ∧
    sampleWordSessionAtSecond.wordLogs =
      [{ target := some "cat".toList, spoken := "cat".toList, status := LogStatus.correct }] ∧
    sampleWordSessionAtSecond.timers = [] ∧
    (handleTimeout sampleWordSessionAtSecond).state.timers =
      [Callback.wordGrace sampleWordStage (some "cat".toList)] ∧
    (runEvents sampleWordSessionAtSecond [Event.timeout, Event.timer 0]).wordLogs =
      sampleWordSessionAtSecond.wordLogs ∧
    (runEvents sampleWordSessionAtSecond [Event.timeout, Event.timer 0]).currentSubIndex = 1 ∧
    (runEvents sampleWordSessionAtSecond [Event.timeout, Event.timer 0]).timers = [] :=
  ⟨⟨rfl, rfl⟩, rfl, rfl, by decide, rfl, rfl, rfl, rfl, rfl⟩

/-! ### A word-list stage without words for the level -/

theorem rendersFrom_returned (s x : Session) (index fuel : Nat) (hs : x.stages = s.stages)
    (hi : s.currentStageIndex ≤ x.currentStageIndex) :
    s.rendersFrom index fuel (Outcome.returned x) :=
  ⟨hs, hi, fun _ _ h => by cases h⟩

theorem rendersFrom_raised (s x : Session) (index fuel : Nat) (hs : x.stages = s.stages)
    (hi : s.currentStageIndex ≤ x.currentStageIndex) :
    s.rendersFrom index fuel (Outcome.raised x) :=
  ⟨hs, hi, fun _ _ h => by cases h⟩

/-- A nested call of `renderCurrentStage` after `currentStageIndex++`. -/
theorem rendersFrom_next (renderNext : Session → Outcome) (fuel : Nat) (s x : Session)
    (h : ∀ y : Session, y.rendersFrom y.currentStageIndex fuel (renderNext y))
    (hs : x.stages = s.stages) (hi : s.currentStageIndex + 1 ≤ x.currentStageIndex) :
    s.rendersFrom (s.currentStageIndex + 1) fuel (renderNext x) ∧
    s.currentStageIndex < (renderNext x).state.currentStageIndex := by
  obtain ⟨h1, h2, h3⟩ := h x
  refine ⟨⟨h1.trans hs, by omega, fun hf => h3 ?_⟩, by omega⟩
  rw [hs]
  omega

theorem finishTest_stages (s : Session) :
    (finishTest s).stages = s.stages ∧
    (finishTest s).currentStageIndex = s.currentStageIndex := ⟨rfl, rfl⟩

theorem rendersFrom_renderLetterStage (renderNext : Session → Outcome) (fuel : Nat)
    (stage : Stage) (s : Session)
    (h : ∀ y : Session, y.rendersFrom y.currentStageIndex fuel (renderNext y)) :
    s.rendersFrom (s.currentStageIndex + 1) fuel (renderLetterStage renderNext stage s) := by
  unfold renderLetterStage
  split_ifs
  · exact (rendersFrom_next renderNext fuel s _ h (by rfl) (by exact le_refl _)).1
  · exact rendersFrom_returned _ _ _ _ rfl (le_refl _)
  · exact rendersFrom_returned _ _ _ _ rfl (le_refl _)

theorem rendersFrom_renderSentenceStage (renderNext : Session → Outcome) (fuel : Nat)
    (stage : Stage) (s : Session)
    (h : ∀ y : Session, y.rendersFrom y.currentStageIndex fuel (renderNext y)) :
    s.rendersFrom (s.currentStageIndex + 1) fuel (renderSentenceStage renderNext stage s) := by
  unfold renderSentenceStage
  split
  · exact (rendersFrom_next renderNext fuel s _ h (by rfl) (by exact le_refl _)).1
  · exact rendersFrom_returned _ _ _ _ rfl (le_refl _)

theorem rendersFrom_prepareWordList (renderNext : Session → Outcome) (fuel : Nat)
    (stage : Stage) (s : Session)
    (h : ∀ y : Session, y.rendersFrom y.currentStageIndex fuel (renderNext y)) :
    s.rendersFrom (s.currentStageIndex + 1) fuel (prepareWordList renderNext stage s) := by
  simp only [prepareWordList]
  split
  · exact (rendersFrom_next renderNext fuel s _ h (by rfl) (by exact le_refl _)).1
  · exact rendersFrom_returned _ _ _ _ rfl (le_refl _)

theorem rendersFrom_renderWordListStage (renderNext : Session → Outcome) (fuel : Nat)
    (s : Session)
    (h : ∀ y : Session, y.rendersFrom y.currentStageIndex fuel (renderNext y)) :
    s.rendersFrom (s.currentStageIndex + 1) fuel (renderWordListStage renderNext s) := by
  unfold renderWordListStage
  split_ifs
  · exact (rendersFrom_next renderNext fuel s _ h (by rfl) (by exact le_refl _)).1
  · exact rendersFrom_returned _ _ _ _ rfl (le_refl _)

theorem prepareReadingPassage_stages (stage : Stage) (s : Session) :
    (prepareReadingPassage stage s).stages = s.stages ∧
    (prepareReadingPassage stage s).currentStageIndex = s.currentStageIndex := by
  simp only [prepareReadingPassage]
  split
  · exact ⟨rfl, rfl⟩
  · exact ⟨rfl, rfl⟩

theorem rendersFrom_renderReadingPassageStage (index fuel : Nat) (s : Session) :
    s.rendersFrom index fuel (renderReadingPassageStage s) := by
  unfold renderReadingPassageStage
  split
  · exact rendersFrom_raised _ _ _ _ rfl (le_refl _)
  · split
    · exact rendersFrom_returned _ _ _ _ rfl (le_refl _)
    · split_ifs
      · exact rendersFrom_raised _ _ _ _ rfl (le_refl _)
      · exact rendersFrom_returned _ _ _ _ rfl (le_refl _)

/-- Sequencing: the second call starts from the state that the first has left. -/
theorem rendersFrom_andThen (s : Session) (fuel : Nat) (o : Outcome)
    (f : Session → Outcome) (ho : s.rendersFrom (s.currentStageIndex + 1) fuel o)
    (hf : ∀ x : Session, x.rendersFrom (x.currentStageIndex + 1) fuel (f x)) :
    s.rendersFrom (s.currentStageIndex + 1) fuel (o.andThen f) := by
  obtain ⟨h1, h2, h3⟩ := ho
  cases o with
  | returned x =>
    obtain ⟨k1, k2, k3⟩ := hf x
    refine ⟨k1.trans h1, le_trans h2 k2, fun hfuel => k3 ?_⟩
    have e : x.stages = s.stages := h1
    have e2 : s.currentStageIndex ≤ x.currentStageIndex := h2
    rw [e]
    omega
  | raised x => exact ⟨h1, h2, h3⟩
  | exhausted x => exact ⟨h1, h2, h3⟩

theorem rendersFrom_andThen_le (o : Outcome) (f : Session → Outcome)
    (hf : ∀ x : Session, x.currentStageIndex ≤ (f x).state.currentStageIndex) :
    o.state.currentStageIndex ≤ (o.andThen f).state.currentStageIndex := by
  cases o with
  | returned x => exact hf x
  | raised x => exact le_refl _
  | exhausted x => exact le_refl _

theorem rendersFrom_weaken (s : Session) (fuel : Nat) (o : Outcome)
    (hlt : s.currentStageIndex < s.stages.length)
    (h : s.rendersFrom (s.currentStageIndex + 1) fuel o) :
    s.rendersFrom s.currentStageIndex (fuel + 1) o :=
  ⟨h.1, h.2.1, fun hf => h.2.2 (by omega)⟩

/-- A call of `renderCurrentStage` keeps the test definition, does not decrease the stage
index, and does not run out of fuel when the fuel exceeds the number of stages from the
stage index on. -/
theorem rendersFrom_renderCurrentStageFuel (fuel : Nat) :
    ∀ s : Session, s.rendersFrom s.currentStageIndex fuel (renderCurrentStageFuel fuel s) := by
  induction fuel with
  | zero =>
    intro s
    exact ⟨rfl, le_refl _, fun h => absurd h (Nat.not_lt_zero _)⟩
  | succ fuel ih =>
    intro s
    simp only [renderCurrentStageFuel, Bool.false_eq_true, if_false]
    by_cases h : s.currentStageIndex ≥ s.stages.length
    · rw [if_pos h]
      exact rendersFrom_returned _ _ _ _ rfl (le_refl _)
    · rw [if_neg h]
      have hlt : s.currentStageIndex < s.stages.length := by omega
      split
      · exact rendersFrom_raised _ _ _ _ rfl (le_refl _)
      · next stage _ =>
        split
        · exact rendersFrom_weaken s fuel _ hlt
            (rendersFrom_renderLetterStage _ fuel stage { s with setupDone := false } ih)
        · exact rendersFrom_weaken s fuel _ hlt
            (rendersFrom_renderSentenceStage _ fuel stage { s with setupDone := false } ih)
        · exact rendersFrom_weaken s fuel _ hlt
            (rendersFrom_andThen { s with setupDone := false } fuel _ _
              (rendersFrom_prepareWordList _ fuel stage { s with setupDone := false } ih)
              (fun x => rendersFrom_renderWordListStage _ fuel x ih))
        · obtain ⟨e1, e2⟩ := prepareReadingPassage_stages stage { s with setupDone := false }
          obtain ⟨k1, k2, k3⟩ := rendersFrom_renderReadingPassageStage s.currentStageIndex
            (fuel + 1) (prepareReadingPassage stage { s with setupDone := false })
          refine ⟨k1.trans e1, ?_, ?_⟩
          · rw [e2] at k2
            exact k2
          · intro hf
            apply k3
            rw [e1]
            exact hf
        · exact rendersFrom_weaken s fuel _ hlt
            (rendersFrom_next _ fuel s _ ih (by rfl) (by exact le_refl _)).1

theorem renderCurrentStageFuel_past_end (fuel : Nat) (s : Session)
    (h : s.currentStageIndex ≥ s.stages.length) :
    renderCurrentStageFuel (fuel + 1) s = Outcome.returned (finishTest s) := by
  simp only [renderCurrentStageFuel, if_pos h]

/-- Claim C24, as amended: when `renderCurrentStage` enters a word-list stage that has no
word list for the selected `wordListLevel`, the session is not aborted: `prepareWordList`
increments the stage index and calls `renderCurrentStage`, which renders the next stage,
or finalises the test when there is none, and the word-list stage is skipped: when the
call that entered it ends, the stage index is above that of the word-list stage.  Both
the nested call and the call that entered the stage end within their fuel.  What
`renderWordListStage` does after `prepareWordList` has returned is part of the outcome,
as it is in the source. -/
theorem missing_word_list_skips_stage (s : Session) (stage : Stage)
    (hstage : s.stages[s.currentStageIndex]? = some stage)
    (htype : stage.type = StageType.word_list)
    (hmissing : stage.wordLists.lookup s.wordListLevel = none) :
    prepareWordList renderCurrentStage stage s =
      renderCurrentStage { s with currentStageIndex := s.currentStageIndex + 1 } ∧
    renderCurrentStage s =
      (renderCurrentStageFuel s.stages.length
        { s with setupDone := false, currentStageIndex := s.currentStageIndex + 1 }).andThen
        (renderWordListStage (fun x => renderCurrentStageFuel s.stages.length x)) ∧
    (∀ x : Session, renderCurrentStageFuel s.stages.length
        { s with setupDone := false, currentStageIndex := s.currentStageIndex + 1 } ≠
      Outcome.exhausted x) ∧
    (s.stages.length ≤ s.currentStageIndex + 1 →
      renderCurrentStageFuel s.stages.length
          { s with setupDone := false, currentStageIndex := s.currentStageIndex + 1 } =
        Outcome.returned
          (finishTest
            { s with setupDone := false, currentStageIndex := s.currentStageIndex + 1 })) ∧
    (∀ x : Session, renderCurrentStage s ≠ Outcome.exhausted x) ∧
    s.currentStageIndex < (renderCurrentStage s).state.currentStageIndex ∧
    (renderCurrentStage s).state.stages = s.stages := by
  have hlt : s.currentStageIndex < s.stages.length := by
    by_contra h
    rw [List.getElem?_eq_none (by omega)] at hstage
    cases hstage
  have hnot : ¬ s.currentStageIndex ≥ s.stages.length := by omega
  have hwhole : renderCurrentStage s =
      (renderCurrentStageFuel s.stages.length
        { s with setupDone := false, currentStageIndex := s.currentStageIndex + 1 }).andThen
        (renderWordListStage (fun x => renderCurrentStageFuel s.stages.length x)) := by
    simp only [renderCurrentStage, renderCurrentStageFuel, if_neg hnot, hstage, htype,
      Bool.false_eq_true, if_false, prepareWordList, hmissing]
  obtain ⟨-, n2, n3⟩ := rendersFrom_renderCurrentStageFuel s.stages.length
    { s with setupDone := false, currentStageIndex := s.currentStageIndex + 1 }
  obtain ⟨w1, -, w3⟩ := rendersFrom_renderCurrentStageFuel (s.stages.length + 1) s
  have hfuel : s.stages.length - (s.currentStageIndex + 1) < s.stages.length := by omega
  have hnested : s.currentStageIndex + 1 ≤
      (renderCurrentStageFuel s.stages.length
        { s with setupDone := false,
                 currentStageIndex := s.currentStageIndex + 1 }).state.currentStageIndex := n2
  have hthen := (rendersFrom_andThen_le
    (renderCurrentStageFuel s.stages.length
      { s with setupDone := false, currentStageIndex := s.currentStageIndex + 1 })
    (renderWordListStage (fun x => renderCurrentStageFuel s.stages.length x))
    (fun x => (rendersFrom_renderWordListStage _ s.stages.length x
      (rendersFrom_renderCurrentStageFuel s.stages.length)).2.1))
  refine ⟨?_, hwhole, n3 hfuel, ?_, w3 (by omega), ?_, w1⟩
  · simp only [prepareWordList, hmissing]
  · intro hlast
    obtain ⟨k, hk⟩ : ∃ k, s.stages.length = k + 1 := ⟨s.stages.length - 1, by omega⟩
    rw [hk]
    exact renderCurrentStageFuel_past_end k _ (le_trans hlast (le_refl _))
  · rw [hwhole]
    omega

/-- Instance of claim C24: in the sample test the word-list stage has no words for
`level_2`, the level reached by the three sentences; entering it from the section modal
ends within the fuel, with the stage index past the word-list stage, which is stage 1. -/
theorem missing_word_list_skips_stage_witness :
    sampleAssessmentAfterSentences.wordListLevel = Level.level_2 ∧
    sampleShortWordStage.wordLists.lookup Level.level_2 = none ∧
    (∀ x : Session,
      nextStageFromModal sampleAssessmentAfterSentences ≠ Outcome.exhausted x) ∧
    1 < (nextStageFromModal sampleAssessmentAfterSentences).state.currentStageIndex :=
  ⟨by decide, by decide,
   (missing_word_list_skips_stage
      { sampleAssessmentAfterSentences with modalShown := false, currentStageIndex := 1,
                                            currentSubIndex := 0 }
      sampleShortWordStage rfl rfl (by decide)).2.2.2.2.1,
   (missing_word_list_skips_stage
      { sampleAssessmentAfterSentences with modalShown := false, currentStageIndex := 1,
                                            currentSubIndex := 0 }
      sampleShortWordStage rfl rfl (by decide)).2.2.2.2.2.1⟩

/-- Claim C24 fails as stated: in the sample test, entering the word-list stage without
words for `level_2` does not abort the session.  The handler returns; the passage of the
next stage has been set up, the passage level has been recomputed from `pre_primer` to
`level_1`, the stage index is past the last stage and a result record has been handed
over. -/
theorem missing_word_list_not_fatal :
    sampleAssessmentAfterSentences.stages[1]? = some sampleShortWordStage ∧
    sampleShortWordStage.wordLists.lookup sampleAssessmentAfterSentences.wordListLevel =
      none ∧
    sampleAssessmentAfterSentences.results = [] ∧
    sampleAssessmentAfterSentences.passageLevel = Level.pre_primer ∧
    sampleAssessmentAfterSentences.currentPassageData = none ∧
    (∃ x, nextStageFromModal sampleAssessmentAfterSentences = Outcome.returned x) ∧
    (nextStageFromModal sampleAssessmentAfterSentences).state.currentPassageData =
      samplePassageStage.passages.head? ∧
    (nextStageFromModal sampleAssessmentAfterSentences).state.passageWords =
      buildWords "the cat sat".toList ∧
    (nextStageFromModal sampleAssessmentAfterSentences).state.passageLevel = Level.level_1 ∧
    (nextStageFromModal sampleAssessmentAfterSentences).state.currentStageIndex = 3 ∧
    (nextStageFromModal sampleAssessmentAfterSentences).state.results.length = 1 :=
  ⟨rfl, by decide, rfl, rfl, rfl, ⟨_, rfl⟩, by decide, by decide, by decide, by decide,
    by decide⟩

/-! ### A timeout and a late transcript in the letter stage -/

/-- Claim C25, at the name of the first letter of the sample letter stage: the timeout
logs the one record of the step and moves to the sound of the letter; the final
transcript `a` that comes before the sound is rendered is logged as a `'correct'` record
of the sound and schedules a second advance, so that once the two closures have run the
stage is at the name of the second letter: it has advanced twice, and the sound of the
first letter was rendered and left without a resolution of its own. -/
theorem letter_step_advances_twice :
    sampleLetterSession.inStage sampleLetterStage ∧
    sampleLetterSession.letterPosition = (LetterStep.name, 0) ∧
    sampleLetterSession.letterLogs = [] ∧
    (handleTimeout sampleLetterSession).state.letterPosition = (LetterStep.sound, 0) ∧
    (handleTimeout sampleLetterSession).state.timers =
      [Callback.renderLetter sampleLetterStage] ∧
    (runEvents sampleLetterSession
        [Event.timeout, Event.transcript "a".toList false]).timers =
      [Callback.renderLetter sampleLetterStage, Callback.letterAdvance sampleLetterStage] ∧
    (runEvents sampleLetterSession
        [Event.timeout, Event.transcript "a".toList false, Event.timer 0,
         Event.timer 0]).letterLogs =
      [{ letter := some "A".toList, step := LetterStep.name,
         spoken := "(no response)".toList, status := LogStatus.no_response },
       { letter := some "A".toList, step := LetterStep.sound, spoken := "A".toList,
         status := LogStatus.correct }] ∧
    (runEvents sampleLetterSession
        [Event.timeout, Event.transcript "a".toList false, Event.timer 0,
         Event.timer 0]).letterPosition = (LetterStep.name, 1) ∧
    (runEvents sampleLetterSession
        [Event.timeout, Event.transcript "a".toList false, Event.timer 0,
         Event.timer 0]).timers = [] := by
  refine ⟨⟨rfl, rfl⟩, rfl, rfl, rfl, rfl, rfl, ?_, rfl, rfl⟩
  decide

/-! ### Skipped questions -/

theorem finishTest_results (s : Session) :
    (finishTest s).results = s.results ++
      [{ placedLevel := finalLevelOf s.passageLevel
           (oralClassificationOf (oralErrorsOf s.passageWords))
           (compClassificationOf (compPercentOf
             (s.comprehensionLogs.countP (fun l => decide (l.status = LogStatus.correct)))
             s.comprehensionLogs.length)),
         oralErrors := oralErrorsOf s.passageWords,
         oralClassification := oralClassificationOf (oralErrorsOf s.passageWords),
         comprehensionPercent := compPercentOf
           (s.comprehensionLogs.countP (fun l => decide (l.status = LogStatus.correct)))
           s.comprehensionLogs.length,
         comprehensionClassification := compClassificationOf (compPercentOf
           (s.comprehensionLogs.countP (fun l => decide (l.status = LogStatus.correct)))
           s.comprehensionLogs.length),
         letters := s.letterLogs, sentences := s.sentenceLogs, words := s.wordLogs,
         comprehension := s.comprehensionLogs }] := by
  simp only [finishTest, List.countP_eq_length_filter]

/-- The click on `skip-btn` appends nothing to any evidence log. -/
theorem skipClick_logs (s : Session) : (skipClick s).state.logs = s.logs :=
  logs_renderReadingPassageStage _

/-- Claim C26, at the sample passage with its two questions: the first question is
skipped with the skip button, the second is answered correctly with `sat`, and the
delayed advance finalises the test.  The skip has logged nothing, so `finishTest` counts
one answer of one and hands over the percentage 100, where one correct answer of the two
questions is 50 percent. -/
theorem skipped_question_not_counted :
    sampleQuestionSession.inStage samplePassageStage ∧
    sampleQuestionSession.passageMode = PassageMode.questions ∧
    sampleQuestionSession.currentPassageData.map (fun d => d.questions.length) = some 2 ∧
    (skipClick sampleQuestionSession).state.comprehensionLogs = [] ∧
    (runEvents sampleQuestionSession
      [Event.skip, Event.transcript "sat".toList false, Event.timer 0]).comprehensionLogs =
      [{ question := "What did the cat do?".toList, expected := "sat, sit".toList,
         spoken := "sat".toList, status := LogStatus.correct }] ∧
    (runEvents sampleQuestionSession
      [Event.skip, Event.transcript "sat".toList false, Event.timer 0]).results.map
        (fun r => r.comprehensionPercent) = [100] ∧
    compPercentOf 1 2 = 50 := by
  have h100 : compPercentOf 1 1 = 100 := by decide
  have h50 : compPercentOf 1 2 = 50 := by decide
  have hres : (runEvents sampleQuestionSession
      [Event.skip, Event.transcript "sat".toList false, Event.timer 0]).results.map
        (fun r => r.comprehensionPercent) = [compPercentOf 1 1] := rfl
  rw [hres, h100]
  exact ⟨⟨rfl, rfl⟩, rfl, rfl, rfl, by decide, rfl, h50⟩

/-! ### Past the last question -/

/-- In questions mode with the question index at or past the number of questions,
`renderReadingPassageStage` raises: it calls `evaluatePassagePerformance`, which is
defined nowhere.  The state is left as it was, without a result record. -/
theorem renderReadingPassageStage_past_last (s : Session) (data : PassageData)
    (hdata : s.currentPassageData = some data)
    (hmode : s.passageMode = PassageMode.questions)
    (hlast : s.currentSubIndex ≥ data.questions.length) :
    renderReadingPassageStage s = Outcome.raised s := by
  simp only [renderReadingPassageStage, hdata, hmode, if_pos hlast]

/-- Claim C27, at the last question of the sample passage and at the sample passage
without questions: the click on `skip-btn` at the last question, and the click on
`finish-btn` of the passage without questions, run `renderReadingPassageStage` with the
question index equal to the number of questions; the call raises and no result record
is handed over, whereas answering the last question finalises the test with one. -/
theorem skip_last_question_raises :
    sampleLastQuestionSession.inStage samplePassageStage ∧
    sampleLastQuestionSession.passageMode = PassageMode.questions ∧
    sampleLastQuestionSession.currentSubIndex = 1 ∧
    sampleLastQuestionSession.currentPassageData.map (fun d => d.questions.length) = some 2 ∧
    sampleLastQuestionSession.results = [] ∧
    skipClick sampleLastQuestionSession =
      Outcome.raised { sampleLastQuestionSession with currentSubIndex := 2 } ∧
    (skipClick sampleLastQuestionSession).state.results = [] ∧
    (runEvents sampleLastQuestionSession
      [Event.transcript "sat".toList false, Event.timer 0]).results.length = 1 ∧
    (runEvents sampleLastQuestionSession [Event.timeout, Event.timer 0]).results.length = 1 ∧
    sampleBarePassageSession.currentPassageData.map (fun d => d.questions.length) = some 0 ∧
    finishReadingClick sampleBarePassageSession =
      Outcome.raised { sampleBarePassageSession with passageMode := PassageMode.questions,
                                                     currentSubIndex := 0 } ∧
    (finishReadingClick sampleBarePassageSession).state.results = [] :=
  ⟨⟨rfl, rfl⟩, rfl, rfl, rfl, rfl,
   renderReadingPassageStage_past_last _ _ rfl rfl (by decide), rfl, by decide, by decide,
   rfl, renderReadingPassageStage_past_last _ _ rfl rfl (by decide), rfl⟩

/-! ### Invariants of the aligner -/

theorem alignTokens_preserves (P : Reading → Prop)
    (hstep : ∀ (st : Reading) (spoken : Str), P st → P (afterToken st spoken))
    (toks : List Str) : ∀ st : Reading, P st → P (alignTokens st toks).1 := by
  induction toks with
  | nil => intro st h; exact h
  | cons spoken more ih =>
    intro st h
    simp only [alignTokens]
    split
    · exact h
    · next st1 h1 =>
      apply ih
      rw [← afterToken_of_alignToken st st1 spoken h1]
      exact hstep st spoken h

theorem runChunks_preserves (P : Reading → Prop)
    (hstep : ∀ (st : Reading) (spoken : Str), P st → P (afterToken st spoken))
    (chunks : List Str) : ∀ st : Reading, P st → P (runChunks st chunks) := by
  induction chunks with
  | nil => intro st h; exact h
  | cons text more ih =>
    intro st h
    simp only [runChunks, List.foldl_cons]
    exact ih _ (alignTokens_preserves P hstep (splitWs text) st h)

theorem splitChar_ne_nil (sep : Char) (s : Str) : splitChar sep s ≠ [] := by
  induction s with
  | nil => simp [splitChar]
  | cons c rest ih =>
    simp only [splitChar]
    split_ifs
    · simp
    · split <;> simp

theorem length_buildWords_pos (text : Str) : 0 < (buildWords text).length := by
  unfold buildWords
  rw [List.length_map]
  exact List.length_pos.mpr (splitChar_ne_nil _ _)

theorem statusAt_buildWords (text : Str) (i : Nat) (h : i < (buildWords text).length) :
    statusAt (buildWords text) i = some Status.pending := by
  unfold statusAt
  rw [List.getElem?_eq_getElem h]
  simp [buildWords]

theorem resolvedUpToCursor_renderSentence (text : Str) : (renderSentence text).resolvedUpToCursor := by
  refine ⟨le_refl _, ?_, ?_, ?_⟩
  · simp only [renderSentence]
    omega
  · intro i hi
    simp only [renderSentence] at hi ⊢
    rw [statusAt_buildWords text i hi]
    constructor
    · intro _
      omega
    · intro _
      rfl
  · intro h
    simp only [renderSentence] at h
    omega

theorem resolvedUpToCursor_afterToken (st : Reading) (spoken : Str) (h : st.resolvedUpToCursor) :
    (afterToken st spoken).resolvedUpToCursor := by
  obtain ⟨h1, h2, h3, h4⟩ := h
  rcases afterToken_cases st spoken with he | ⟨idx, a1, -, a3, a4, a5⟩
  · rw [he]
    exact ⟨h1, h2, h3, h4⟩
  · rw [a5]
    have hc : ((st.lastMarkedWordIndex + 1).toNat : Int) = st.lastMarkedWordIndex + 1 :=
      Int.toNat_of_nonneg (by omega)
    have hstat : ∀ j : Nat,
        statusAt (setStatus (markSkipped (idx - (st.lastMarkedWordIndex + 1).toNat)
          (st.lastMarkedWordIndex + 1).toNat st.passageWords) idx Status.correct) j =
        if j = idx then some Status.correct
        else if (st.lastMarkedWordIndex + 1).toNat ≤ j ∧ j < idx ∧
            statusAt st.passageWords j = some Status.pending
        then some Status.incorrect else statusAt st.passageWords j := by
      intro j
      rw [statusAt_setStatus]
      by_cases hj : j = idx
      · rw [if_pos hj, if_pos hj, statusAt_markSkipped]
        split_ifs <;> simp [a4]
      · rw [if_neg hj, if_neg hj, statusAt_markSkipped]
        have e : (st.lastMarkedWordIndex + 1).toNat +
            (idx - (st.lastMarkedWordIndex + 1).toNat) = idx := by omega
        rw [e]
    refine ⟨by simp only; omega, ?_, ?_, ?_⟩
    · simp only [length_setStatus, length_markSkipped]
      omega
    · intro j hj
      simp only [length_setStatus, length_markSkipped] at hj
      simp only
      rw [hstat j]
      have hinv := h3 j hj
      by_cases hji : j = idx
      · rw [if_pos hji]
        constructor
        · intro hx
          cases hx
        · intro hx
          omega
      · rw [if_neg hji]
        by_cases hlt : j < idx
        · by_cases hge : (st.lastMarkedWordIndex + 1).toNat ≤ j
          · have hp : statusAt st.passageWords j = some Status.pending :=
              hinv.mpr (by omega)
            rw [if_pos ⟨hge, hlt, hp⟩]
            constructor
            · intro hx
              cases hx
            · intro hx
              omega
          · rw [if_neg (fun hx => hge hx.1)]
            constructor
            · intro hx
              have := hinv.mp hx
              omega
            · intro hx
              omega
        · rw [if_neg (fun hx => hlt hx.2.1)]
          constructor
          · intro _
            omega
          · intro _
            exact hinv.mpr (by omega)
    · intro _
      simp only [Int.toNat_ofNat]
      rw [hstat idx, if_pos rfl]

/-- The aligner keeps the prefix invariant from a freshly built target sequence on. -/
theorem resolvedUpToCursor_run (text : Str) (chunks toks : List Str) :
    (alignTokens (runChunks (renderSentence text) chunks) toks).1.resolvedUpToCursor :=
  alignTokens_preserves _ resolvedUpToCursor_afterToken toks _
    (runChunks_preserves _ resolvedUpToCursor_afterToken chunks _
      (resolvedUpToCursor_renderSentence text))

/-- Claim C28 (aligner prefix invariant): start from the target sequence freshly built
from any text, all words pending, and cursor `-1`, and let the aligner handle any
sequence of transcripts and then any tokens of a further transcript.  A word is pending
if and only if its index is greater than the cursor; hence no word is pending if and
only if the cursor is the last index, and then the last word is `'correct'`. -/
theorem pending_iff_after_cursor (text : Str) (chunks toks : List Str) :
    (∀ i : Nat,
      i < (alignTokens (runChunks (renderSentence text) chunks) toks).1.passageWords.length →
      (statusAt (alignTokens (runChunks (renderSentence text) chunks) toks).1.passageWords i =
          some Status.pending ↔
        (alignTokens (runChunks (renderSentence text) chunks) toks).1.lastMarkedWordIndex <
          i)) ∧
    ((∀ w ∈ (alignTokens (runChunks (renderSentence text) chunks) toks).1.passageWords,
        w.status ≠ Status.pending) ↔
      (alignTokens (runChunks (renderSentence text) chunks) toks).1.lastMarkedWordIndex =
        ((alignTokens (runChunks (renderSentence text) chunks) toks).1.passageWords.length :
          Int) - 1) ∧
    ((∀ w ∈ (alignTokens (runChunks (renderSentence text) chunks) toks).1.passageWords,
        w.status ≠ Status.pending) →
      statusAt (alignTokens (runChunks (renderSentence text) chunks) toks).1.passageWords
        ((alignTokens (runChunks (renderSentence text) chunks) toks).1.passageWords.length - 1)
        = some Status.correct) := by
  obtain ⟨h1, h2, h3, h4⟩ := resolvedUpToCursor_run text chunks toks
  have hlen : 0 <
      (alignTokens (runChunks (renderSentence text) chunks) toks).1.passageWords.length := by
    rw [(alignTokens_bounds toks _).2.1, (runChunks_bounds chunks _).2.1]
    exact length_buildWords_pos text
  generalize (alignTokens (runChunks (renderSentence text) chunks) toks).1 = st at *
  have hlast : (∀ w ∈ st.passageWords, w.status ≠ Status.pending) →
      st.lastMarkedWordIndex = (st.passageWords.length : Int) - 1 := by
    intro hno
    have hi : st.passageWords.length - 1 < st.passageWords.length := by omega
    have hnp : statusAt st.passageWords (st.passageWords.length - 1) ≠
        some Status.pending := by
      unfold statusAt
      rw [List.getElem?_eq_getElem hi]
      intro hx
      simp only [Option.map_some', Option.some.injEq] at hx
      exact hno _ (List.getElem_mem _) hx
    have hnot : ¬ st.lastMarkedWordIndex < ((st.passageWords.length - 1 : Nat) : Int) :=
      fun hx => hnp ((h3 _ hi).mpr hx)
    omega
  refine ⟨h3, ⟨hlast, ?_⟩, ?_⟩
  · intro hc w hw hp
    obtain ⟨i, hi, rfl⟩ := List.getElem_of_mem hw
    have hs : statusAt st.passageWords i = some Status.pending := by
      unfold statusAt
      rw [List.getElem?_eq_getElem hi]
      simp only [Option.map_some', hp]
    have := (h3 i hi).mp hs
    omega
  · intro hno
    have hc := hlast hno
    have h0 : 0 ≤ st.lastMarkedWordIndex := by omega
    have ht : st.lastMarkedWordIndex.toNat = st.passageWords.length - 1 := by omega
    rw [← ht]
    exact h4 h0

/-- Instance of claim C28: the text `the cat sat` with the transcript `cat sat` ends with
no pending word, the cursor at the last index `2` and the last word `'correct'`; after
the transcript `cat` alone the cursor is `1` and only the word at index `2` is
pending. -/
theorem pending_iff_after_cursor_witness :
    (runChunks (renderSentence "the cat sat".toList) ["cat sat".toList]).lastMarkedWordIndex
      = 2 ∧
    statusAt (runChunks (renderSentence "the cat sat".toList) ["cat sat".toList]).passageWords
      2 = some Status.correct ∧
    (runChunks (renderSentence "the cat sat".toList) ["cat".toList]).lastMarkedWordIndex = 1 ∧
    (runChunks (renderSentence "the cat sat".toList) ["cat".toList]).passageWords.map
      (fun w => w.status) = [Status.incorrect, Status.correct, Status.pending] := by
  have h := pending_iff_after_cursor "the cat sat".toList ["cat sat".toList] []
  exact ⟨h.2.1.mp (by decide), h.2.2 (by decide), by decide, by decide⟩

theorem checkMatch_empty_target (spoken : Str) : checkMatch spoken [] = some false := by
  unfold checkMatch
  rw [if_pos (Or.inr rfl)]

theorem cleanAt_setStatus (words : List Word) (i j : Nat) (x : Status) :
    cleanAt (setStatus words i x) j = cleanAt words j := by
  unfold cleanAt
  rw [getElem?_setStatus]
  split
  · next h =>
    subst h
    cases words[j]? <;> rfl
  · rfl

theorem cleanAt_markSkipped (n k : Nat) (words : List Word) (j : Nat) :
    cleanAt (markSkipped n k words) j = cleanAt words j := by
  induction n generalizing k words with
  | zero => rfl
  | succ n ih =>
    simp only [markSkipped]
    rw [ih]
    split
    · exact cleanAt_setStatus _ _ _ _
    · rfl

/-- When a token changes the attempt, the word that becomes `'correct'` is one that
`checkMatch` accepts for the token. -/
theorem afterToken_cases_match (st : Reading) (spoken : Str) :
    afterToken st spoken = st ∨
    ∃ idx : Nat, idx < st.passageWords.length ∧
      (∃ c : Str, cleanAt st.passageWords idx = some c ∧ checkMatch spoken c = some true) ∧
      afterToken st spoken =
        { passageWords := setStatus
            (markSkipped (idx - (st.lastMarkedWordIndex + 1).toNat)
              (st.lastMarkedWordIndex + 1).toNat st.passageWords) idx Status.correct,
          lastMarkedWordIndex := idx } := by
  unfold afterToken alignToken
  split_ifs with hb
  · left; rfl
  · simp only
    split
    · left; rfl
    · left; rfl
    · next targetIdx hscan =>
      right
      obtain ⟨off, -, -, hlt, w, hw, -, hm⟩ := scanWindow_found _ _ _ _ _ hscan
      refine ⟨targetIdx, hlt, ⟨w.clean, ?_, hm⟩, rfl⟩
      simp [cleanAt, hw]

theorem emptyNeverCorrect_afterToken (st : Reading) (spoken : Str)
    (h : st.emptyNeverCorrect) : (afterToken st spoken).emptyNeverCorrect := by
  rcases afterToken_cases_match st spoken with he | ⟨idx, -, ⟨c, hc, hm⟩, he⟩
  · rw [he]
    exact h
  · rw [he]
    intro j hj
    simp only [cleanAt_setStatus, cleanAt_markSkipped] at hj
    simp only
    rw [statusAt_setStatus]
    by_cases hji : j = idx
    · subst hji
      rw [hc] at hj
      simp only [Option.some.injEq] at hj
      subst hj
      rw [checkMatch_empty_target] at hm
      cases hm
    · rw [if_neg hji, statusAt_markSkipped]
      split_ifs
      · intro hx
        cases hx
      · exact h j hj

theorem emptyNeverCorrect_renderSentence (text : Str) :
    (renderSentence text).emptyNeverCorrect := by
  intro i _ hs
  by_cases hi : i < (buildWords text).length
  · have := statusAt_buildWords text i hi
    simp only [renderSentence] at hs
    rw [this] at hs
    cases hs
  · simp only [renderSentence, statusAt] at hs
    rw [List.getElem?_eq_none (Nat.le_of_not_lt hi)] at hs
    cases hs

theorem emptyNeverCorrect_run (text : Str) (chunks toks : List Str) :
    (alignTokens (runChunks (renderSentence text) chunks) toks).1.emptyNeverCorrect :=
  alignTokens_preserves _ emptyNeverCorrect_afterToken toks _
    (runChunks_preserves _ emptyNeverCorrect_afterToken chunks _
      (emptyNeverCorrect_renderSentence text))

theorem emptyNeverCorrect_mem (st : Reading) (h : st.emptyNeverCorrect) :
    ∀ w ∈ st.passageWords, w.clean = [] → w.status ≠ Status.correct := by
  intro w hw hc hs
  obtain ⟨i, hi, rfl⟩ := List.getElem_of_mem hw
  refine h i ?_ ?_
  · unfold cleanAt
    rw [List.getElem?_eq_getElem hi]
    simp only [Option.map_some', hc]
  · unfold statusAt
    rw [List.getElem?_eq_getElem hi]
    simp only [Option.map_some', hs]

theorem clean_markPendingIncorrect (words : List Word) :
    ∀ w ∈ markPendingIncorrect words, ∃ v ∈ words, v.clean = w.clean ∧
      (w.status = Status.correct → v.status = Status.correct) := by
  intro w hw
  unfold markPendingIncorrect at hw
  rw [List.mem_map] at hw
  obtain ⟨v, hv, rfl⟩ := hw
  refine ⟨v, hv, ?_, ?_⟩
  · split <;> rfl
  · split
    · intro hx
      cases hx
    · exact id

/-- Claim C29 (a word with an empty normalized form): `checkMatch` returns false for an
empty target; starting from the target sequence freshly built from any text and cursor
`-1`, after any sequence of transcripts and any tokens of a further transcript, and
also after the pending words have been marked by a timeout, no word whose normalized
form is empty is `'correct'`, so that each such word is among the words that
`finishTest` counts as oral reading errors. -/
theorem empty_form_never_correct (text : Str) (chunks toks : List Str) (spoken : Str) :
    checkMatch spoken [] = some false ∧
    (∀ w ∈ (alignTokens (runChunks (renderSentence text) chunks) toks).1.passageWords,
      w.clean = [] → w.status ≠ Status.correct) ∧
    (∀ w ∈ markPendingIncorrect
        (alignTokens (runChunks (renderSentence text) chunks) toks).1.passageWords,
      w.clean = [] → w.status ≠ Status.correct) ∧
    (alignTokens (runChunks (renderSentence text) chunks) toks).1.passageWords.countP
        (fun w => decide (w.clean = [])) ≤
      oralErrorsOf (alignTokens (runChunks (renderSentence text) chunks) toks).1.passageWords
    := by
  have hmem := emptyNeverCorrect_mem _ (emptyNeverCorrect_run text chunks toks)
  refine ⟨checkMatch_empty_target spoken, hmem, ?_, ?_⟩
  · intro w hw hc hs
    obtain ⟨v, hv, hvc, hvs⟩ := clean_markPendingIncorrect _ w hw
    exact hmem v hv (hvc.trans hc) (hvs hs)
  · unfold oralErrorsOf
    rw [← List.countP_eq_length_filter]
    apply List.countP_mono_left
    intro w hw hc
    simp only [decide_eq_true_eq] at hc ⊢
    exact hmem w hw hc

/-- Instance of claim C29: in the text `the  cat - sat`, with two spaces after `the`, the
words at index `1` and `3` have an empty normalized form; after the transcript
`the cat sat` every other word is correct and these two are incorrect: they are the two
oral reading errors. -/
theorem empty_form_never_correct_witness :
    (renderSentence "the  cat - sat".toList).passageWords.map (fun w => w.clean) =
      ["the".toList, [], "cat".toList, [], "sat".toList] ∧
    (runChunks (renderSentence "the  cat - sat".toList)
        ["the cat sat".toList]).passageWords.map (fun w => w.status) =
      [Status.correct, Status.incorrect, Status.correct, Status.incorrect, Status.correct] ∧
    2 ≤ oralErrorsOf (runChunks (renderSentence "the  cat - sat".toList)
        ["the cat sat".toList]).passageWords ∧
    oralErrorsOf (runChunks (renderSentence "the  cat - sat".toList)
        ["the cat sat".toList]).passageWords = 2 := by
  have h := (empty_form_never_correct "the  cat - sat".toList ["the cat sat".toList] []
    "cat".toList).2.2.2
  exact ⟨by decide, by decide, le_trans (by decide) h, by decide⟩

/-! ### The checks of `checkMatch` that decide nothing -/

theorem not_isWhiteSpace_of_isLowerAlnum (c : Char) (h : isLowerAlnum c = true) :
    isWhiteSpace c = false := by
  simp only [isLowerAlnum, Bool.or_eq_true, Bool.and_eq_true, decide_eq_true_eq] at h
  unfold isWhiteSpace
  generalize c.toNat = n at h
  rcases h with ⟨h1, h2⟩ | ⟨h1, h2⟩ <;> interval_cases n <;> rfl

theorem splitWsFrom_of_no_space (s : Str) (h : ∀ c ∈ s, isWhiteSpace c = false) :
    ∀ b : Bool, splitWsFrom b s = [s] := by
  induction s with
  | nil => intro b; rfl
  | cons c rest ih =>
    intro b
    simp only [splitWsFrom, h c (List.mem_cons_self _ _), Bool.false_eq_true, if_false,
      ih (fun x hx => h x (List.mem_cons_of_mem _ hx)) false]

theorem splitWs_cleanWord (w : Str) : splitWs (cleanWord w) = [cleanWord w] := by
  apply splitWsFrom_of_no_space
  intro c hc
  apply not_isWhiteSpace_of_isLowerAlnum
  unfold cleanWord at hc
  exact (List.mem_filter.mp hc).2

theorem includes_of_all_singleton (s t : Str)
    (h : (!s.isEmpty && s.all (fun c => [c] == t)) = true) : includes s t = true := by
  cases s with
  | nil => simp at h
  | cons c rest =>
    simp only [List.isEmpty_cons, Bool.not_false, Bool.true_and, List.all_cons,
      Bool.and_eq_true, beq_iff_eq] at h
    rw [← h.1]
    exact includes_cons_singleton c rest

/-- Deleting the repetition check for single letters, the repetition check for whole
words and the phrase-matching branch from `checkMatch` gives a function that is equal
on every input, exceptions included. -/
theorem checkMatch_eq_withoutDeadChecks (spoken target : Str) :
    checkMatch spoken target = checkMatchWithoutDeadChecks spoken target := by
  simp only [checkMatch, checkMatchWithoutDeadChecks, splitWs_cleanWord, phrase_branch_dead,
    List.length_singleton, gt_iff_lt, Nat.lt_irrefl, decide_False, Bool.false_and,
    Bool.false_eq_true, if_false]
  by_cases hinc : includes (cleanWord spoken) (cleanWord target) = true
  · simp only [hinc, if_true]
  · have hrep : (decide ((cleanWord target).length = 1) &&
        decide (1 < (cleanWord spoken).length) &&
        (!(cleanWord spoken).isEmpty &&
          (cleanWord spoken).all (fun c => [c] == cleanWord target))) = false := by
      rw [Bool.eq_false_iff]
      intro hx
      rw [Bool.and_eq_true] at hx
      exact hinc (includes_of_all_singleton _ _ hx.2)
    simp only [hrep, Bool.false_eq_true, if_false]

theorem mem_of_lookup_eq_some (key : Str) (values : List Str) :
    ∀ table : List (Str × List Str), table.lookup key = some values →
      (key, values) ∈ table := by
  intro table
  induction table with
  | nil => intro h; simp [List.lookup] at h
  | cons p rest ih =>
    intro h
    obtain ⟨k, v⟩ := p
    simp only [List.lookup] at h
    split at h
    · next hk =>
      simp only [Option.some.injEq] at h
      rw [beq_iff_eq] at hk
      subst hk h
      exact List.mem_cons_self _ _
    · exact List.mem_cons_of_mem _ (ih h)

theorem digit_keys_are_digits :
    ∀ p ∈ DIGIT_MAP, (!p.1.isEmpty && p.1.all isDigit) = true := by
  decide

theorem allDigits_of_lookup (s : Str) (ws : List Str) (h : DIGIT_MAP.lookup s = some ws) :
    (!s.isEmpty && s.all isDigit) = true :=
  digit_keys_are_digits (s, ws) (mem_of_lookup_eq_some s ws DIGIT_MAP h)

/-- The characterisation of `checkMatch` on non-empty strings, when the read of the
letter table does not find a member inherited from `Object.prototype`: the result is
true exactly when one of the six conditions of the specification holds. -/
theorem checkMatch_eq_stated (spoken target : Str) (hs : spoken ≠ []) (ht : target ≠ [])
    (hown : propRead getLetterMappings (cleanWord target) ≠ PropRead.inherited) :
    checkMatch spoken target = some (checkMatchAsStated spoken target) := by
  rw [checkMatch_eq_withoutDeadChecks]
  simp only [checkMatchWithoutDeadChecks, checkMatchAsStated, if_neg (not_or.mpr ⟨hs, ht⟩)]
  generalize cleanWord spoken = s at *
  generalize cleanWord target = t at *
  unfold propRead at hown ⊢
  cases hl : getLetterMappings.lookup t with
  | none =>
    rw [hl] at hown
    simp only at hown
    have hund : (if objectPrototypeKeys.contains t = true then PropRead.inherited
        else PropRead.undefined) = PropRead.undefined := by
      split_ifs at hown ⊢
      · exact absurd rfl hown
      · rfl
    simp only [hund]
    cases hd : DIGIT_MAP.lookup s with
    | none =>
      by_cases h1 : s = t <;> by_cases h2 : includes s t = true <;>
        by_cases h3 : (decide (t.length > 3) && decide (dist s t ≤ 1)) = true <;>
        simp [h1, h2, h3]
    | some ws =>
      have hall := allDigits_of_lookup s ws hd
      cases ws with
      | nil =>
        by_cases h1 : s = t <;> by_cases h2 : includes s t = true <;>
          by_cases h3 : (decide (t.length > 3) && decide (dist s t ≤ 1)) = true <;>
          simp [h1, h2, h3, hall]
      | cons w more =>
        by_cases h4 : t = w
        · subst h4
          by_cases h1 : s = t <;> simp [h1, hall]
        · have h4c : ¬ w = t := fun h => h4 h.symm
          by_cases h0 : t ∈ more <;> by_cases h1 : s = t <;>
            by_cases h2 : includes s t = true <;>
            by_cases h3 : (decide (t.length > 3) && decide (dist s t ≤ 1)) = true <;>
            simp [h0, h1, h2, h3, h4, h4c, hall]
  | some opts =>
    simp only
    cases hd : DIGIT_MAP.lookup s with
    | none =>
      by_cases h1 : s = t <;> by_cases h2 : includes s t = true <;>
        by_cases h5 : opts.any (fun opt => includes s (cleanWord opt)) = true <;>
        by_cases h3 : (decide (t.length > 3) && decide (dist s t ≤ 1)) = true <;>
        simp [h1, h2, h3, h5]
    | some ws =>
      have hall := allDigits_of_lookup s ws hd
      cases ws with
      | nil =>
        by_cases h1 : s = t <;> by_cases h2 : includes s t = true <;>
          by_cases h5 : opts.any (fun opt => includes s (cleanWord opt)) = true <;>
          by_cases h3 : (decide (t.length > 3) && decide (dist s t ≤ 1)) = true <;>
          simp [h1, h2, h3, h5, hall]
      | cons w more =>
        by_cases h4 : t = w
        · subst h4
          by_cases h1 : s = t <;> simp [h1, hall]
        · have h4c : ¬ w = t := fun h => h4 h.symm
          by_cases h0 : t ∈ more <;> by_cases h1 : s = t <;>
            by_cases h2 : includes s t = true <;>
            by_cases h5 : opts.any (fun opt => includes s (cleanWord opt)) = true <;>
            by_cases h3 : (decide (t.length > 3) && decide (dist s t ≤ 1)) = true <;>
            simp [h0, h1, h2, h3, h4, h4c, h5, hall]

/-- Claim C30, at the spoken text `constructo` and the target `constructor`: both are
their own normalized forms, the target has more than 3 characters and `dist` between
them is `1`, so the characterisation holds, by its last condition alone; but
`checkMatch` reads the letter table at `constructor` before it computes the distance,
finds the member inherited from `Object.prototype`, and raises instead of returning
true. -/
theorem checkMatch_raises_before_distance :
    cleanWord "constructo".toList = "constructo".toList ∧
    cleanWord "constructor".toList = "constructor".toList ∧
    ("constructor".toList).length > 3 ∧
    dist "constructo".toList "constructor".toList = 1 ∧
    includes "constructo".toList "constructor".toList = false ∧
    getLetterMappings.lookup "constructor".toList = none ∧
    checkMatchAsStated "constructo".toList "constructor".toList = true ∧
    propRead getLetterMappings "constructor".toList = PropRead.inherited ∧
    checkMatch "constructo".toList "constructor".toList = none ∧
    checkMatchWithoutDeadChecks "constructo".toList "constructor".toList = none := by
  decide

end Alpharia
